import Mathlib

/-!
Shallow embedding of the metadata resolution and matching engine of the
google-takeout media backup scripts (MediaBackupProject/scripts), together
with theorems checking the natural-language specification against it.

Conventions of the embedding:
* Python strings are modelled as `List Char` (`Str`); `str.lower()` is
  modelled as ASCII lowercasing, which is faithful for the ASCII file
  names the scripts manipulate.
* Python floats are modelled as rationals `ℚ`; numeric strings that
  `float(...)` accepts are modelled by the rational they denote.
* `os.path.join` is modelled with the separator `'/'`, and
  `os.path.normcase` (the scripts run on Windows) as lowercasing.
* Filesystem state consulted by a piece of code is supplied as explicit
  oracle data (for example the set of existing paths), and every side
  effect is recorded in an explicit effect trace.
-/

set_option maxHeartbeats 1000000

abbrev Str := List Char

/-- Lowercase one ASCII character (model of `str.lower` per character). -/
def lowerChar (c : Char) : Char :=
  if 'A' ≤ c ∧ c ≤ 'Z' then Char.ofNat (c.toNat + 32) else c

/-- Model of Python `s.lower()` for ASCII strings. -/
def lowerStr (s : Str) : Str := s.map lowerChar

/-- Boolean test that `pat` is a prefix of `s`. -/
def startsWithB : Str → Str → Bool
  | [], _ => true
  | _ :: _, [] => false
  | p :: ps, c :: cs => p == c && startsWithB ps cs

/-- Boolean test that `pat` is a suffix of `s`. -/
def endsWithB (pat s : Str) : Bool := startsWithB pat.reverse s.reverse

/-- Boolean substring test (model of Python `pat in s`). -/
def hasSubB (pat : Str) : Str → Bool
  | [] => startsWithB pat []
  | c :: cs => startsWithB pat (c :: cs) || hasSubB pat cs

/-- Propositional substring occurrence: `s = p ++ pat ++ q` for some `p`, `q`. -/
def OccursIn (pat s : Str) : Prop := ∃ p q, s = p ++ pat ++ q

theorem startsWithB_iff (pat s : Str) : startsWithB pat s = true ↔ ∃ t, s = pat ++ t := by
  induction pat generalizing s with
  | nil => simp [startsWithB]
  | cons p ps ih =>
    cases s with
    | nil => simp [startsWithB]
    | cons c cs =>
      simp only [startsWithB, Bool.and_eq_true, beq_iff_eq, ih]
      constructor
      · rintro ⟨rfl, t, rfl⟩; exact ⟨t, rfl⟩
      · rintro ⟨t, h⟩
        cases h
        exact ⟨rfl, t, rfl⟩

theorem hasSubB_iff (pat s : Str) : hasSubB pat s = true ↔ OccursIn pat s := by
  induction s with
  | nil =>
    simp only [hasSubB, startsWithB_iff, OccursIn]
    constructor
    · rintro ⟨t, h⟩
      exact ⟨[], t, by simpa using h⟩
    · rintro ⟨p, q, h⟩
      refine ⟨q, ?_⟩
      have hp : p = [] := by
        cases p with
        | nil => rfl
        | cons a as => simp at h
      subst hp; simpa using h
  | cons c cs ih =>
    simp only [hasSubB, Bool.or_eq_true, startsWithB_iff, ih, OccursIn]
    constructor
    · rintro (⟨t, h⟩ | ⟨p, q, h⟩)
      · exact ⟨[], t, by simpa using h⟩
      · exact ⟨c :: p, q, by simp [h]⟩
    · rintro ⟨p, q, h⟩
      cases p with
      | nil => exact Or.inl ⟨q, by simpa using h⟩
      | cons a as =>
        simp only [List.cons_append, List.cons.injEq] at h
        exact Or.inr ⟨as, q, h.2⟩

instance (pat s : Str) : Decidable (OccursIn pat s) :=
  decidable_of_iff (hasSubB pat s = true) (hasSubB_iff pat s)

/-- Lexicographic strict order on strings by code point (Python `<` on `str`). -/
def strLtB : Str → Str → Bool
  | [], [] => false
  | [], _ :: _ => true
  | _ :: _, [] => false
  | a :: as, b :: bs => if a < b then true else if b < a then false else strLtB as bs

/-- Non-strict string order used as the sorting relation. -/
def strLeB (a b : Str) : Bool := !(strLtB b a)

theorem strLtB_trichotomy (a b : Str) : strLtB a b = true ∨ a = b ∨ strLtB b a = true := by
  induction a generalizing b with
  | nil => cases b <;> simp [strLtB]
  | cons x xs ih =>
    cases b with
    | nil => simp [strLtB]
    | cons y ys =>
      rcases lt_trichotomy x y with h | h | h
      · left; simp [strLtB, h]
      · subst h
        rcases ih ys with h2 | h2 | h2
        · left; simp [strLtB, h2]
        · right; left; simp [h2]
        · right; right; simp [strLtB, h2]
      · right; right; simp [strLtB, h]

theorem strLtB_asymm (a b : Str) (h : strLtB a b = true) : strLtB b a = false := by
  induction a generalizing b with
  | nil => cases b <;> simp_all [strLtB]
  | cons x xs ih =>
    cases b with
    | nil => simp_all [strLtB]
    | cons y ys =>
      by_cases hxy : x < y
      · have : ¬ y < x := lt_asymm hxy
        simp [strLtB, hxy, this]
      · by_cases hyx : y < x
        · simp [strLtB, hxy, hyx] at h
        · simp only [strLtB, if_neg hxy, if_neg hyx] at h
          simp [strLtB, hxy, hyx, ih ys h]

theorem strLtB_trans (a b c : Str) (h1 : strLtB a b = true) (h2 : strLtB b c = true) :
    strLtB a c = true := by
  induction a generalizing b c with
  | nil =>
    cases b with
    | nil => simp [strLtB] at h1
    | cons y ys => cases c with
      | nil => simp [strLtB] at h2
      | cons z zs => simp [strLtB]
  | cons x xs ih =>
    cases b with
    | nil => simp [strLtB] at h1
    | cons y ys =>
      cases c with
      | nil => simp [strLtB] at h2
      | cons z zs =>
        by_cases hxy : x < y
        · by_cases hyz : y < z
          · simp [strLtB, lt_trans hxy hyz]
          · by_cases hzy : z < y
            · simp [strLtB, hyz, hzy] at h2
            · have : y = z := le_antisymm (not_lt.mp hzy) (not_lt.mp hyz)
              subst this
              simp [strLtB, hxy]
        · by_cases hyx : y < x
          · simp [strLtB, hxy, hyx] at h1
          · have hxey : x = y := le_antisymm (not_lt.mp hyx) (not_lt.mp hxy)
            subst hxey
            simp only [strLtB, lt_self_iff_false, if_false] at h1
            by_cases hxz : x < z
            · simp [strLtB, hxz]
            · by_cases hzx : z < x
              · simp [strLtB, hxz, hzx] at h2
              · have : x = z := le_antisymm (not_lt.mp hzx) (not_lt.mp hxz)
                subst this
                simp only [strLtB, lt_self_iff_false, if_false] at h2 ⊢
                exact ih ys zs h1 h2

/-- The sorting relation as a proposition. -/
def StrLe (a b : Str) : Prop := strLeB a b = true

instance : DecidableRel StrLe := fun a b => decEq (strLeB a b) true

theorem strLtB_irrefl (a : Str) : strLtB a a = false := by
  induction a with
  | nil => rfl
  | cons x xs ih => simp [strLtB, ih]

instance : IsTotal Str StrLe where
  total a b := by
    rcases strLtB_trichotomy a b with h | h | h
    · exact Or.inl (by simp [StrLe, strLeB, strLtB_asymm a b h])
    · subst h
      exact Or.inl (by simp [StrLe, strLeB, strLtB_irrefl])
    · exact Or.inr (by simp [StrLe, strLeB, strLtB_asymm b a h])

instance : IsTrans Str StrLe where
  trans a b c h1 h2 := by
    simp only [StrLe, strLeB, Bool.not_eq_true', Bool.not_eq_true] at h1 h2 ⊢
    by_contra hc
    simp only [Bool.not_eq_false] at hc
    rcases strLtB_trichotomy a b with h | h | h
    · have := strLtB_trans c a b hc h
      rw [this] at h2; cases h2
    · subst h; rw [hc] at h2; cases h2
    · rw [h] at h1; cases h1

/-- Python `sorted` on a list of strings. -/
def sortStrings (l : List Str) : List Str := List.insertionSort StrLe l

/-! ### Filename splitting helpers (process_media_suffix.py, process_media_json_lookup.py)

The Python code uses anchored regular expressions; each is embedded below as
a deterministic parse. The key observation used throughout: in the patterns
`(.+)\((\d{1,3})\)(\.[^.]+)$` and `(.+\.[^.]+)\((\d{1,3})\)$` the extension
part must start at the last dot of the string and the digit group must sit
immediately between a literal `(` and the closing `)`, so greedy matching
with backtracking coincides with the deterministic parse implemented here. -/

/-- Split `f` at its last dot as `f = p ++ '.' ++ e` with `e` dot-free;
`none` when `f` has no dot. Used to locate `\.[^.]+$`-style extensions. -/
def splitAtLastDot (f : Str) : Option (Str × Str) :=
  let sp := f.reverse.span (fun c => c ≠ '.')
  match sp.2 with
  | '.' :: pRev => some (pRev.reverse, sp.1.reverse)
  | _ => none

/-- Parse, at the end of a string given in reversed form, a group
`'(' ++ ds ++ ')'` with `ds` the maximal digit run before the `)`.
Returns the rest (still reversed) and `ds` in normal order. -/
def parseGroupRev (rp : Str) : Option (Str × Str) :=
  match rp with
  | ')' :: rest =>
    let sp := rest.span Char.isDigit
    match sp.2 with
    | '(' :: before => some (before, sp.1.reverse)
    | _ => none
  | _ => none

/-- Model of `os.path.splitext` on a basename: split off the last extension,
keeping leading dots attached to the root. -/
def splitext (f : Str) : Str × Str :=
  let sp := f.reverse.span (fun c => c ≠ '.')
  match sp.2 with
  | '.' :: pRev =>
    if pRev.any (fun c => c ≠ '.') then (pRev.reverse, '.' :: sp.1.reverse)
    else (f, [])
  | _ => (f, [])

/-- Embedding of `normalize_title_variants`: when the title matches
`^(.+?)(\.[^.]+)(\(\d+\))$`, also produce the variant with the suffix moved
before the extension. Returned as a list standing for the Python set. -/
def normalize_title_variants (t : Str) : List Str :=
  match splitAtLastDot t with
  | some (p, r) =>
    if p = [] then [t]
    else
      match parseGroupRev r.reverse with
      | some (mRev, ds) =>
        if mRev = [] ∨ ds = [] then [t]
        else [t, p ++ '(' :: ds ++ ')' :: '.' :: mRev.reverse].dedup
      | none => [t]
  | none => [t]

/-- Embedding of `extract_google_suffix`: `re.search(r'(\(\d+\))(\.[^.]+)$', f)`,
a parenthesised digit group of ANY length immediately before the final
extension. -/
def extract_google_suffix (f : Str) : Option Str :=
  match splitAtLastDot f with
  | some (p, e) =>
    if e = [] then none
    else
      match parseGroupRev p.reverse with
      | some (_, ds) => if ds = [] then none else some ('(' :: ds ++ [')'])
      | none => none
  | none => none

/-- Match `^(.+)\((\d{1,3})\)(\.[^.]+)$`: returns `(name, ds, ext)` with
`ext` including its dot. -/
def matchSuffixBeforeExt (f : Str) : Option (Str × Str × Str) :=
  match splitAtLastDot f with
  | some (p, e) =>
    if e = [] then none
    else
      match parseGroupRev p.reverse with
      | some (beforeRev, ds) =>
        if beforeRev ≠ [] ∧ 1 ≤ ds.length ∧ ds.length ≤ 3 then
          some (beforeRev.reverse, ds, '.' :: e)
        else none
      | none => none
  | none => none

/-- Match `^(.+\.[^.]+)\((\d{1,3})\)$`: returns `(base, ds)`. -/
def matchSuffixAfterExt (f : Str) : Option (Str × Str) :=
  match parseGroupRev f.reverse with
  | some (baseRev, ds) =>
    if 1 ≤ ds.length ∧ ds.length ≤ 3 then
      let base := baseRev.reverse
      match splitAtLastDot base with
      | some (p, e) => if p ≠ [] ∧ e ≠ [] then some (base, ds) else none
      | none => none
    else none
  | none => none

/-- Embedding of `extract_strict_media_suffix`: a `(N)` marker with 1 to 3
digits, immediately before or immediately after the extension. -/
def extract_strict_media_suffix (f : Str) : Option Str :=
  match matchSuffixBeforeExt f with
  | some (_, ds, _) => some ('(' :: ds ++ [')'])
  | none =>
    match matchSuffixAfterExt f with
    | some (_, ds) => some ('(' :: ds ++ [')'])
    | none => none

/-- Embedding of `split_media_suffix`: returns
`(base_without_suffix, suffix, suffix_after_ext_variant, suffix_before_ext_variant)`. -/
def split_media_suffix (f : Str) : Str × Option Str × Option Str × Option Str :=
  match matchSuffixBeforeExt f with
  | some (name, ds, ext) =>
    let suffix := '(' :: ds ++ [')']
    let base := name ++ ext
    (base, some suffix, some (base ++ suffix), some f)
  | none =>
    match matchSuffixAfterExt f with
    | some (base, ds) =>
      let suffix := '(' :: ds ++ [')']
      let se := splitext base
      (base, some suffix, some f, some (se.1 ++ suffix ++ se.2))
    | none => (f, none, none, none)

/-- Embedding of `with_extension_variants`: add the `.jpg`/`.jpeg` spelling
variant when applicable. Returned as a list standing for the Python set. -/
def with_extension_variants (f : Str) : List Str :=
  let se := splitext f
  if lowerStr se.2 = ".jpg".toList then [f, se.1 ++ ".jpeg".toList]
  else if lowerStr se.2 = ".jpeg".toList then [f, se.1 ++ ".jpg".toList]
  else [f]

/-- Embedding of `generate_json_candidates_for_media`: the exact JSON sidecar
names probed for a media file, never guessing a suffix other than the
media file's own. Mirrors the Python set construction followed by `sorted`. -/
def generate_json_candidates_for_media (m : Str) : List Str :=
  let sms := split_media_suffix m
  let base_without_suffix := sms.1
  let variants : List Str :=
    match sms.2.1, sms.2.2.1, sms.2.2.2 with
    | some _, some aft, some bef => [m, aft, bef].dedup
    | _, _, _ => [m]
  let variants_with_ext := (variants.flatMap with_extension_variants).dedup
  let primaryC := variants_with_ext.map (fun v => v ++ ".json".toList)
  let suppC :=
    match sms.2.1 with
    | some suffix =>
      (with_extension_variants base_without_suffix).flatMap
        (fun b => [b ++ ".supplemental-metadata".toList ++ suffix ++ ".json".toList,
                   b ++ ".sup".toList ++ suffix ++ ".json".toList]) ++
      variants_with_ext.flatMap
        (fun v => [v ++ ".supplemental-metadata.json".toList,
                   v ++ ".supplemental-metadata".toList ++ suffix ++ ".json".toList,
                   v ++ ".sup.json".toList,
                   v ++ ".sup".toList ++ suffix ++ ".json".toList])
    | none =>
      variants_with_ext.flatMap
        (fun v => [v ++ ".supplemental-metadata.json".toList, v ++ ".sup.json".toList])
  sortStrings ((primaryC ++ suppC).dedup)


/-! ### Sidecar JSON model and timestamp/GPS extraction (process_media_json.py) -/

/-- Value found under `photoTakenTime.timestamp` / `creationTime.timestamp`:
missing (`tnull`), a JSON number, or a JSON string. -/
inductive TsVal
  | tnull
  | tint (n : Int)
  | tstr (s : Str)
deriving DecidableEq

/-- Python truthiness of a timestamp field (`if not timestamp`). -/
def tsTruthy : TsVal → Bool
  | .tnull => false
  | .tint n => n != 0
  | .tstr s => s ≠ []

/-- Digits to a natural number. -/
def digitsToNat (ds : Str) : Nat :=
  ds.foldl (fun a c => a * 10 + (c.toNat - '0'.toNat)) 0

/-- Model of Python `int(str)`: optional surrounding spaces, optional sign,
then decimal digits; anything else raises (`none`). -/
def parseIntStr (s : Str) : Option Int :=
  let t := ((s.dropWhile (fun c => c = ' ')).reverse.dropWhile (fun c => c = ' ')).reverse
  match t with
  | '-' :: ds => if ds ≠ [] ∧ ds.all Char.isDigit then some (-(digitsToNat ds : Int)) else none
  | '+' :: ds => if ds ≠ [] ∧ ds.all Char.isDigit then some ((digitsToNat ds : Int)) else none
  | ds => if ds ≠ [] ∧ ds.all Char.isDigit then some ((digitsToNat ds : Int)) else none

/-- Model of `int(timestamp)` on a field value (`int` of an int is itself). -/
def tsToInt : TsVal → Option Int
  | .tnull => none
  | .tint n => some n
  | .tstr s => parseIntStr s

/-- Numeric-convertible JSON value inside a GPS block: a JSON number, a
numeric string (modelled by the rational `float()` yields), or a value on
which `float()` raises. -/
inductive JVal
  | num (q : ℚ)
  | strnum (q : ℚ)
  | bad
deriving DecidableEq

/-- One `geoDataExif`/`geoData` block; a field may be absent. -/
structure GeoBlock where
  latitude : Option JVal
  longitude : Option JVal
  altitude : Option JVal
deriving DecidableEq

/-- Parsed sidecar JSON document. A missing or empty (hence falsy) GPS block
is `none`. -/
structure SidecarDoc where
  photoTakenTs : TsVal
  creationTs : TsVal
  geoDataExif : Option GeoBlock
  geoData : Option GeoBlock
deriving DecidableEq

/-- Timestamp sanity-check bounds from `get_timestamp_from_json`. -/
def min_timestamp : Int := 0

/-- Upper sanity bound: Unix epoch seconds for 2030-01-01. -/
def max_timestamp : Int := 1893456000

/-- Result of `get_timestamp_from_json`: the returned value plus whether an
out-of-range warning line was printed. -/
structure TsReadResult where
  result : Option Int
  warned : Bool
deriving DecidableEq

/-- Embedding of `get_timestamp_from_json`: prefer `photoTakenTime.timestamp`
when truthy, else `creationTime.timestamp`; parse with `int(...)`; warn on
out-of-range values but still return them. -/
def get_timestamp_from_json (doc : SidecarDoc) : TsReadResult :=
  let t := if tsTruthy doc.photoTakenTs then doc.photoTakenTs else doc.creationTs
  if tsTruthy t then
    match tsToInt t with
    | none => ⟨none, false⟩
    | some n => ⟨some n, decide (n < min_timestamp ∨ n > max_timestamp)⟩
  else ⟨none, false⟩

/-- Model of `float(block.get(field, 0))`: a missing field defaults to `0`;
`bad` raises (`none`). -/
def floatOfJVal : Option JVal → Option ℚ
  | none => some 0
  | some (.num q) => some q
  | some (.strnum q) => some q
  | some .bad => none

/-- The Null Island invalidity test as written in the source:
`abs(lat) < 0.0001 and abs(lon) < 0.0001`. -/
def nullIsland (lat lon : ℚ) : Prop := |lat| < mkRat 1 10000 ∧ |lon| < mkRat 1 10000

instance (lat lon : ℚ) : Decidable (nullIsland lat lon) := by
  unfold nullIsland
  infer_instance

/-- GPS extraction from one block: convert all three fields, then keep the
pair unless it is Null Island; a conversion failure yields `none`. -/
def blockGps (b : GeoBlock) : Option (ℚ × ℚ × ℚ) :=
  match floatOfJVal b.latitude, floatOfJVal b.longitude, floatOfJVal b.altitude with
  | some lat, some lon, some alt =>
    if nullIsland lat lon then none else some (lat, lon, alt)
  | _, _, _ => none

/-- Embedding of `get_valid_gps_from_supplemental`: try `geoDataExif`, fall
back to `geoData`; only a non-Null-Island coordinate is returned. -/
def get_valid_gps_from_supplemental (doc : SidecarDoc) : Option (ℚ × ℚ × ℚ) :=
  match doc.geoDataExif with
  | some b =>
    (match blockGps b with
     | some g => some g
     | none =>
       match doc.geoData with
       | some b2 => blockGps b2
       | none => none)
  | none =>
    match doc.geoData with
    | some b2 => blockGps b2
    | none => none

/-! ### Embedded GPS read (process_media_exif.py, get_embedded_gps) -/

/-- One stripped stdout line of the exiftool GPS query: empty, a numeric
value (as rational), or a non-numeric string on which `float()` raises. -/
inductive FStr
  | fempty
  | fnum (q : ℚ)
  | fbad
deriving DecidableEq

/-- Embedding of `get_embedded_gps`: input is the stdout lines of the
exiftool query (`none` when the tool invocation raised). Returns
`(has_gps, is_valid)`. -/
def get_embedded_gps (out : Option (List FStr)) : Bool × Bool :=
  match out with
  | none => (false, false)
  | some lines =>
    match lines with
    | l1 :: l2 :: _ =>
      match l1, l2 with
      | .fempty, _ => (false, false)
      | _, .fempty => (false, false)
      | .fnum lat, .fnum lon =>
        if nullIsland lat lon then (true, false) else (true, true)
      | _, _ => (true, false)
    | _ => (false, false)

/-! ### Per-path JSON access and the per-list pickers (process_media_workflow.py) -/

/-- The readable sidecar files: path to parsed document; a path not present
stands for an unreadable or malformed file (every reader catches and
returns `None`). -/
abbrev JsonStore := List (Str × SidecarDoc)

/-- Lookup of a path in the store. -/
def lookupStore (js : JsonStore) (p : Str) : Option SidecarDoc :=
  match js with
  | [] => none
  | (k, v) :: rest => if k = p then some v else lookupStore rest p

/-- The value `get_timestamp_from_json(path)` returns for a path. -/
def tsAtPath (js : JsonStore) (p : Str) : Option Int :=
  match lookupStore js p with
  | none => none
  | some doc => (get_timestamp_from_json doc).result

/-- The value `get_valid_gps_from_supplemental(path)` returns for a path. -/
def gpsAtPath (js : JsonStore) (p : Str) : Option (ℚ × ℚ × ℚ) :=
  match lookupStore js p with
  | none => none
  | some doc => get_valid_gps_from_supplemental doc

/-- Loop body of `pick_timestamp_from_json_list` over the already-sorted
paths: first truthy (non-zero) timestamp wins. -/
def pickTsGo (js : JsonStore) : List Str → Option Int
  | [] => none
  | p :: ps =>
    match tsAtPath js p with
    | some t => if t = 0 then pickTsGo js ps else some t
    | none => pickTsGo js ps

/-- Embedding of `pick_timestamp_from_json_list`. -/
def pick_timestamp_from_json_list (paths : List Str) (js : JsonStore) : Option Int :=
  pickTsGo js (sortStrings paths)

/-- Loop body of `pick_gps_from_json_list` over the already-sorted paths. -/
def pickGpsGo (js : JsonStore) : List Str → Option (ℚ × ℚ × ℚ)
  | [] => none
  | p :: ps =>
    match gpsAtPath js p with
    | some g => some g
    | none => pickGpsGo js ps

/-- Embedding of `pick_gps_from_json_list`. -/
def pick_gps_from_json_list (paths : List Str) (js : JsonStore) : Option (ℚ × ℚ × ℚ) :=
  pickGpsGo js (sortStrings paths)

/-! ### Matching and lookup (process_media_matching.py, process_media_json_lookup.py) -/

/-- Strip a suffix from a string when present. -/
def stripSuffixStr (suf s : Str) : Option Str :=
  if endsWithB suf s then some (s.take (s.length - suf.length)) else none

/-- Test for the pattern `\.sup(\(\d+\))?\.json$` on an already-lowered name. -/
def endsWithSupJson (l : Str) : Bool :=
  endsWithB ".sup.json".toList l ||
  (match stripSuffixStr ".json".toList l with
   | some rest =>
     (match parseGroupRev rest.reverse with
      | some (beforeRev, ds) => ds ≠ [] && endsWithB ".sup".toList beforeRev.reverse
      | none => false)
   | none => false)

/-- Embedding of `is_supplemental_json_name`. -/
def is_supplemental_json_name (f : Str) : Bool :=
  let l := lowerStr f
  hasSubB ".supplemental-metadata".toList l || endsWithSupJson l

/-- Case-insensitive filename to full path map (a Python dict: the LAST
binding for a key wins). -/
abbrev Dict := List (Str × Str)

/-- Python `dict.get`: last binding for the key. -/
def dictGet (d : Dict) (k : Str) : Option Str :=
  match d with
  | [] => none
  | (k2, v) :: rest =>
    match dictGet rest k with
    | some v2 => some v2
    | none => if k2 = k then some v else none

/-- Embedding of `build_json_lookup` over a directory listing. -/
def build_json_lookup (jsonDir : Str) (listing : List Str) : Dict :=
  (listing.filter (fun f => endsWithB ".json".toList (lowerStr f))).map
    (fun f => (lowerStr f, jsonDir ++ '/' :: f))

/-- Model of `os.path.basename` for forward-slash paths. -/
def basenameFn (p : Str) : Str := (p.reverse.takeWhile (fun c => c ≠ '/')).reverse

/-- Loop of `match_json_for_media` over the candidate names. -/
def matchGo (lookup : Dict) : List Str → List Str × List Str
  | [] => ([], [])
  | c :: cs =>
    let r := matchGo lookup cs
    match dictGet lookup (lowerStr c) with
    | none => r
    | some path =>
      if is_supplemental_json_name c then (r.1, path :: r.2) else (path :: r.1, r.2)

/-- Embedding of `match_json_for_media`: `(primary_paths, supplemental_paths)`. -/
def match_json_for_media (m : Str) (lookup : Dict) : List Str × List Str :=
  matchGo lookup (generate_json_candidates_for_media m)

/-- Fuel-driven loop of string replacement. -/
def replaceAllGo (pat : Str) : Nat → Str → Str
  | _, [] => []
  | 0, s => s
  | Nat.succ fuel, c :: cs =>
    if startsWithB pat (c :: cs) then replaceAllGo pat fuel (List.drop (pat.length - 1) cs)
    else c :: replaceAllGo pat fuel cs

/-- Model of Python `s.replace(pat, '')` for nonempty `pat` (left-to-right,
non-overlapping). -/
def replaceAll (pat s : Str) : Str :=
  if pat = [] then s else replaceAllGo pat s.length s

/-- First variant carrying a Google suffix, with the suffix removed
(the `for variant in variants: ... break` loop of
`find_all_supplemental_for_basename`). -/
def firstGoogle : List Str → Option (Str × Str)
  | [] => none
  | v :: vs =>
    match extract_google_suffix v with
    | some s => some (s, replaceAll s v)
    | none => firstGoogle vs

/-- Supplemental index: de-suffixed lower-case base key to candidate paths
(a Python dict of lists; last binding wins, missing key gives `[]`). -/
abbrev SuppIndex := List (Str × List Str)

/-- Python `dict.get(key, [])` on the supplemental index. -/
def indexGet (idx : SuppIndex) (k : Str) : List Str :=
  match idx with
  | [] => []
  | (k2, v) :: rest =>
    match rest.find? (fun e => e.1 = k) with
    | some _ => indexGet rest k
    | none => if k2 = k then v else indexGet rest k

/-- Embedding of `find_all_supplemental_for_basename`. -/
def find_all_supplemental_for_basename (basename : Str) (idx : SuppIndex) : List Str :=
  let variants := normalize_title_variants basename
  let fg := firstGoogle variants
  let suffix : Option Str := fg.map (fun x => x.1)
  let base_without_suffix : Str :=
    match fg with
    | some (_, b) => if b = [] then basename else b
    | none => basename
  let base_name_key := lowerStr base_without_suffix
  let candidates := indexGet idx base_name_key
  if candidates = [] then []
  else
    let expected : List Str :=
      match suffix with
      | some suf =>
        let variants_with_suffix := (variants ++ [base_without_suffix ++ suf]).dedup
        ((normalize_title_variants base_without_suffix).flatMap
          (fun b => [b ++ ".supplemental-metadata".toList ++ suf ++ ".json".toList,
                     b ++ ".sup".toList ++ suf ++ ".json".toList]) ++
         variants_with_suffix.flatMap
          (fun v => [v ++ ".supplemental-metadata.json".toList,
                     v ++ ".supplemental-metadata".toList ++ suf ++ ".json".toList,
                     v ++ ".sup.json".toList,
                     v ++ ".sup".toList ++ suf ++ ".json".toList])).dedup
      | none =>
        (variants.flatMap
          (fun v => [v ++ ".supplemental-metadata.json".toList,
                     v ++ ".sup.json".toList])).dedup
    let expected_lower := expected.map lowerStr
    candidates.filter (fun p => lowerStr (basenameFn p) ∈ expected_lower)


/-! ### Dates (datetime.fromtimestamp in UTC) -/

/-- A UTC datetime as used by the scripts (seconds precision). -/
structure DateTime where
  year : Nat
  month : Nat
  day : Nat
  hour : Nat
  minute : Nat
  second : Nat
deriving DecidableEq

/-- Days since 1970-01-01 to civil date (Howard Hinnant's algorithm). -/
def civilFromDays (z0 : Int) : Int × Nat × Nat :=
  let z := z0 + 719468
  let era := z.fdiv 146097
  let doe := (z - era * 146097).toNat
  let yoe := (doe - doe / 1460 + doe / 36524 - doe / 146096) / 365
  let doy := doe - (365 * yoe + yoe / 4 - yoe / 100)
  let mp := (5 * doy + 2) / 153
  let d := doy - (153 * mp + 2) / 5 + 1
  let m := if mp < 10 then mp + 3 else mp - 9
  let y := (yoe : Int) + era * 400 + (if m ≤ 2 then 1 else 0)
  (y, m, d)

/-- Smallest epoch second `datetime.fromtimestamp(_, timezone.utc)` accepts
(0001-01-01T00:00:00Z). -/
def datetimeMinTs : Int := -62135596800

/-- Largest epoch second accepted (9999-12-31T23:59:59Z). -/
def datetimeMaxTs : Int := 253402300799

/-- Model of `datetime.fromtimestamp(ts, timezone.utc)`; `none` models the
raised exception for out-of-range values. -/
def fromtimestampUTC (ts : Int) : Option DateTime :=
  if ts < datetimeMinTs ∨ ts > datetimeMaxTs then none
  else
    let days := ts.fdiv 86400
    let sod := (ts - days * 86400).toNat
    let c := civilFromDays days
    some ⟨c.1.toNat, c.2.1, c.2.2, sod / 3600, sod % 3600 / 60, sod % 60⟩

/-- Decimal digits of a natural number. -/
def natToStr (n : Nat) : Str := Nat.toDigits 10 n

/-- Zero-pad to a width. -/
def padZero (w : Nat) (s : Str) : Str := List.replicate (w - s.length) '0' ++ s

/-- `date.strftime("%Y")`. -/
def fmtYear (d : DateTime) : Str := padZero 4 (natToStr d.year)

/-- `date.strftime("%m")`. -/
def fmtMonth (d : DateTime) : Str := padZero 2 (natToStr d.month)

/-! ### Effect trace and per-file processing (process_media_workflow.py) -/

/-- One observable action of the pipeline. `logMsg` is console output; all
other constructors mutate the filesystem, a ledger file, or file metadata. -/
inductive Eff
  | logMsg (s : Str)
  | makedirs (d : Str)
  | moveFile (src dst : Str)
  | copyFile (src dst : Str)
  | appendProcessedFile (p : Str)
  | appendWorkItem (k : Str)
  | appendPathTooLong (src dst : Str) (n : Nat)
  | appendExifFailure (p : Str) (tag : Str)
  | exifWriteTimestamps (p : Str) (d : DateTime)
  | exifWriteGps (p : Str) (la lo al : ℚ)
  | renameNormalize (src dst : Str)
  | removeFile (p : Str)
  | rmtree (d : Str)
  | extractZip (a d : Str)
deriving DecidableEq

/-- The path constants of the run (process_media_config.py). -/
structure Cfg where
  finalLibraryDir : Str
  orphanMediaDir : Str
  pathTooLongDir : Str
  jsonRepositoryDir : Str
  takeoutArchivesDir : Str
  extractTargetDir : Str
  processedLogFile : Str
  processedWorkItemsLogFile : Str
deriving DecidableEq

/-- Oracle data for processing one media file: the snapshot of existing
paths consulted by `os.path.exists`, and the answers of the external
exiftool collaborator. -/
structure FileEnv where
  fsExists : List Str
  embeddedDt : Option DateTime
  realExt : Str
  normalizeTo : Option Str
  gpsOut : Option (List FStr)
  tsWriteFails : Bool
  gpsWriteFails : Bool
deriving DecidableEq

/-- Embedding of `copy_jsons`: copy each matched sidecar (deduplicated,
sorted) into `destDir` unless the destination already exists. -/
def copy_jsons (fsExists : List Str) (jsonPaths : List Str) (destDir : Str) : List Eff :=
  (sortStrings jsonPaths.dedup).flatMap (fun p =>
    let dest := destDir ++ '/' :: basenameFn p
    if dest ∈ fsExists then [] else [.copyFile p dest])

/-- Embedding of `validate_path_length`: `(path_length < max_length, path_length)`. -/
def validate_path_length (p : Str) (maxLen : Nat) : Bool × Nat :=
  (decide (p.length < maxLen), p.length)

/-- Embedding of `get_media_bundle_dir`. -/
def get_media_bundle_dir (destRoot mediaPath : Str) : Str :=
  destRoot ++ '/' :: (splitext (basenameFn mediaPath)).1

/-- Oracle model of `normalize_media_extension`: the external tool either
leaves the path unchanged or renames it (never overwriting). Returns the
path the caller continues with, plus the trace. -/
def normalize_media_extension (env : FileEnv) (p : Str) : Str × List Eff :=
  match env.normalizeTo with
  | none => (p, [])
  | some q => (q, [.renameNormalize p q])

/-- The source of the resolved capture timestamp. -/
inductive TsSource
  | embedded
  | primary_json
  | supplemental
deriving DecidableEq

/-- Embedding of the timestamp precedence chain of `process_media_files`
(process_media_workflow.py lines 141-158): embedded wins, else primary
JSON, else supplemental, else unresolved (`ok none`). `error` models the
exception raised by `datetime.fromtimestamp` for unrepresentable values;
it is caught by the per-file handler. -/
def resolve_timestamp (embeddedDt : Option DateTime) (primary supp : List Str)
    (js : JsonStore) : Except Unit (Option (DateTime × TsSource)) :=
  match embeddedDt with
  | some d => .ok (some (d, .embedded))
  | none =>
    match pick_timestamp_from_json_list primary js with
    | some t =>
      (match fromtimestampUTC t with
       | some d => .ok (some (d, .primary_json))
       | none => .error ())
    | none =>
      match pick_timestamp_from_json_list supp js with
      | some t =>
        (match fromtimestampUTC t with
         | some d => .ok (some (d, .supplemental))
         | none => .error ())
      | none => .ok none

/-- Effects of the no-usable-timestamp divert to the unmatched-media review
folder (lines 159-170). -/
def orphanDivert (cfg : Cfg) (isLive : Bool) (env : FileEnv) (media : Str)
    (matched : List Str) : List Eff :=
  let base := basenameFn media
  Eff.logMsg ("WARNING: No usable timestamp for ".toList ++ base) ::
  (if isLive then
    Eff.makedirs cfg.orphanMediaDir ::
    ((let dest := cfg.orphanMediaDir ++ '/' :: base
      if dest ∈ env.fsExists then [] else [Eff.moveFile media dest]) ++
     copy_jsons env.fsExists matched cfg.orphanMediaDir ++
     [Eff.appendProcessedFile media])
  else [])

/-- Effects of the destination-path-too-long divert (lines 180-194). -/
def ptlDivert (cfg : Cfg) (isLive : Bool) (env : FileEnv) (media destMedia : Str)
    (matched : List Str) (plen : Nat) : List Eff :=
  let base := basenameFn media
  Eff.logMsg ("WARNING: Destination path too long".toList) ::
  Eff.logMsg ("Moving to path-too-long review folder: ".toList ++ base) ::
  (if isLive then
    Eff.makedirs cfg.pathTooLongDir ::
    ((let dest := cfg.pathTooLongDir ++ '/' :: base
      if dest ∈ env.fsExists then [] else [Eff.moveFile media dest]) ++
     copy_jsons env.fsExists matched cfg.pathTooLongDir ++
     [Eff.appendPathTooLong media destMedia plen,
      Eff.appendProcessedFile media])
  else [])

/-- Effects of the collision branch: the destination file already exists
(lines 198-205). Nothing is moved or overwritten. -/
def collisionSkip (env : FileEnv) (media : Str) (matched : List Str)
    (destDir : Str) : List Eff :=
  Eff.logMsg ("WARNING: Media file already exists in destination. Skipping.".toList) ::
  ((if matched ≠ [] then
      copy_jsons env.fsExists matched destDir ++
      [Eff.logMsg ("Copied JSON files to destination".toList)]
    else []) ++
   [Eff.appendProcessedFile media])

/-- Timestamp-merge effects of the live commit branch (lines 211-240):
only JSON-sourced dates are written back; a tool failure is logged. -/
def tsMergeEffs (env : FileEnv) (media destMedia2 : Str) (date : DateTime)
    (srcTag : TsSource) (primary : List Str) : List Eff :=
  match srcTag with
  | .primary_json =>
    if env.tsWriteFails then
      [Eff.logMsg ("WARNING: Failed to merge timestamps from primary JSON".toList),
       Eff.appendExifFailure media "primary_json".toList]
    else
      Eff.exifWriteTimestamps destMedia2 date ::
      (if primary ≠ [] then [Eff.logMsg ("Merged timestamps from primary JSON".toList)] else [])
  | .supplemental =>
    if env.tsWriteFails then
      [Eff.logMsg ("WARNING: Failed to merge timestamps from supplemental metadata".toList),
       Eff.appendExifFailure media "supplemental_timestamp".toList]
    else
      [Eff.exifWriteTimestamps destMedia2 date,
       Eff.logMsg ("Merged timestamps from supplemental metadata".toList)]
  | .embedded => []

/-- GPS-merge effects of the live commit branch (lines 246-263): only when
supplemental sidecars matched and the embedded GPS is absent or invalid. -/
def gpsMergeEffs (env : FileEnv) (js : JsonStore) (media destMedia2 : Str)
    (supp : List Str) : List Eff :=
  if supp ≠ [] then
    let g := get_embedded_gps env.gpsOut
    if g.1 = false ∨ g.2 = false then
      match pick_gps_from_json_list supp js with
      | some (la, lo, al) =>
        if env.gpsWriteFails then
          [Eff.logMsg ("WARNING: Failed to merge GPS data".toList),
           Eff.appendExifFailure media "supplemental_gps".toList]
        else
          [Eff.exifWriteGps destMedia2 la lo al,
           Eff.logMsg ("Added GPS from supplemental metadata".toList)]
      | none => []
    else []
  else []

/-- Effects of the live commit branch (lines 207-266): move, extension
normalization, timestamp merge for JSON-sourced dates, sidecar copies,
GPS merge from supplemental sidecars, and the per-file ledger append. -/
def commitLive (env : FileEnv) (js : JsonStore) (media : Str)
    (primary supp matched : List Str) (destDir destMedia : Str)
    (date : DateTime) (srcTag : TsSource) : List Eff :=
  let nm := normalize_media_extension env destMedia
  let destMedia2 := nm.1
  Eff.moveFile media destMedia ::
  Eff.logMsg ("Moved media from workbench to destination".toList) ::
  (nm.2 ++
   tsMergeEffs env media destMedia2 date srcTag primary ++
   copy_jsons env.fsExists matched destDir ++
   (if matched ≠ [] then [Eff.logMsg ("Copied JSON files to destination".toList)] else []) ++
   gpsMergeEffs env js media destMedia2 supp ++
   [Eff.appendProcessedFile media])

/-- Dry-run log lines of the main branch (lines 267-277). -/
def dryRunLogs (matched : List Str) (srcTag : TsSource) : List Eff :=
  Eff.logMsg ("DRY RUN Would move media to destination".toList) ::
  ((match srcTag with
    | .primary_json => [Eff.logMsg ("DRY RUN Would embed timestamps from primary JSON".toList)]
    | .supplemental => [Eff.logMsg ("DRY RUN Would embed timestamps from supplemental metadata".toList)]
    | .embedded => [Eff.logMsg ("DRY RUN Would preserve embedded timestamps".toList)]) ++
   (if matched ≠ [] then [Eff.logMsg ("DRY RUN Would copy JSON files to destination".toList)] else []))

/-- Outcome of processing one media file: the effect trace, the increments
of the four run counters, and whether the file was added to the in-memory
processed set. -/
structure FileStep where
  effs : List Eff
  dFiles : Nat
  dMatches : Nat
  dWarnings : Nat
  dErrors : Nat
  addProcessed : Bool
deriving DecidableEq

/-- Destination bundle directory computed by the commit path:
`final_library/<year>/<month>/<stem>`. -/
def destDirFor (cfg : Cfg) (media : Str) (date : DateTime) : Str :=
  get_media_bundle_dir (cfg.finalLibraryDir ++ '/' :: fmtYear date ++ '/' :: fmtMonth date)
    media

/-- Destination media path: the bundle directory, the stem of the media
basename, and the content-detected extension. -/
def destMediaFor (cfg : Cfg) (media : Str) (env : FileEnv) (date : DateTime) : Str :=
  destDirFor cfg media date ++ '/' :: ((splitext (basenameFn media)).1 ++ env.realExt)

/-- Embedding of one iteration of the loop of `process_media_files`
(lines 126-287), for a file that is not in the processed set. -/
def processOneFile (cfg : Cfg) (lookup : Dict) (js : JsonStore) (isLive : Bool)
    (maxLen : Nat) (media : Str) (env : FileEnv) : FileStep :=
  let base := basenameFn media
  let pm := match_json_for_media base lookup
  let primary := pm.1
  let supp := pm.2
  let matched := primary ++ supp
  let matchLog :=
    if matched ≠ [] then Eff.logMsg ("Matched JSON for ".toList ++ base)
    else Eff.logMsg ("No JSON match for ".toList ++ base)
  let dM := if matched ≠ [] then 1 else 0
  match resolve_timestamp env.embeddedDt primary supp js with
  | .error _ =>
    ⟨[matchLog, Eff.logMsg ("ERROR processing ".toList ++ base)], 0, dM, 0, 1, false⟩
  | .ok none =>
    ⟨matchLog :: orphanDivert cfg isLive env media matched, 0, dM, 1, 0, true⟩
  | .ok (some (date, srcTag)) =>
    let destDir := destDirFor cfg media date
    let destMedia := destMediaFor cfg media env date
    let v := validate_path_length destMedia maxLen
    if v.1 = false then
      ⟨matchLog :: ptlDivert cfg isLive env media destMedia matched v.2, 0, dM, 1, 0, true⟩
    else if isLive then
      if destMedia ∈ env.fsExists then
        ⟨matchLog :: Eff.makedirs destDir :: collisionSkip env media matched destDir,
         1, dM, 1, 0, true⟩
      else
        ⟨matchLog :: Eff.makedirs destDir ::
           commitLive env js media primary supp matched destDir destMedia date srcTag,
         1, dM, 0, 0, true⟩
    else
      ⟨matchLog :: dryRunLogs matched srcTag, 1, dM, 0, 0, true⟩

/-- Totals returned by `process_media_files`. -/
structure RunTotals where
  nFiles : Nat
  nMatches : Nat
  nWarnings : Nat
  nErrors : Nat
deriving DecidableEq

/-- Embedding of `process_media_files`: fold over the media files, skipping
files already recorded in the processed set, threading that set through. -/
def process_media_files (cfg : Cfg) (lookup : Dict) (js : JsonStore) (isLive : Bool)
    (maxLen : Nat) : List (Str × FileEnv) → List Str → List Eff × RunTotals × List Str
  | [], processed => ([], ⟨0, 0, 0, 0⟩, processed)
  | (m, env) :: rest, processed =>
    if m ∈ processed then
      process_media_files cfg lookup js isLive maxLen rest processed
    else
      let st := processOneFile cfg lookup js isLive maxLen m env
      let processed2 := if st.addProcessed then processed ++ [m] else processed
      let r := process_media_files cfg lookup js isLive maxLen rest processed2
      (st.effs ++ r.1,
       ⟨st.dFiles + r.2.1.nFiles, st.dMatches + r.2.1.nMatches,
        st.dWarnings + r.2.1.nWarnings, st.dErrors + r.2.1.nErrors⟩,
       r.2.2)

/-! ### Ledger helpers (process_media_logs.py) -/

/-- Model of Python `str.strip()` for spaces. -/
def stripStr (s : Str) : Str :=
  ((s.dropWhile (fun c => c = ' ')).reverse.dropWhile (fun c => c = ' ')).reverse

/-- Embedding of `normalize_archive_key` (`os.path.normcase` lowercases on
Windows, where the scripts run). -/
def normalize_archive_key (name : Str) : Str := "archive:".toList ++ lowerStr name

/-- Embedding of `normalize_standalone_key` for already-absolute normalized
paths. -/
def normalize_standalone_key (p : Str) : Str := "standalone:".toList ++ lowerStr p

/-- Embedding of `normalize_work_item_key`. -/
def normalize_work_item_key (raw : Str) : Option Str :=
  if startsWithB "archive:".toList raw then
    some (normalize_archive_key (stripStr (raw.drop 8)))
  else if startsWithB "standalone:".toList raw then
    some (normalize_standalone_key (stripStr (raw.drop 11)))
  else none

/-- Embedding of `get_processed_work_items` over the contents of the three
ledger files (new log plus the two backwards-compatibility logs). -/
def get_processed_work_items (workItemsLines archivesLines standaloneLines : List Str) :
    List Str :=
  (workItemsLines.filterMap (fun l => normalize_work_item_key (stripStr l))) ++
  (archivesLines.filterMap (fun l =>
    let n := stripStr l
    if n ≠ [] then some (normalize_archive_key n) else none)) ++
  (standaloneLines.filterMap (fun l =>
    let p := stripStr l
    if p ≠ [] then some (normalize_standalone_key p) else none))

/-! ### Recovery path (process_media_recovery.py) -/

/-- Model of `is_under_dir` for normalized absolute forward-slash paths. -/
def is_under_dir (p root : Str) : Bool :=
  startsWithB (root ++ ['/']) p || p == root

/-- Result of `recover_media_with_fallback`: effect trace, the returned
success flag and reason. -/
structure RecResult where
  effs : List Eff
  ok : Bool
  reason : Option Str
deriving DecidableEq

/-- Path-too-long divert effects of `recover_media_with_fallback` (live
run): copy from the immutable archive store or move from the workbench,
never overwriting. -/
def recPtlEffs (cfg : Cfg) (env : FileEnv) (media destMedia : Str) (plen : Nat)
    (supps : List Str) : List Eff :=
  Eff.makedirs cfg.pathTooLongDir ::
  ((if cfg.pathTooLongDir ++ '/' :: basenameFn media ∈ env.fsExists then []
    else
      (if is_under_dir media cfg.takeoutArchivesDir then
         Eff.copyFile media (cfg.pathTooLongDir ++ '/' :: basenameFn media) ::
           (normalize_media_extension env (cfg.pathTooLongDir ++ '/' :: basenameFn media)).2
       else
         Eff.moveFile media (cfg.pathTooLongDir ++ '/' :: basenameFn media) ::
           (normalize_media_extension env (cfg.pathTooLongDir ++ '/' :: basenameFn media)).2)) ++
   supps.flatMap (fun sp =>
     let sd := cfg.pathTooLongDir ++ '/' :: basenameFn sp
     if sd ∈ env.fsExists then [] else [Eff.copyFile sp sd]) ++
   [Eff.appendPathTooLong media destMedia plen])

/-- Live commit effects of `recover_media_with_fallback`. -/
def recCommitEffs (cfg : Cfg) (env : FileEnv) (js : JsonStore) (media : Str)
    (destDir destMedia : Str) (date : DateTime) (reason : Str)
    (supps : List Str) (supplemental_path : Option Str) : List Eff :=
  let moveEffs :=
    if destMedia ∈ env.fsExists then []
    else if is_under_dir media cfg.takeoutArchivesDir then [Eff.copyFile media destMedia]
    else [Eff.moveFile media destMedia]
  let nm := normalize_media_extension env destMedia
  let destMedia2 := nm.1
  let tsEffs :=
    if reason = "supplemental".toList then
      if env.tsWriteFails then
        [Eff.logMsg ("WARNING: Failed to merge timestamps".toList),
         Eff.appendExifFailure media "supplemental_timestamp".toList]
      else [Eff.exifWriteTimestamps destMedia2 date]
    else []
  let suppEffs := supps.flatMap (fun sp =>
    let sd := destDir ++ '/' :: basenameFn sp
    if sd ∈ env.fsExists then [] else [Eff.copyFile sp sd])
  let gpsEffs :=
    match supplemental_path with
    | some sp =>
      let g := get_embedded_gps env.gpsOut
      if g.1 = false ∨ g.2 = false then
        match gpsAtPath js sp with
        | some (la, lo, al) =>
          if env.gpsWriteFails then
            [Eff.logMsg ("WARNING: Failed to merge GPS data".toList),
             Eff.appendExifFailure media "supplemental_gps".toList]
          else [Eff.exifWriteGps destMedia2 la lo al]
        | none => []
      else []
    | none => []
  Eff.makedirs destDir :: (moveEffs ++ nm.2 ++ tsEffs ++ suppEffs ++ gpsEffs)

/-- Embedding of `recover_media_with_fallback`. The `error` case models the
uncaught exception of `datetime.fromtimestamp` on an unrepresentable
supplemental timestamp. -/
def recover_media_with_fallback (cfg : Cfg) (idx : SuppIndex) (js : JsonStore)
    (destRoot : Str) (isLive : Bool) (maxLen : Nat) (media : Str) (env : FileEnv) :
    Except Unit RecResult :=
  let base := basenameFn media
  let all_supplemental := find_all_supplemental_for_basename base idx
  let supplemental_path := all_supplemental.head?
  let dr : Except Unit (Option (DateTime × Str)) :=
    match env.embeddedDt with
    | some d => .ok (some (d, "exif".toList))
    | none =>
      match supplemental_path with
      | some p =>
        (match tsAtPath js p with
         | some t =>
           if t = 0 then .ok none
           else
             (match fromtimestampUTC t with
              | some d => .ok (some (d, "supplemental".toList))
              | none => .error ())
         | none => .ok none)
      | none => .ok none
  match dr with
  | .error _ => .error ()
  | .ok none => .ok ⟨[], false, none⟩
  | .ok (some (date, reason)) =>
    let destRootDir := destRoot ++ '/' :: fmtYear date ++ '/' :: fmtMonth date
    let destDir := get_media_bundle_dir destRootDir media
    let stem := (splitext base).1
    let destMedia := destDir ++ '/' :: (stem ++ env.realExt)
    let v := validate_path_length destMedia maxLen
    if v.1 = false then
      if isLive then
        .ok ⟨recPtlEffs cfg env media destMedia v.2 all_supplemental, false, none⟩
      else .ok ⟨[], false, none⟩
    else
      if isLive then
        .ok ⟨recCommitEffs cfg env js media destDir destMedia date reason
               all_supplemental supplemental_path, true, some reason⟩
      else .ok ⟨[], true, some reason⟩

/-! ### Pass 2 driver (2-process-media.py) -/

/-- The configured maximum destination path length. -/
def MAX_PATH_LENGTH : Nat := 240

/-- Kind of a work item. -/
inductive ItemKind
  | archive
  | standalone
deriving DecidableEq

/-- Oracle data for one archive: whether size query plus extraction succeed,
and the files found in the workbench afterwards (with their per-file
oracles). -/
structure ArchiveEnv where
  extractOk : Bool
  files : List (Str × FileEnv)
deriving DecidableEq

/-- Oracle data for a whole pass-2 run. -/
structure RunEnv where
  jsonRepoIsDir : Bool
  takeoutIsDir : Bool
  exiftoolExeExists : Bool
  exiftoolPerlExists : Bool
  processedLogExists : Bool
  workItemsLogLines : List Str
  archivesLogLines : List Str
  standaloneLogLines : List Str
  processedFilesLines : List Str
  zipList : List Str
  jsonRepoListing : List Str
  jsonDocs : JsonStore
  resolvedArchive : Option Str
  archives : List (Str × ArchiveEnv)
  extractDirIsDirAtEnd : Bool
deriving DecidableEq

/-- Command-line arguments of `2-process-media.py`. -/
structure Args where
  isLive : Bool
  batchSize : Option Nat
  archiveName : Option Str
  forceExtract : Bool
  cleanWorkbench : Bool
  showStatus : Bool
deriving DecidableEq

/-- Embedding of `select_work_items`; `error` models `sys.exit`. -/
def select_work_items (cfg : Cfg) (env : RunEnv) (archiveName : Option Str)
    (forceExtract : Bool) (processedWorkItems : List Str) :
    Except Unit (List (ItemKind × Str)) :=
  match archiveName with
  | some _ =>
    (match env.resolvedArchive with
     | none => .error ()
     | some path =>
       if endsWithB ".zip".toList (lowerStr path) then
         if normalize_archive_key (basenameFn path) ∈ processedWorkItems ∧ forceExtract = false then
           .error ()
         else .ok [(ItemKind.archive, path)]
       else .error ())
  | none =>
    let zips := sortStrings (env.zipList.filter (fun f => endsWithB ".zip".toList (lowerStr f)))
    if zips = [] then .error ()
    else
      let toTry := zips.filter (fun z => normalize_archive_key z ∉ processedWorkItems)
      if toTry = [] then .error ()
      else .ok (toTry.map (fun z => (ItemKind.archive, cfg.takeoutArchivesDir ++ '/' :: z)))

/-- Insertion into a list of work items sorted by lowercased basename. -/
def insertItem (x : ItemKind × Str) : List (ItemKind × Str) → List (ItemKind × Str)
  | [] => [x]
  | y :: ys =>
    if strLeB (lowerStr (basenameFn x.2)) (lowerStr (basenameFn y.2)) then x :: y :: ys
    else y :: insertItem x ys

/-- `sorted(work_items, key=lambda item: os.path.basename(item[1]).lower())`. -/
def sortItems (l : List (ItemKind × Str)) : List (ItemKind × Str) := l.foldr insertItem []

/-- Insertion into a list of (path, oracle) pairs sorted by path. -/
def insertPair (x : Str × FileEnv) : List (Str × FileEnv) → List (Str × FileEnv)
  | [] => [x]
  | y :: ys => if strLeB x.1 y.1 then x :: y :: ys else y :: insertPair x ys

/-- Embedding of `list_media_files` over the extracted listing: drop `.json`
files and sort by path. -/
def list_media_files_env (files : List (Str × FileEnv)) : List (Str × FileEnv) :=
  (files.filter (fun f => !(endsWithB ".json".toList (lowerStr f.1)))).foldr insertPair []

/-- Archive oracle lookup (missing archive behaves as a failed extraction). -/
def lookupArchiveEnv (l : List (Str × ArchiveEnv)) (p : Str) : ArchiveEnv :=
  match l with
  | [] => ⟨false, []⟩
  | (k, v) :: rest => if k = p then v else lookupArchiveEnv rest p

/-- Effects and updated processed-file set for one archive work item
(2-process-media.py lines 243-289): extract, process every media file,
then - only when everything before succeeded and the run is live - append
the work-item ledger entry; finally the optional workbench cleanup. -/
def processArchiveItem (cfg : Cfg) (args : Args) (lookup : Dict) (js : JsonStore)
    (multipleArchives : Bool) (path : Str) (aenv : ArchiveEnv) (processed : List Str) :
    List Eff × List Str :=
  if aenv.extractOk = false then
    ([Eff.logMsg ("FATAL: Archive processing failed".toList)], processed)
  else
    let extractEffs :=
      [Eff.logMsg ("Preparing to extract archive".toList),
       Eff.rmtree cfg.extractTargetDir,
       Eff.makedirs cfg.extractTargetDir,
       Eff.extractZip path cfg.extractTargetDir]
    let files := list_media_files_env aenv.files
    let pr := process_media_files cfg lookup js args.isLive MAX_PATH_LENGTH files processed
    let ledgerEffs :=
      if args.isLive then
        [Eff.logMsg ("Marking archive as processed".toList),
         Eff.appendWorkItem (normalize_archive_key (basenameFn path))]
      else []
    let cleanupEffs :=
      if args.cleanWorkbench ∨ multipleArchives then
        [Eff.logMsg ("Cleaning workbench extraction directory".toList),
         Eff.rmtree cfg.extractTargetDir,
         Eff.makedirs cfg.extractTargetDir]
      else []
    (extractEffs ++ pr.1 ++ Eff.logMsg ("Archive summary".toList) :: (ledgerEffs ++ cleanupEffs),
     pr.2.2)

/-- The work-item loop of `run_pass2`. -/
def runItems (cfg : Cfg) (args : Args) (lookup : Dict) (js : JsonStore)
    (archives : List (Str × ArchiveEnv)) (multipleArchives : Bool) :
    List (ItemKind × Str) → List Str → List Eff × List Str
  | [], processed => ([], processed)
  | (k, p) :: rest, processed =>
    match k with
    | ItemKind.archive =>
      let step := processArchiveItem cfg args lookup js multipleArchives p
        (lookupArchiveEnv archives p) processed
      let r := runItems cfg args lookup js archives multipleArchives rest step.2
      (step.1 ++ r.1, r.2)
    | ItemKind.standalone =>
      let r := runItems cfg args lookup js archives multipleArchives rest processed
      (Eff.logMsg ("Standalone processing is disabled".toList) :: r.1, r.2)

/-- Result of a pass-2 run: effect trace and whether the run aborted at a
fatal precondition (`sys.exit`). -/
structure RunResult where
  effs : List Eff
  aborted : Bool
deriving DecidableEq

/-- Embedding of `run_pass2` (2-process-media.py lines 157-300). -/
def run_pass2 (cfg : Cfg) (env : RunEnv) (args : Args) : RunResult :=
  if args.showStatus then ⟨[], false⟩
  else
    let banner :=
      [Eff.logMsg ("Pass 2: Process Media Files".toList),
       Eff.logMsg ((if args.isLive then "RUNNING IN LIVE MODE" else "RUNNING IN DRY RUN MODE").toList)]
    if env.jsonRepoIsDir = false then ⟨banner, true⟩
    else if env.takeoutIsDir = false then ⟨banner, true⟩
    else if env.exiftoolExeExists = false ∧ env.exiftoolPerlExists = false then ⟨banner, true⟩
    else
      let clearEffs :=
        if args.archiveName = none ∧ (args.forceExtract ∨ args.cleanWorkbench) ∧
            env.processedLogExists then
          [Eff.removeFile cfg.processedLogFile,
           Eff.logMsg ("Cleared processed media log".toList)]
        else []
      let processedWorkItems :=
        get_processed_work_items env.workItemsLogLines env.archivesLogLines env.standaloneLogLines
      let processedMedia := env.processedFilesLines.map stripStr
      match select_work_items cfg env args.archiveName args.forceExtract processedWorkItems with
      | .error _ => ⟨banner ++ clearEffs, true⟩
      | .ok items0 =>
        if items0 = [] then
          ⟨banner ++ clearEffs ++ [Eff.logMsg ("WARNING: No work items selected".toList)], false⟩
        else
          let itemsSorted := sortItems items0
          let items :=
            match args.batchSize with
            | some n => itemsSorted.take n
            | none => itemsSorted
          let lookup := build_json_lookup cfg.jsonRepositoryDir env.jsonRepoListing
          let multipleArchives :=
            (items.filter (fun it => it.1 = ItemKind.archive)).length > 1
          let loop := runItems cfg args lookup env.jsonDocs env.archives multipleArchives
            items processedMedia
          let finalCleanup :=
            if args.cleanWorkbench ∧ env.extractDirIsDirAtEnd then
              [Eff.logMsg ("Cleaning workbench extraction directory".toList),
               Eff.rmtree cfg.extractTargetDir,
               Eff.makedirs cfg.extractTargetDir]
            else []
          ⟨banner ++ clearEffs ++ loop.1 ++ Eff.logMsg ("Pass 2 Complete".toList) :: finalCleanup,
           false⟩

/-- No parenthesis characters occur in the string. -/
def ParenFree (s : Str) : Prop := ∀ c ∈ s, c ≠ '(' ∧ c ≠ ')'

/-- Every opening parenthesis in `s` starts a full `(ds)` group. -/
def MarkOnly (ds : Str) (s : Str) : Prop :=
  ∀ p q, s = p ++ '(' :: q → ∃ r, q = ds ++ ')' :: r

/-! ### Shared lemmas about the pickers and sorting -/

theorem mem_sortStrings {a : Str} {l : List Str} : a ∈ sortStrings l ↔ a ∈ l :=
  (List.perm_insertionSort StrLe l).mem_iff

theorem pickTsGo_ne_zero (js : JsonStore) (l : List Str) (t : Int)
    (h : pickTsGo js l = some t) : t ≠ 0 := by
  induction l with
  | nil => simp [pickTsGo] at h
  | cons p ps ih =>
    simp only [pickTsGo] at h
    cases hts : tsAtPath js p with
    | none => simp only [hts] at h; exact ih h
    | some v =>
      simp only [hts] at h
      by_cases hv : v = 0
      · rw [if_pos hv] at h; exact ih h
      · rw [if_neg hv] at h
        cases h
        exact hv

theorem pickTsGo_none (js : JsonStore) (l : List Str)
    (h : ∀ p ∈ l, tsAtPath js p = none ∨ tsAtPath js p = some 0) :
    pickTsGo js l = none := by
  induction l with
  | nil => rfl
  | cons p ps ih =>
    simp only [pickTsGo]
    rcases h p (List.mem_cons_self p ps) with h1 | h1
    · simp only [h1]
      exact ih (fun q hq => h q (List.mem_cons_of_mem p hq))
    · simp only [h1, if_pos rfl]
      exact ih (fun q hq => h q (List.mem_cons_of_mem p hq))

theorem pick_timestamp_ne_zero (paths : List Str) (js : JsonStore) (t : Int)
    (h : pick_timestamp_from_json_list paths js = some t) : t ≠ 0 :=
  pickTsGo_ne_zero js (sortStrings paths) t h

theorem pick_timestamp_none (paths : List Str) (js : JsonStore)
    (h : ∀ p ∈ paths, tsAtPath js p = none ∨ tsAtPath js p = some 0) :
    pick_timestamp_from_json_list paths js = none :=
  pickTsGo_none js (sortStrings paths) (fun p hp => h p (mem_sortStrings.mp hp))

theorem blockGps_not_nullIsland (b : GeoBlock) (la lo al : ℚ)
    (hb : blockGps b = some (la, lo, al)) : ¬ nullIsland la lo := by
  unfold blockGps at hb
  cases h1 : floatOfJVal b.latitude with
  | none => simp only [h1] at hb; cases hb
  | some x =>
    cases h2 : floatOfJVal b.longitude with
    | none => simp only [h1, h2] at hb; cases hb
    | some y =>
      cases h3 : floatOfJVal b.altitude with
      | none => simp only [h1, h2, h3] at hb; cases hb
      | some z =>
        simp only [h1, h2, h3] at hb
        by_cases hn : nullIsland x y
        · rw [if_pos hn] at hb; cases hb
        · rw [if_neg hn] at hb
          cases hb
          exact hn

theorem get_valid_gps_not_nullIsland (doc : SidecarDoc) (la lo al : ℚ)
    (h : get_valid_gps_from_supplemental doc = some (la, lo, al)) : ¬ nullIsland la lo := by
  have hblock : ∀ b : GeoBlock, blockGps b = some (la, lo, al) → ¬ nullIsland la lo :=
    fun b hb => blockGps_not_nullIsland b la lo al hb
  unfold get_valid_gps_from_supplemental at h
  cases hge : doc.geoDataExif with
    | some b =>
      simp only [hge] at h
      cases hbg : blockGps b with
      | some g =>
        simp only [hbg] at h
        cases h
        exact hblock b hbg
      | none =>
        simp only [hbg] at h
        cases hgd : doc.geoData with
        | some b2 => simp only [hgd] at h; exact hblock b2 h
        | none => simp only [hgd] at h; cases h
    | none =>
      simp only [hge] at h
      cases hgd : doc.geoData with
      | some b2 => simp only [hgd] at h; exact hblock b2 h
      | none => simp only [hgd] at h; cases h

theorem gpsAtPath_not_nullIsland (js : JsonStore) (p : Str) (la lo al : ℚ)
    (h : gpsAtPath js p = some (la, lo, al)) : ¬ nullIsland la lo := by
  unfold gpsAtPath at h
  cases hl : lookupStore js p with
  | none => simp only [hl] at h; cases h
  | some doc =>
    simp only [hl] at h
    exact get_valid_gps_not_nullIsland doc la lo al h

theorem pickGpsGo_not_nullIsland (js : JsonStore) (l : List Str) (la lo al : ℚ)
    (h : pickGpsGo js l = some (la, lo, al)) : ¬ nullIsland la lo := by
  induction l with
  | nil => simp [pickGpsGo] at h
  | cons p ps ih =>
    simp only [pickGpsGo] at h
    cases hg : gpsAtPath js p with
    | none => simp only [hg] at h; exact ih h
    | some g =>
      simp only [hg] at h
      cases h
      exact gpsAtPath_not_nullIsland js p la lo al hg

theorem pick_gps_not_nullIsland (paths : List Str) (js : JsonStore) (la lo al : ℚ)
    (h : pick_gps_from_json_list paths js = some (la, lo, al)) : ¬ nullIsland la lo :=
  pickGpsGo_not_nullIsland js (sortStrings paths) la lo al h

/-! ### Effect-membership lemmas -/

theorem mem_copy_jsons (fsE paths : List Str) (destDir : Str) (e : Eff)
    (h : e ∈ copy_jsons fsE paths destDir) :
    ∃ p d, e = Eff.copyFile p d ∧ d ∉ fsE := by
  unfold copy_jsons at h
  simp only [List.mem_flatMap] at h
  obtain ⟨p, _, he⟩ := h
  by_cases hd : destDir ++ '/' :: basenameFn p ∈ fsE
  · simp [hd] at he
  · simp only [if_neg hd, List.mem_singleton] at he
    exact ⟨p, destDir ++ '/' :: basenameFn p, he, hd⟩

theorem copy_jsons_no_gps (fsE paths : List Str) (destDir q : Str) (la lo al : ℚ)
    (h : Eff.exifWriteGps q la lo al ∈ copy_jsons fsE paths destDir) : False := by
  obtain ⟨p, d, he, _⟩ := mem_copy_jsons fsE paths destDir _ h
  exact Eff.noConfusion he

theorem normalize_no_gps (env : FileEnv) (x q : Str) (la lo al : ℚ)
    (h : Eff.exifWriteGps q la lo al ∈ (normalize_media_extension env x).2) : False := by
  unfold normalize_media_extension at h
  cases hn : env.normalizeTo with
  | none => simp [hn] at h
  | some y => simp [hn] at h

theorem tsMergeEffs_no_gps (env : FileEnv) (media dm2 : Str) (date : DateTime)
    (srcTag : TsSource) (primary : List Str) (q : Str) (la lo al : ℚ)
    (h : Eff.exifWriteGps q la lo al ∈ tsMergeEffs env media dm2 date srcTag primary) :
    False := by
  cases srcTag <;> simp only [tsMergeEffs] at h
  · simp at h
  · by_cases hw : env.tsWriteFails = true
    · simp [hw] at h
    · simp only [Bool.not_eq_true] at hw
      simp only [hw] at h
      by_cases hp : primary ≠ []
      · simp [hp] at h
      · simp [hp] at h
  · by_cases hw : env.tsWriteFails = true
    · simp [hw] at h
    · simp only [Bool.not_eq_true] at hw
      simp [hw] at h

theorem gpsMergeEffs_gps (env : FileEnv) (js : JsonStore) (media dm2 : Str)
    (supp : List Str) (q : Str) (la lo al : ℚ)
    (h : Eff.exifWriteGps q la lo al ∈ gpsMergeEffs env js media dm2 supp) :
    pick_gps_from_json_list supp js = some (la, lo, al) ∧ q = dm2 := by
  unfold gpsMergeEffs at h
  by_cases hs : supp ≠ []
  · rw [if_pos hs] at h
    by_cases hg : (get_embedded_gps env.gpsOut).1 = false ∨ (get_embedded_gps env.gpsOut).2 = false
    · rw [if_pos hg] at h
      cases hp : pick_gps_from_json_list supp js with
      | none => simp [hp] at h
      | some t =>
        obtain ⟨la2, lo2, al2⟩ := t
        simp only [hp] at h
        by_cases hw : env.gpsWriteFails = true
        · simp [hw] at h
        · simp only [Bool.not_eq_true] at hw
          simp only [hw, Bool.false_eq_true, if_false, List.mem_cons, List.mem_singleton] at h
          rcases h with h | h
          · cases h
            exact ⟨rfl, rfl⟩
          · rcases h with h | h
            · exact Eff.noConfusion h
            · simp at h
    · rw [if_neg hg] at h
      simp at h
  · rw [if_neg hs] at h
    simp at h

theorem commitLive_gps (env : FileEnv) (js : JsonStore) (media : Str)
    (primary supp matched : List Str) (destDir destMedia : Str) (date : DateTime)
    (srcTag : TsSource) (q : Str) (la lo al : ℚ)
    (h : Eff.exifWriteGps q la lo al ∈
      commitLive env js media primary supp matched destDir destMedia date srcTag) :
    pick_gps_from_json_list supp js = some (la, lo, al) := by
  unfold commitLive at h
  simp only [List.mem_cons, List.mem_append, List.mem_singleton, List.not_mem_nil,
    or_false] at h
  rcases h with h | h | ((((h | h) | h) | h) | h) | h
  · exact Eff.noConfusion h
  · exact Eff.noConfusion h
  · exact absurd h (fun hh => normalize_no_gps env destMedia q la lo al hh)
  · exact absurd h (fun hh => tsMergeEffs_no_gps env media _ date srcTag primary q la lo al hh)
  · exact absurd h (fun hh => copy_jsons_no_gps env.fsExists matched destDir q la lo al hh)
  · by_cases hm : matched ≠ [] <;> simp [hm] at h
  · exact (gpsMergeEffs_gps env js media _ supp q la lo al h).1
  · exact Eff.noConfusion h

theorem orphanDivert_no_gps (cfg : Cfg) (isLive : Bool) (env : FileEnv) (media : Str)
    (matched : List Str) (q : Str) (la lo al : ℚ)
    (h : Eff.exifWriteGps q la lo al ∈ orphanDivert cfg isLive env media matched) :
    False := by
  unfold orphanDivert at h
  simp only [List.mem_cons] at h
  rcases h with h | h
  · exact Eff.noConfusion h
  · by_cases hl : isLive = true
    · simp only [hl, if_true, List.mem_cons, List.mem_append, List.mem_singleton,
        List.not_mem_nil, or_false] at h
      rcases h with h | (h | h) | h
      · exact Eff.noConfusion h
      · by_cases hd : cfg.orphanMediaDir ++ '/' :: basenameFn media ∈ env.fsExists <;>
          simp [hd] at h
      · exact copy_jsons_no_gps env.fsExists matched cfg.orphanMediaDir q la lo al h
      · exact Eff.noConfusion h
    · simp only [Bool.not_eq_true] at hl
      simp [hl] at h

theorem ptlDivert_no_gps (cfg : Cfg) (isLive : Bool) (env : FileEnv) (media destMedia : Str)
    (matched : List Str) (plen : Nat) (q : Str) (la lo al : ℚ)
    (h : Eff.exifWriteGps q la lo al ∈ ptlDivert cfg isLive env media destMedia matched plen) :
    False := by
  unfold ptlDivert at h
  simp only [List.mem_cons] at h
  rcases h with h | h | h
  · exact Eff.noConfusion h
  · exact Eff.noConfusion h
  · by_cases hl : isLive = true
    · simp only [hl, if_true, List.mem_cons, List.mem_append, List.mem_singleton,
        List.not_mem_nil, or_false] at h
      rcases h with h | (h | h) | h | h
      · exact Eff.noConfusion h
      · by_cases hd : cfg.pathTooLongDir ++ '/' :: basenameFn media ∈ env.fsExists <;>
          simp [hd] at h
      · exact copy_jsons_no_gps env.fsExists matched cfg.pathTooLongDir q la lo al h
      · exact Eff.noConfusion h
      · exact Eff.noConfusion h
    · simp only [Bool.not_eq_true] at hl
      simp [hl] at h

theorem collisionSkip_no_gps (env : FileEnv) (media : Str) (matched : List Str)
    (destDir : Str) (q : Str) (la lo al : ℚ)
    (h : Eff.exifWriteGps q la lo al ∈ collisionSkip env media matched destDir) :
    False := by
  unfold collisionSkip at h
  simp only [List.mem_cons, List.mem_append, List.mem_singleton, List.not_mem_nil,
    or_false] at h
  rcases h with h | h | h
  · exact Eff.noConfusion h
  · by_cases hm : matched ≠ []
    · rw [if_pos hm] at h
      simp only [List.mem_append, List.mem_singleton, List.mem_cons,
        List.not_mem_nil, or_false] at h
      rcases h with h | h
      · exact copy_jsons_no_gps env.fsExists matched destDir q la lo al h
      · exact Eff.noConfusion h
    · simp [hm] at h
  · exact Eff.noConfusion h

theorem dryRunLogs_no_gps (matched : List Str) (srcTag : TsSource) (q : Str) (la lo al : ℚ)
    (h : Eff.exifWriteGps q la lo al ∈ dryRunLogs matched srcTag) : False := by
  unfold dryRunLogs at h
  cases srcTag <;> by_cases hm : matched ≠ [] <;> simp [hm] at h

theorem processOneFile_gps_pick (cfg : Cfg) (lookup : Dict) (js : JsonStore)
    (isLive : Bool) (maxLen : Nat) (media : Str) (env : FileEnv) (q : Str) (la lo al : ℚ)
    (h : Eff.exifWriteGps q la lo al ∈
      (processOneFile cfg lookup js isLive maxLen media env).effs) :
    pick_gps_from_json_list (match_json_for_media (basenameFn media) lookup).2 js =
      some (la, lo, al) := by
  unfold processOneFile at h
  cases hr : resolve_timestamp env.embeddedDt (match_json_for_media (basenameFn media) lookup).1
      (match_json_for_media (basenameFn media) lookup).2 js with
  | error u =>
    simp only [hr] at h
    simp only [List.mem_cons, List.not_mem_nil, or_false] at h
    rcases h with h | h
    · split at h <;> exact Eff.noConfusion h
    · exact Eff.noConfusion h
  | ok o =>
    cases o with
    | none =>
      simp only [hr] at h
      simp only [List.mem_cons] at h
      rcases h with h | h
      · split at h <;> exact Eff.noConfusion h
      · exact absurd h (fun hh =>
          orphanDivert_no_gps cfg isLive env media _ q la lo al hh)
    | some ds =>
      obtain ⟨date, srcTag⟩ := ds
      simp only [hr] at h
      split at h
      · simp only [List.mem_cons] at h
        rcases h with h | h
        · split at h <;> exact Eff.noConfusion h
        · exact absurd h (fun hh =>
            ptlDivert_no_gps cfg isLive env media _ _ _ q la lo al hh)
      · split at h
        · split at h
          · simp only [List.mem_cons] at h
            rcases h with h | h
            · split at h <;> exact Eff.noConfusion h
            · rcases h with h | h
              · exact Eff.noConfusion h
              · exact absurd h (fun hh =>
                  collisionSkip_no_gps env media _ _ q la lo al hh)
          · simp only [List.mem_cons] at h
            rcases h with h | h
            · split at h <;> exact Eff.noConfusion h
            · rcases h with h | h
              · exact Eff.noConfusion h
              · exact commitLive_gps env js media _ _ _ _ _ date srcTag q la lo al h
        · simp only [List.mem_cons] at h
          rcases h with h | h
          · split at h <;> exact Eff.noConfusion h
          · exact absurd h (fun hh => dryRunLogs_no_gps _ srcTag q la lo al hh)

/-! ### Claim theorems: C3, C9, C10 -/

/-- C3: GPS validity is decided by exactly the Null Island predicate
everywhere GPS is evaluated: a pair is invalid iff both absolute values are
below 1e-4; the claim's example coordinates behave as stated for the sidecar
extractor; the embedded-GPS read judges a numeric pair valid by the same
predicate; and an invalid pair is never returned by the sidecar extractor
nor written back by the pipeline's GPS merge. -/
theorem C3_gps_validity :
    (∀ doc la lo al, get_valid_gps_from_supplemental doc = some (la, lo, al) →
       ¬ nullIsland la lo) ∧
    (∀ la lo : ℚ, nullIsland la lo ↔ (|la| < mkRat 1 10000 ∧ |lo| < mkRat 1 10000)) ∧
    get_valid_gps_from_supplemental
      ⟨.tnull, .tnull, some ⟨some (.num 0), some (.num 100), some (.num 0)⟩, none⟩ =
      some (0, 100, 0) ∧
    get_valid_gps_from_supplemental
      ⟨.tnull, .tnull, some ⟨some (.num (mkRat 515 10)), some (.num 0), some (.num 0)⟩, none⟩ =
      some (mkRat 515 10, 0, 0) ∧
    get_valid_gps_from_supplemental
      ⟨.tnull, .tnull,
       some ⟨some (.num (mkRat (-339) 10)), some (.num (mkRat 1512 10)), some (.num 0)⟩,
       none⟩ = some (mkRat (-339) 10, mkRat 1512 10, 0) ∧
    get_valid_gps_from_supplemental
      ⟨.tnull, .tnull, some ⟨some (.num 0), some (.num 0), some (.num 0)⟩, none⟩ = none ∧
    get_valid_gps_from_supplemental
      ⟨.tnull, .tnull,
       some ⟨some (.num (mkRat 1 100000)), some (.num (mkRat 1 100000)), some (.num 0)⟩,
       none⟩ = none ∧
    (∀ (la lo : ℚ) (rest : List FStr),
       ((get_embedded_gps (some (.fnum la :: .fnum lo :: rest))).2 = true ↔
         ¬ nullIsland la lo)) ∧
    (∀ cfg lookup js isLive maxLen media env q la lo al,
       Eff.exifWriteGps q la lo al ∈
         (processOneFile cfg lookup js isLive maxLen media env).effs →
       ¬ nullIsland la lo) := by
  refine ⟨?_, ?_, by decide, by decide, by decide, by decide, by decide, ?_, ?_⟩
  · exact fun doc la lo al h => get_valid_gps_not_nullIsland doc la lo al h
  · intro la lo
    exact Iff.rfl
  · intro la lo rest
    unfold get_embedded_gps
    by_cases hn : nullIsland la lo
    · simp [hn]
    · simp [hn]
  · intro cfg lookup js isLive maxLen media env q la lo al h
    exact pick_gps_not_nullIsland _ js la lo al
      (processOneFile_gps_pick cfg lookup js isLive maxLen media env q la lo al h)

/-- Witness for C3: the sidecar extractor keeps `(51.5, 0)` and that pair is
not Null Island. -/
theorem C3_witness : ¬ nullIsland (mkRat 515 10) 0 :=
  C3_gps_validity.1
    ⟨.tnull, .tnull, some ⟨some (.num (mkRat 515 10)), some (.num 0), some (.num 0)⟩, none⟩
    (mkRat 515 10) 0 0 (by decide)

/-- C10: a timestamp of exactly zero is treated as absent: a numeric 0 in
`photoTakenTime.timestamp` makes the extractor behave as if the field were
missing, the per-list picker never returns 0, and when every sidecar of
both lists yields no timestamp or timestamp 0, the resolution chain (with
no embedded timestamp) ends Unresolved. -/
theorem C10_zero_timestamp_absent :
    (∀ (c : TsVal) (gE gD : Option GeoBlock),
       get_timestamp_from_json ⟨TsVal.tint 0, c, gE, gD⟩ =
         get_timestamp_from_json ⟨TsVal.tnull, c, gE, gD⟩) ∧
    (∀ paths js t, pick_timestamp_from_json_list paths js = some t → t ≠ 0) ∧
    (∀ primary supp js,
       (∀ p ∈ primary, tsAtPath js p = none ∨ tsAtPath js p = some 0) →
       (∀ p ∈ supp, tsAtPath js p = none ∨ tsAtPath js p = some 0) →
       resolve_timestamp none primary supp js = .ok none) := by
  refine ⟨?_, ?_, ?_⟩
  · intro c gE gD
    rfl
  · exact fun paths js t h => pick_timestamp_ne_zero paths js t h
  · intro primary supp js h1 h2
    simp only [resolve_timestamp, pick_timestamp_none primary js h1,
      pick_timestamp_none supp js h2]

/-- Witness for C10: a primary sidecar whose `photoTakenTime.timestamp` is
the string "0" and an empty supplemental list leave the chain Unresolved. -/
theorem C10_witness :
    resolve_timestamp none ["a.json".toList] []
      [("a.json".toList, ⟨TsVal.tstr "0".toList, TsVal.tnull, none, none⟩)] =
      .ok none :=
  C10_zero_timestamp_absent.2.2 ["a.json".toList] []
    [("a.json".toList, ⟨TsVal.tstr "0".toList, TsVal.tnull, none, none⟩)]
    (by decide) (by decide)

/-- C9 counterexample: a sidecar whose `photoTakenTime.timestamp` is the
number 0 - present and parseable as the integer 0 - makes the extractor
return `none`, so the extractor does not return `none` only for missing or
unparseable fields. -/
theorem C9_counterexample :
    (get_timestamp_from_json ⟨TsVal.tint 0, TsVal.tnull, none, none⟩).result = none ∧
    (⟨TsVal.tint 0, TsVal.tnull, none, none⟩ : SidecarDoc).photoTakenTs ≠ TsVal.tnull ∧
    tsToInt (TsVal.tint 0) = some 0 := by
  decide

/-- C9 (amended): the extractor's range check never rejects: whenever the
selected field (photoTakenTime if truthy, else creationTime) is truthy and
parses to an integer n, the extractor returns n - even outside
[0, 1893456000] - and the out-of-range warning fires exactly for such n;
it returns `none` exactly when the selected field is missing or falsy
(numeric 0, empty string) or fails to parse. -/
theorem C9_range_never_rejects (doc : SidecarDoc) (n : Int) :
    (tsTruthy (if tsTruthy doc.photoTakenTs then doc.photoTakenTs else doc.creationTs) = true →
     tsToInt (if tsTruthy doc.photoTakenTs then doc.photoTakenTs else doc.creationTs) = some n →
     (get_timestamp_from_json doc).result = some n ∧
     ((get_timestamp_from_json doc).warned = true ↔ (n < 0 ∨ n > 1893456000))) ∧
    ((get_timestamp_from_json doc).result = none ↔
     (tsTruthy (if tsTruthy doc.photoTakenTs then doc.photoTakenTs else doc.creationTs) = false ∨
      tsToInt (if tsTruthy doc.photoTakenTs then doc.photoTakenTs else doc.creationTs) = none)) := by
  unfold get_timestamp_from_json
  set t := if tsTruthy doc.photoTakenTs then doc.photoTakenTs else doc.creationTs with ht
  constructor
  · intro htr hparse
    rw [if_pos htr, hparse]
    refine ⟨rfl, ?_⟩
    simp only [min_timestamp, max_timestamp]
    constructor
    · intro hw
      exact of_decide_eq_true hw
    · intro hw
      exact decide_eq_true hw
  · by_cases htr : tsTruthy t = true
    · rw [if_pos htr]
      cases hp : tsToInt t with
      | none => simp [htr]
      | some v => simp [htr]
    · simp only [Bool.not_eq_true] at htr
      rw [htr]
      simp [htr]

/-- Witness for C9: a parseable timestamp far above the 2030 bound is still
returned, with the warning flag set. -/
theorem C9_witness :
    (get_timestamp_from_json
      ⟨TsVal.tstr "1999999999999".toList, TsVal.tnull, none, none⟩).result =
      some 1999999999999 ∧
    ((get_timestamp_from_json
      ⟨TsVal.tstr "1999999999999".toList, TsVal.tnull, none, none⟩).warned = true ↔
      ((1999999999999 : Int) < 0 ∨ (1999999999999 : Int) > 1893456000)) :=
  (C9_range_never_rejects ⟨TsVal.tstr "1999999999999".toList, TsVal.tnull, none, none⟩
    1999999999999).1 (by decide) (by decide)

/-! ### Lemmas for C1 -/

theorem pickTsGo_first (js : JsonStore) (l : List Str) (t : Int)
    (h : pickTsGo js l = some t) :
    ∃ pre p post, l = pre ++ p :: post ∧ tsAtPath js p = some t ∧ t ≠ 0 ∧
      ∀ q ∈ pre, tsAtPath js q = none ∨ tsAtPath js q = some 0 := by
  induction l with
  | nil => simp [pickTsGo] at h
  | cons p ps ih =>
    simp only [pickTsGo] at h
    cases hts : tsAtPath js p with
    | none =>
      simp only [hts] at h
      obtain ⟨pre, x, post, hl, hx, ht0, hpre⟩ := ih h
      refine ⟨p :: pre, x, post, by simp [hl], hx, ht0, ?_⟩
      intro q hq
      rcases List.mem_cons.mp hq with rfl | hq
      · exact Or.inl hts
      · exact hpre q hq
    | some v =>
      simp only [hts] at h
      by_cases hv : v = 0
      · rw [if_pos hv] at h
        obtain ⟨pre, x, post, hl, hx, ht0, hpre⟩ := ih h
        subst hv
        refine ⟨p :: pre, x, post, by simp [hl], hx, ht0, ?_⟩
        intro q hq
        rcases List.mem_cons.mp hq with rfl | hq
        · exact Or.inr hts
        · exact hpre q hq
      · rw [if_neg hv] at h
        cases h
        exact ⟨[], p, ps, rfl, hts, hv, by simp⟩

theorem pick_timestamp_first (paths : List Str) (js : JsonStore) (t : Int)
    (h : pick_timestamp_from_json_list paths js = some t) :
    ∃ p ∈ paths, tsAtPath js p = some t ∧ t ≠ 0 ∧
      ∀ q ∈ paths, strLtB q p = true →
        tsAtPath js q = none ∨ tsAtPath js q = some 0 := by
  obtain ⟨pre, p, post, hl, hp, ht0, hpre⟩ := pickTsGo_first js (sortStrings paths) t h
  have hmem : p ∈ paths := by
    refine mem_sortStrings.mp ?_
    rw [hl]
    exact List.mem_append_right pre (List.mem_cons_self p post)
  have hsorted : List.Pairwise StrLe (sortStrings paths) :=
    List.sorted_insertionSort StrLe paths
  rw [hl, List.pairwise_append] at hsorted
  obtain ⟨_, hcons, _⟩ := hsorted
  refine ⟨p, hmem, hp, ht0, ?_⟩
  intro q hq hlt
  have hq2 : q ∈ pre ++ p :: post := by
    rw [← hl]
    exact mem_sortStrings.mpr hq
  rcases List.mem_append.mp hq2 with hqpre | hqc
  · exact hpre q hqpre
  · rcases List.mem_cons.mp hqc with rfl | hqpost
    · rw [strLtB_irrefl] at hlt
      cases hlt
    · have hle : StrLe p q := (List.pairwise_cons.mp hcons).1 q hqpost
      unfold StrLe strLeB at hle
      rw [hlt] at hle
      cases hle

theorem orphanDivert_no_tsWrite (cfg : Cfg) (isLive : Bool) (env : FileEnv) (media : Str)
    (matched : List Str) (p : Str) (d : DateTime)
    (h : Eff.exifWriteTimestamps p d ∈ orphanDivert cfg isLive env media matched) :
    False := by
  unfold orphanDivert at h
  simp only [List.mem_cons] at h
  rcases h with h | h
  · exact Eff.noConfusion h
  · by_cases hl : isLive = true
    · simp only [hl, if_true, List.mem_cons, List.mem_append, List.mem_singleton,
        List.not_mem_nil, or_false] at h
      rcases h with h | (h | h) | h
      · exact Eff.noConfusion h
      · by_cases hd : cfg.orphanMediaDir ++ '/' :: basenameFn media ∈ env.fsExists <;>
          simp [hd] at h
      · obtain ⟨a, b, he, _⟩ := mem_copy_jsons _ _ _ _ h
        exact Eff.noConfusion he
      · exact Eff.noConfusion h
    · simp only [Bool.not_eq_true] at hl
      simp [hl] at h

theorem orphanDivert_move (cfg : Cfg) (isLive : Bool) (env : FileEnv) (media : Str)
    (matched : List Str) (src dst : Str)
    (h : Eff.moveFile src dst ∈ orphanDivert cfg isLive env media matched) :
    src = media ∧ dst = cfg.orphanMediaDir ++ '/' :: basenameFn media := by
  unfold orphanDivert at h
  simp only [List.mem_cons] at h
  rcases h with h | h
  · exact Eff.noConfusion h
  · by_cases hl : isLive = true
    · simp only [hl, if_true, List.mem_cons, List.mem_append, List.mem_singleton,
        List.not_mem_nil, or_false] at h
      rcases h with h | (h | h) | h
      · exact Eff.noConfusion h
      · by_cases hd : cfg.orphanMediaDir ++ '/' :: basenameFn media ∈ env.fsExists
        · simp [hd] at h
        · simp only [if_neg hd, List.mem_singleton] at h
          cases h
          exact ⟨rfl, rfl⟩
      · obtain ⟨a, b, he, _⟩ := mem_copy_jsons _ _ _ _ h
        exact Eff.noConfusion he
      · exact Eff.noConfusion h
    · simp only [Bool.not_eq_true] at hl
      simp [hl] at h

/-- C1: the timestamp precedence chain is strict: an embedded timestamp
always wins with source embedded; otherwise a primary-sidecar timestamp
wins with source primaryJSON; otherwise the first supplemental sidecar (in
sorted path order) with a truthy timestamp wins with source supplemental;
otherwise the outcome is Unresolved, in which case the file is diverted to
review - never moved into the library and never stamped - so no filesystem
timestamp is used as a fallback. -/
theorem C1_timestamp_precedence :
    (∀ (d : DateTime) primary supp js,
       resolve_timestamp (some d) primary supp js = .ok (some (d, .embedded))) ∧
    (∀ primary supp js t d,
       pick_timestamp_from_json_list primary js = some t →
       fromtimestampUTC t = some d →
       resolve_timestamp none primary supp js = .ok (some (d, .primary_json))) ∧
    (∀ primary supp js t d,
       pick_timestamp_from_json_list primary js = none →
       pick_timestamp_from_json_list supp js = some t →
       fromtimestampUTC t = some d →
       resolve_timestamp none primary supp js = .ok (some (d, .supplemental))) ∧
    (∀ primary supp js,
       pick_timestamp_from_json_list primary js = none →
       pick_timestamp_from_json_list supp js = none →
       resolve_timestamp none primary supp js = .ok none) ∧
    (∀ paths js t, pick_timestamp_from_json_list paths js = some t →
       ∃ p ∈ paths, tsAtPath js p = some t ∧ t ≠ 0 ∧
         ∀ q ∈ paths, strLtB q p = true →
           tsAtPath js q = none ∨ tsAtPath js q = some 0) ∧
    (∀ cfg lookup js isLive maxLen media env,
       resolve_timestamp env.embeddedDt
         (match_json_for_media (basenameFn media) lookup).1
         (match_json_for_media (basenameFn media) lookup).2 js = .ok none →
       (processOneFile cfg lookup js isLive maxLen media env).dWarnings = 1 ∧
       (∀ p d, Eff.exifWriteTimestamps p d ∉
          (processOneFile cfg lookup js isLive maxLen media env).effs) ∧
       (∀ src dst, Eff.moveFile src dst ∈
          (processOneFile cfg lookup js isLive maxLen media env).effs →
          dst = cfg.orphanMediaDir ++ '/' :: basenameFn media)) := by
  refine ⟨?_, ?_, ?_, ?_, ?_, ?_⟩
  · intro d primary supp js
    rfl
  · intro primary supp js t d h1 h2
    simp only [resolve_timestamp, h1, h2]
  · intro primary supp js t d h1 h2 h3
    simp only [resolve_timestamp, h1, h2, h3]
  · intro primary supp js h1 h2
    simp only [resolve_timestamp, h1, h2]
  · exact fun paths js t h => pick_timestamp_first paths js t h
  · intro cfg lookup js isLive maxLen media env hr
    unfold processOneFile
    simp only [hr]
    refine ⟨by trivial, ?_, ?_⟩
    · intro p d h
      simp only [List.mem_cons] at h
      rcases h with h | h
      · split at h <;> exact Eff.noConfusion h
      · exact orphanDivert_no_tsWrite cfg isLive env media _ p d h
    · intro src dst h
      simp only [List.mem_cons] at h
      rcases h with h | h
      · split at h <;> exact Eff.noConfusion h
      · exact (orphanDivert_move cfg isLive env media _ src dst h).2

/-- Witness for C1: with no embedded timestamp and a primary sidecar dated
1630000000, the chain resolves that timestamp with source primaryJSON. -/
theorem C1_witness :
    resolve_timestamp none ["b.json".toList] []
      [("b.json".toList, ⟨TsVal.tstr "1630000000".toList, TsVal.tnull, none, none⟩)] =
      .ok (some (⟨2021, 8, 26, 17, 46, 40⟩, .primary_json)) :=
  C1_timestamp_precedence.2.1 ["b.json".toList] []
    [("b.json".toList, ⟨TsVal.tstr "1630000000".toList, TsVal.tnull, none, none⟩)]
    1630000000 ⟨2021, 8, 26, 17, 46, 40⟩ (by decide) (by decide)

/-! ### No-overwrite lemmas for C7 -/

/-- Predicate: no move or copy effect in the trace targets a path that the
filesystem snapshot reports as existing. -/
def NoClobber (fsE : List Str) (l : List Eff) : Prop :=
  ∀ e ∈ l, ∀ src dst, (e = Eff.moveFile src dst ∨ e = Eff.copyFile src dst) → dst ∉ fsE

theorem noClobber_nil (fsE : List Str) : NoClobber fsE [] := by
  intro e he
  simp at he

theorem noClobber_append {fsE : List Str} {l1 l2 : List Eff}
    (h1 : NoClobber fsE l1) (h2 : NoClobber fsE l2) : NoClobber fsE (l1 ++ l2) := by
  intro e he src dst hc
  rcases List.mem_append.mp he with h | h
  · exact h1 e h src dst hc
  · exact h2 e h src dst hc

theorem noClobber_cons {fsE : List Str} {l : List Eff} (x : Eff)
    (hx : ∀ src dst, ¬(x = Eff.moveFile src dst ∨ x = Eff.copyFile src dst))
    (h : NoClobber fsE l) : NoClobber fsE (x :: l) := by
  intro e he src dst hc
  rcases List.mem_cons.mp he with rfl | he
  · exact absurd hc (hx src dst)
  · exact h e he src dst hc

theorem noClobber_cons_move {fsE : List Str} {l : List Eff} (s dst : Str)
    (hdst : dst ∉ fsE) (h : NoClobber fsE l) :
    NoClobber fsE (Eff.moveFile s dst :: l) := by
  intro e he src dst2 hc
  rcases List.mem_cons.mp he with rfl | he
  · rcases hc with hc | hc
    · injection hc with h1 h2
      subst h2
      exact hdst
    · exact Eff.noConfusion hc
  · exact h e he src dst2 hc

theorem noClobber_copy_jsons (fsE paths : List Str) (d : Str) :
    NoClobber fsE (copy_jsons fsE paths d) := by
  intro e he src dst hc
  obtain ⟨p, d2, he2, hd⟩ := mem_copy_jsons fsE paths d e he
  subst he2
  rcases hc with hc | hc
  · exact Eff.noConfusion hc
  · injection hc with h1 h2
    subst h2
    exact hd

theorem noClobber_guard_move (fsE : List Str) (media dest : Str) :
    NoClobber fsE (if dest ∈ fsE then [] else [Eff.moveFile media dest]) := by
  split
  · exact noClobber_nil fsE
  case isFalse hne =>
    intro e he src dst hc
    rcases List.mem_singleton.mp he with rfl
    rcases hc with hc | hc
    · injection hc with h1 h2
      subst h2
      exact hne
    · exact Eff.noConfusion hc

theorem noClobber_tsMergeEffs (fsE : List Str) (env : FileEnv) (media dm2 : Str)
    (date : DateTime) (srcTag : TsSource) (primary : List Str) :
    NoClobber fsE (tsMergeEffs env media dm2 date srcTag primary) := by
  rintro e he src dst (rfl | rfl) <;> unfold tsMergeEffs at he <;>
    cases srcTag <;> (repeat' split at he) <;> simp at he

theorem noClobber_gpsMergeEffs (fsE : List Str) (env : FileEnv) (js : JsonStore)
    (media dm2 : Str) (supp : List Str) :
    NoClobber fsE (gpsMergeEffs env js media dm2 supp) := by
  rintro e he src dst (rfl | rfl) <;> unfold gpsMergeEffs at he <;>
    (repeat' split at he) <;> simp at he

theorem noClobber_normalize (fsE : List Str) (env : FileEnv) (x : Str) :
    NoClobber fsE (normalize_media_extension env x).2 := by
  rintro e he src dst (rfl | rfl) <;> unfold normalize_media_extension at he <;>
    (repeat' split at he) <;> simp at he

theorem noClobber_dryRunLogs (fsE : List Str) (matched : List Str) (srcTag : TsSource) :
    NoClobber fsE (dryRunLogs matched srcTag) := by
  rintro e he src dst (rfl | rfl) <;> unfold dryRunLogs at he <;>
    (repeat' split at he) <;> simp at he

theorem noClobber_orphanDivert (cfg : Cfg) (isLive : Bool) (env : FileEnv) (media : Str)
    (matched : List Str) :
    NoClobber env.fsExists (orphanDivert cfg isLive env media matched) := by
  unfold orphanDivert
  apply noClobber_cons _ (by rintro src dst (h | h) <;> exact Eff.noConfusion h)
  split
  · apply noClobber_cons _ (by rintro src dst (h | h) <;> exact Eff.noConfusion h)
    apply noClobber_append
    apply noClobber_append
    · exact noClobber_guard_move env.fsExists media _
    · exact noClobber_copy_jsons env.fsExists matched cfg.orphanMediaDir
    · exact noClobber_cons _ (by rintro src dst (h | h) <;> exact Eff.noConfusion h)
        (noClobber_nil env.fsExists)
  · exact noClobber_nil env.fsExists

theorem noClobber_ptlDivert (cfg : Cfg) (isLive : Bool) (env : FileEnv)
    (media destMedia : Str) (matched : List Str) (plen : Nat) :
    NoClobber env.fsExists (ptlDivert cfg isLive env media destMedia matched plen) := by
  unfold ptlDivert
  apply noClobber_cons _ (by rintro src dst (h | h) <;> exact Eff.noConfusion h)
  apply noClobber_cons _ (by rintro src dst (h | h) <;> exact Eff.noConfusion h)
  split
  · apply noClobber_cons _ (by rintro src dst (h | h) <;> exact Eff.noConfusion h)
    apply noClobber_append
    apply noClobber_append
    · exact noClobber_guard_move env.fsExists media _
    · exact noClobber_copy_jsons env.fsExists matched cfg.pathTooLongDir
    · apply noClobber_cons _ (by rintro src dst (h | h) <;> exact Eff.noConfusion h)
      exact noClobber_cons _ (by rintro src dst (h | h) <;> exact Eff.noConfusion h)
        (noClobber_nil env.fsExists)
  · exact noClobber_nil env.fsExists

theorem noClobber_collisionSkip (env : FileEnv) (media : Str) (matched : List Str)
    (destDir : Str) :
    NoClobber env.fsExists (collisionSkip env media matched destDir) := by
  unfold collisionSkip
  apply noClobber_cons _ (by rintro src dst (h | h) <;> exact Eff.noConfusion h)
  apply noClobber_append
  · split
    · apply noClobber_append
      · exact noClobber_copy_jsons env.fsExists matched destDir
      · exact noClobber_cons _ (by rintro src dst (h | h) <;> exact Eff.noConfusion h)
          (noClobber_nil env.fsExists)
    · exact noClobber_nil env.fsExists
  · exact noClobber_cons _ (by rintro src dst (h | h) <;> exact Eff.noConfusion h)
      (noClobber_nil env.fsExists)

theorem noClobber_commitLive (env : FileEnv) (js : JsonStore) (media : Str)
    (primary supp matched : List Str) (destDir destMedia : Str) (date : DateTime)
    (srcTag : TsSource) (hdest : destMedia ∉ env.fsExists) :
    NoClobber env.fsExists
      (commitLive env js media primary supp matched destDir destMedia date srcTag) := by
  unfold commitLive
  apply noClobber_cons_move media destMedia hdest
  apply noClobber_cons _ (by rintro src dst (h | h) <;> exact Eff.noConfusion h)
  apply noClobber_append
  apply noClobber_append
  apply noClobber_append
  apply noClobber_append
  apply noClobber_append
  · exact noClobber_normalize env.fsExists env destMedia
  · exact noClobber_tsMergeEffs env.fsExists env media _ date srcTag primary
  · exact noClobber_copy_jsons env.fsExists matched destDir
  · split
    · exact noClobber_cons _ (by rintro src dst (h | h) <;> exact Eff.noConfusion h)
        (noClobber_nil env.fsExists)
    · exact noClobber_nil env.fsExists
  · exact noClobber_gpsMergeEffs env.fsExists env js media _ supp
  · exact noClobber_cons _ (by rintro src dst (h | h) <;> exact Eff.noConfusion h)
      (noClobber_nil env.fsExists)

theorem processOneFile_noClobber (cfg : Cfg) (lookup : Dict) (js : JsonStore)
    (isLive : Bool) (maxLen : Nat) (media : Str) (env : FileEnv) :
    NoClobber env.fsExists (processOneFile cfg lookup js isLive maxLen media env).effs := by
  have hlog : ∀ (c : Prop) [Decidable c] (a b : Str) (src dst : Str),
      ¬((if c then Eff.logMsg a else Eff.logMsg b) = Eff.moveFile src dst ∨
        (if c then Eff.logMsg a else Eff.logMsg b) = Eff.copyFile src dst) := by
    intro c _ a b src dst
    rintro (h | h) <;> split at h <;> exact Eff.noConfusion h
  unfold processOneFile
  cases hr : resolve_timestamp env.embeddedDt
      (match_json_for_media (basenameFn media) lookup).1
      (match_json_for_media (basenameFn media) lookup).2 js with
  | error u =>
    rintro e he src dst (rfl | rfl) <;> simp only [hr] at he <;>
      simp only [List.mem_cons, List.not_mem_nil, or_false] at he <;>
      rcases he with he | he <;> (try split at he) <;> exact Eff.noConfusion he
  | ok o =>
    cases o with
    | none =>
      simp only [hr]
      exact noClobber_cons _ (hlog _ _ _) (noClobber_orphanDivert cfg isLive env media _)
    | some ds =>
      obtain ⟨date, srcTag⟩ := ds
      simp only [hr]
      split
      · exact noClobber_cons _ (hlog _ _ _)
          (noClobber_ptlDivert cfg isLive env media _ _ _)
      · split
        · split
          case isTrue hdm =>
            exact noClobber_cons _ (hlog _ _ _)
              (noClobber_cons _ (by rintro src dst (h | h) <;> exact Eff.noConfusion h)
                (noClobber_collisionSkip env media _ _))
          case isFalse hdm =>
            exact noClobber_cons _ (hlog _ _ _)
              (noClobber_cons _ (by rintro src dst (h | h) <;> exact Eff.noConfusion h)
                (noClobber_commitLive env js media _ _ _ _ _ date srcTag hdm))
        · exact noClobber_cons _ (hlog _ _ _) (noClobber_dryRunLogs env.fsExists _ srcTag)

theorem noClobber_recPtlEffs (cfg : Cfg) (env : FileEnv) (media destMedia : Str)
    (plen : Nat) (supps : List Str) :
    NoClobber env.fsExists (recPtlEffs cfg env media destMedia plen supps) := by
  unfold recPtlEffs
  apply noClobber_cons _ (by rintro src dst (h | h) <;> exact Eff.noConfusion h)
  apply noClobber_append
  apply noClobber_append
  · intro e he src dst hc
    by_cases hf : cfg.pathTooLongDir ++ '/' :: basenameFn media ∈ env.fsExists
    · rw [if_pos hf] at he
      simp at he
    · rw [if_neg hf] at he
      by_cases hu : is_under_dir media cfg.takeoutArchivesDir = true
      · rw [if_pos hu] at he
        rcases List.mem_cons.mp he with rfl | he
        · rcases hc with hc | hc
          · exact Eff.noConfusion hc
          · injection hc with h1 h2
            subst h2
            exact hf
        · exact noClobber_normalize env.fsExists env _ e he src dst hc
      · rw [if_neg hu] at he
        rcases List.mem_cons.mp he with rfl | he
        · rcases hc with hc | hc
          · injection hc with h1 h2
            subst h2
            exact hf
          · exact Eff.noConfusion hc
        · exact noClobber_normalize env.fsExists env _ e he src dst hc
  · intro e he src dst hc
    simp only [List.mem_flatMap] at he
    obtain ⟨sp, _, he2⟩ := he
    by_cases hsd : cfg.pathTooLongDir ++ '/' :: basenameFn sp ∈ env.fsExists
    · simp [hsd] at he2
    · simp only [if_neg hsd, List.mem_singleton] at he2
      subst he2
      rcases hc with hc | hc
      · exact Eff.noConfusion hc
      · injection hc with h1 h2
        subst h2
        exact hsd
  · exact noClobber_cons _ (by rintro src dst (h | h) <;> exact Eff.noConfusion h)
      (noClobber_nil env.fsExists)

theorem noClobber_recCommitEffs (cfg : Cfg) (env : FileEnv) (js : JsonStore)
    (media destDir destMedia : Str) (date : DateTime) (reason : Str)
    (supps : List Str) (sp : Option Str) :
    NoClobber env.fsExists
      (recCommitEffs cfg env js media destDir destMedia date reason supps sp) := by
  unfold recCommitEffs
  apply noClobber_cons _ (by rintro src dst (h | h) <;> exact Eff.noConfusion h)
  apply noClobber_append
  apply noClobber_append
  apply noClobber_append
  apply noClobber_append
  · by_cases hdm : destMedia ∈ env.fsExists
    · simp only [if_pos hdm]
      exact noClobber_nil env.fsExists
    · simp only [if_neg hdm]
      split <;>
      · intro e he src dst hc
        rcases List.mem_singleton.mp he with rfl
        rcases hc with hc | hc <;>
          first
            | (injection hc with h1 h2; subst h2; exact hdm)
            | exact Eff.noConfusion hc
  · exact noClobber_normalize env.fsExists env destMedia
  · rintro e he src dst (rfl | rfl) <;> (repeat' split at he) <;> simp at he
  · intro e he src dst hc
    simp only [List.mem_flatMap] at he
    obtain ⟨q, _, he2⟩ := he
    by_cases hsd : destDir ++ '/' :: basenameFn q ∈ env.fsExists
    · simp [hsd] at he2
    · simp only [if_neg hsd, List.mem_singleton] at he2
      subst he2
      rcases hc with hc | hc
      · exact Eff.noConfusion hc
      · injection hc with h1 h2
        subst h2
        exact hsd
  · rintro e he src dst (rfl | rfl) <;> (repeat' split at he) <;> simp at he

theorem recover_noClobber (cfg : Cfg) (idx : SuppIndex) (js : JsonStore)
    (destRoot : Str) (isLive : Bool) (maxLen : Nat) (media : Str) (env : FileEnv)
    (r : RecResult)
    (h : recover_media_with_fallback cfg idx js destRoot isLive maxLen media env = .ok r) :
    NoClobber env.fsExists r.effs := by
  unfold recover_media_with_fallback at h
  have hfin : ∀ (date : DateTime) (reason : Str),
      (if (validate_path_length
            (get_media_bundle_dir (destRoot ++ '/' :: fmtYear date ++ '/' :: fmtMonth date)
              media ++ '/' :: ((splitext (basenameFn media)).1 ++ env.realExt)) maxLen).1 =
          false then
        if isLive then
          Except.ok (ε := Unit)
            ⟨recPtlEffs cfg env media
              (get_media_bundle_dir (destRoot ++ '/' :: fmtYear date ++ '/' :: fmtMonth date)
                media ++ '/' :: ((splitext (basenameFn media)).1 ++ env.realExt))
              (validate_path_length
                (get_media_bundle_dir (destRoot ++ '/' :: fmtYear date ++ '/' :: fmtMonth date)
                  media ++ '/' :: ((splitext (basenameFn media)).1 ++ env.realExt)) maxLen).2
              (find_all_supplemental_for_basename (basenameFn media) idx), false, none⟩
        else Except.ok ⟨[], false, none⟩
      else
        if isLive then
          Except.ok
            ⟨recCommitEffs cfg env js media
              (get_media_bundle_dir (destRoot ++ '/' :: fmtYear date ++ '/' :: fmtMonth date)
                media)
              (get_media_bundle_dir (destRoot ++ '/' :: fmtYear date ++ '/' :: fmtMonth date)
                media ++ '/' :: ((splitext (basenameFn media)).1 ++ env.realExt))
              date reason (find_all_supplemental_for_basename (basenameFn media) idx)
              (find_all_supplemental_for_basename (basenameFn media) idx).head?,
             true, some reason⟩
        else Except.ok ⟨[], true, some reason⟩) = Except.ok r →
      NoClobber env.fsExists r.effs := by
    intro date reason hh
    by_cases hv : (validate_path_length
        (get_media_bundle_dir (destRoot ++ '/' :: fmtYear date ++ '/' :: fmtMonth date)
          media ++ '/' :: ((splitext (basenameFn media)).1 ++ env.realExt)) maxLen).1 = false
    · rw [if_pos hv] at hh
      by_cases hl : isLive = true
      · rw [if_pos hl] at hh
        cases hh
        exact noClobber_recPtlEffs cfg env media _ _ _
      · rw [if_neg hl] at hh
        cases hh
        exact noClobber_nil env.fsExists
    · rw [if_neg hv] at hh
      by_cases hl : isLive = true
      · rw [if_pos hl] at hh
        cases hh
        exact noClobber_recCommitEffs cfg env js media _ _ date reason _ _
      · rw [if_neg hl] at hh
        cases hh
        exact noClobber_nil env.fsExists
  cases henv : env.embeddedDt with
  | some d =>
    simp only [henv] at h
    exact hfin d "exif".toList h
  | none =>
    simp only [henv] at h
    cases hsp : (find_all_supplemental_for_basename (basenameFn media) idx).head? with
    | none =>
      simp only [hsp] at h
      cases h
      exact noClobber_nil env.fsExists
    | some p =>
      simp only [hsp] at h
      cases hts : tsAtPath js p with
      | none =>
        simp only [hts] at h
        cases h
        exact noClobber_nil env.fsExists
      | some t =>
        simp only [hts] at h
        by_cases ht : t = 0
        · rw [if_pos ht] at h
          cases h
          exact noClobber_nil env.fsExists
        · rw [if_neg ht] at h
          cases hf : fromtimestampUTC t with
          | none =>
            simp only [hf] at h
            exact Except.noConfusion h
          | some d =>
            simp only [hf] at h
            rw [← hsp] at h
            exact hfin d "supplemental".toList h

theorem copy_jsons_complete (fsE paths : List Str) (destDir p : Str)
    (hp : p ∈ paths) (hd : destDir ++ '/' :: basenameFn p ∉ fsE) :
    Eff.copyFile p (destDir ++ '/' :: basenameFn p) ∈ copy_jsons fsE paths destDir := by
  unfold copy_jsons
  rw [List.mem_flatMap]
  refine ⟨p, mem_sortStrings.mpr (List.mem_dedup.mpr hp), ?_⟩
  rw [if_neg hd]
  exact List.mem_singleton.mpr rfl

theorem collisionSkip_no_move (env : FileEnv) (media : Str) (matched : List Str)
    (destDir src dst : Str)
    (h : Eff.moveFile src dst ∈ collisionSkip env media matched destDir) : False := by
  unfold collisionSkip at h
  simp only [List.mem_cons, List.mem_append, List.mem_singleton, List.not_mem_nil,
    or_false] at h
  rcases h with h | h | h
  · exact Eff.noConfusion h
  · by_cases hm : matched ≠ []
    · rw [if_pos hm] at h
      simp only [List.mem_append, List.mem_singleton, List.mem_cons,
        List.not_mem_nil, or_false] at h
      rcases h with h | h
      · obtain ⟨a, b, he, _⟩ := mem_copy_jsons _ _ _ _ h
        exact Eff.noConfusion he
      · exact Eff.noConfusion h
    · simp [hm] at h
  · exact Eff.noConfusion h

/-- C7: commit never overwrites an existing destination: every move or copy
effect of per-file processing (and of the recovery path) targets a path the
existence snapshot reports as absent; in the collision branch of the live
commit the existing destination is untouched (no move at all), the
collision is logged as a warning, the matched sidecars are still copied
into the destination directory, and the file is recorded in the per-file
ledger and the processed set, so a re-run skips it. -/
theorem C7_no_overwrite :
    (∀ cfg lookup js isLive maxLen media env src dst,
       (Eff.moveFile src dst ∈ (processOneFile cfg lookup js isLive maxLen media env).effs ∨
        Eff.copyFile src dst ∈ (processOneFile cfg lookup js isLive maxLen media env).effs) →
       dst ∉ env.fsExists) ∧
    (∀ cfg idx js destRoot isLive maxLen media env r src dst,
       recover_media_with_fallback cfg idx js destRoot isLive maxLen media env = .ok r →
       (Eff.moveFile src dst ∈ r.effs ∨ Eff.copyFile src dst ∈ r.effs) →
       dst ∉ env.fsExists) ∧
    (∀ cfg lookup js maxLen media env (date : DateTime) (srcTag : TsSource),
       resolve_timestamp env.embeddedDt
         (match_json_for_media (basenameFn media) lookup).1
         (match_json_for_media (basenameFn media) lookup).2 js = .ok (some (date, srcTag)) →
       (destMediaFor cfg media env date).length < maxLen →
       destMediaFor cfg media env date ∈ env.fsExists →
       Eff.logMsg ("WARNING: Media file already exists in destination. Skipping.".toList) ∈
         (processOneFile cfg lookup js true maxLen media env).effs ∧
       Eff.appendProcessedFile media ∈
         (processOneFile cfg lookup js true maxLen media env).effs ∧
       (processOneFile cfg lookup js true maxLen media env).addProcessed = true ∧
       (∀ src dst, Eff.moveFile src dst ∉
         (processOneFile cfg lookup js true maxLen media env).effs) ∧
       (∀ p ∈ (match_json_for_media (basenameFn media) lookup).1 ++
              (match_json_for_media (basenameFn media) lookup).2,
          destDirFor cfg media date ++ '/' :: basenameFn p ∉ env.fsExists →
          Eff.copyFile p (destDirFor cfg media date ++ '/' :: basenameFn p) ∈
            (processOneFile cfg lookup js true maxLen media env).effs)) ∧
    (∀ cfg lookup js isLive maxLen media env rest processed,
       media ∈ processed →
       process_media_files cfg lookup js isLive maxLen ((media, env) :: rest) processed =
         process_media_files cfg lookup js isLive maxLen rest processed) := by
  refine ⟨?_, ?_, ?_, ?_⟩
  · intro cfg lookup js isLive maxLen media env src dst h
    rcases h with h | h
    · exact processOneFile_noClobber cfg lookup js isLive maxLen media env _ h src dst
        (Or.inl rfl)
    · exact processOneFile_noClobber cfg lookup js isLive maxLen media env _ h src dst
        (Or.inr rfl)
  · intro cfg idx js destRoot isLive maxLen media env r src dst hr h
    rcases h with h | h
    · exact recover_noClobber cfg idx js destRoot isLive maxLen media env r hr _ h src dst
        (Or.inl rfl)
    · exact recover_noClobber cfg idx js destRoot isLive maxLen media env r hr _ h src dst
        (Or.inr rfl)
  · intro cfg lookup js maxLen media env date srcTag hr hlen hex
    have hval : (validate_path_length (destMediaFor cfg media env date) maxLen).1 = true := by
      simp [validate_path_length, hlen]
    have hred : processOneFile cfg lookup js true maxLen media env =
        ⟨(if (match_json_for_media (basenameFn media) lookup).1 ++
             (match_json_for_media (basenameFn media) lookup).2 ≠ [] then
            Eff.logMsg ("Matched JSON for ".toList ++ basenameFn media)
          else Eff.logMsg ("No JSON match for ".toList ++ basenameFn media)) ::
          Eff.makedirs (destDirFor cfg media date) ::
          collisionSkip env media
            ((match_json_for_media (basenameFn media) lookup).1 ++
             (match_json_for_media (basenameFn media) lookup).2)
            (destDirFor cfg media date),
         1,
         (if (match_json_for_media (basenameFn media) lookup).1 ++
             (match_json_for_media (basenameFn media) lookup).2 ≠ [] then 1 else 0),
         1, 0, true⟩ := by
      unfold processOneFile
      simp only [hr, hval, Bool.true_eq_false, if_false, if_true, if_pos hex]
    rw [hred]
    refine ⟨?_, ?_, rfl, ?_, ?_⟩
    · apply List.mem_cons_of_mem
      apply List.mem_cons_of_mem
      exact List.mem_cons_self _ _
    · apply List.mem_cons_of_mem
      apply List.mem_cons_of_mem
      unfold collisionSkip
      apply List.mem_cons_of_mem
      apply List.mem_append_right
      exact List.mem_singleton.mpr rfl
    · intro src dst h
      simp only [List.mem_cons] at h
      rcases h with h | h | h
      · split at h <;> exact Eff.noConfusion h
      · exact Eff.noConfusion h
      · exact collisionSkip_no_move env media _ _ src dst h
    · intro p hp hd
      apply List.mem_cons_of_mem
      apply List.mem_cons_of_mem
      unfold collisionSkip
      apply List.mem_cons_of_mem
      apply List.mem_append_left
      have hm : (match_json_for_media (basenameFn media) lookup).1 ++
          (match_json_for_media (basenameFn media) lookup).2 ≠ [] :=
        List.ne_nil_of_mem hp
      rw [if_pos hm]
      apply List.mem_append_left
      exact copy_jsons_complete env.fsExists _ _ p hp hd
  · intro cfg lookup js isLive maxLen media env rest processed hmem
    simp only [process_media_files]
    rw [if_pos hmem]

/-- Sample configuration used by concrete witnesses. -/
def sampleCfg : Cfg :=
  ⟨"L".toList,
   "L/__NEEDS_REVIEW__/unmatched-media".toList,
   "L/__NEEDS_REVIEW__/path-too-long".toList,
   "P/json-repository".toList,
   "P/takeout-archives".toList,
   "P/workbench/Takeout".toList,
   "P/workbench/.processed_files.log".toList,
   "P/.processed_work_items_pass2.log".toList⟩

/-- File oracle for the C7 witness: the destination file already exists. -/
def sampleEnvC7 : FileEnv :=
  ⟨["L/2020/05/m/m.jpg".toList], some ⟨2020, 5, 10, 17, 39, 0⟩, ".jpg".toList,
   none, none, false, false⟩

/-- Witness for C7: processing `m.jpg` whose destination already exists logs
the collision warning, records the file as handled, and marks it processed. -/
theorem C7_witness :
    Eff.logMsg ("WARNING: Media file already exists in destination. Skipping.".toList) ∈
      (processOneFile sampleCfg [] [] true 240 "m.jpg".toList sampleEnvC7).effs ∧
    Eff.appendProcessedFile "m.jpg".toList ∈
      (processOneFile sampleCfg [] [] true 240 "m.jpg".toList sampleEnvC7).effs ∧
    (processOneFile sampleCfg [] [] true 240 "m.jpg".toList sampleEnvC7).addProcessed = true :=
  let h := C7_no_overwrite.2.2.1 sampleCfg [] [] 240 "m.jpg".toList sampleEnvC7
    ⟨2020, 5, 10, 17, 39, 0⟩ TsSource.embedded (by rfl) (by decide) (by decide)
  ⟨h.1, h.2.1, h.2.2.1⟩

/-! ### Dry-run lemmas for C5 -/

theorem dryRunLogs_shape (matched : List Str) (srcTag : TsSource) (e : Eff)
    (h : e ∈ dryRunLogs matched srcTag) : ∃ s, e = Eff.logMsg s := by
  unfold dryRunLogs at h
  rcases List.mem_cons.mp h with h | h
  · exact ⟨_, h⟩
  · rcases List.mem_append.mp h with h | h
    · cases srcTag <;> simp only [List.mem_cons, List.not_mem_nil, or_false] at h <;>
        exact ⟨_, h⟩
    · by_cases hm : matched ≠ []
      · rw [if_pos hm] at h
        rcases List.mem_singleton.mp h with rfl
        exact ⟨_, rfl⟩
      · rw [if_neg hm] at h
        simp at h

theorem processOneFile_dry_logs (cfg : Cfg) (lookup : Dict) (js : JsonStore)
    (maxLen : Nat) (media : Str) (env : FileEnv) (e : Eff)
    (h : e ∈ (processOneFile cfg lookup js false maxLen media env).effs) :
    ∃ s, e = Eff.logMsg s := by
  unfold processOneFile at h
  cases hr : resolve_timestamp env.embeddedDt
      (match_json_for_media (basenameFn media) lookup).1
      (match_json_for_media (basenameFn media) lookup).2 js with
  | error u =>
    simp only [hr] at h
    simp only [List.mem_cons, List.not_mem_nil, or_false] at h
    rcases h with h | h
    · split at h
      · exact ⟨_, h⟩
      · exact ⟨_, h⟩
    · exact ⟨_, h⟩
  | ok o =>
    cases o with
    | none =>
      simp only [hr] at h
      rcases List.mem_cons.mp h with h | h
      · split at h
        · exact ⟨_, h⟩
        · exact ⟨_, h⟩
      · unfold orphanDivert at h
        rcases List.mem_cons.mp h with h | h
        · exact ⟨_, h⟩
        · simp at h
    | some ds =>
      obtain ⟨date, srcTag⟩ := ds
      simp only [hr] at h
      split at h
      · rcases List.mem_cons.mp h with h | h
        · split at h
          · exact ⟨_, h⟩
          · exact ⟨_, h⟩
        · unfold ptlDivert at h
          rcases List.mem_cons.mp h with h | h
          · exact ⟨_, h⟩
          · rcases List.mem_cons.mp h with h | h
            · exact ⟨_, h⟩
            · simp at h
      · split at h
        case isTrue hfalse => exact Bool.noConfusion hfalse
        case isFalse =>
          rcases List.mem_cons.mp h with h | h
          · split at h
            · exact ⟨_, h⟩
            · exact ⟨_, h⟩
          · exact dryRunLogs_shape _ srcTag e h

theorem process_media_files_dry_logs (cfg : Cfg) (lookup : Dict) (js : JsonStore)
    (maxLen : Nat) (files : List (Str × FileEnv)) (processed : List Str) (e : Eff)
    (h : e ∈ (process_media_files cfg lookup js false maxLen files processed).1) :
    ∃ s, e = Eff.logMsg s := by
  induction files generalizing processed with
  | nil => simp [process_media_files] at h
  | cons f rest ih =>
    obtain ⟨m, envf⟩ := f
    simp only [process_media_files] at h
    by_cases hm : m ∈ processed
    · rw [if_pos hm] at h
      exact ih processed h
    · rw [if_neg hm] at h
      rcases List.mem_append.mp h with h | h
      · exact processOneFile_dry_logs cfg lookup js maxLen m envf e h
      · exact ih _ h

theorem processOneFile_matchLog (cfg : Cfg) (lookup : Dict) (js : JsonStore)
    (isLive : Bool) (maxLen : Nat) (media : Str) (env : FileEnv) :
    Eff.logMsg ("Matched JSON for ".toList ++ basenameFn media) ∈
      (processOneFile cfg lookup js isLive maxLen media env).effs ∨
    Eff.logMsg ("No JSON match for ".toList ++ basenameFn media) ∈
      (processOneFile cfg lookup js isLive maxLen media env).effs := by
  unfold processOneFile
  by_cases hm : (match_json_for_media (basenameFn media) lookup).1 ++
      (match_json_for_media (basenameFn media) lookup).2 ≠ []
  · left
    simp only [if_pos hm]
    cases hr : resolve_timestamp env.embeddedDt
        (match_json_for_media (basenameFn media) lookup).1
        (match_json_for_media (basenameFn media) lookup).2 js with
    | error u =>
      simp only [hr]
      exact List.mem_cons_self _ _
    | ok o =>
      cases o with
      | none =>
        simp only [hr]
        exact List.mem_cons_self _ _
      | some ds =>
        obtain ⟨date, srcTag⟩ := ds
        simp only [hr]
        split
        · exact List.mem_cons_self _ _
        · split
          · split
            · exact List.mem_cons_self _ _
            · exact List.mem_cons_self _ _
          · exact List.mem_cons_self _ _
  · right
    simp only [if_neg hm]
    cases hr : resolve_timestamp env.embeddedDt
        (match_json_for_media (basenameFn media) lookup).1
        (match_json_for_media (basenameFn media) lookup).2 js with
    | error u =>
      simp only [hr]
      exact List.mem_cons_self _ _
    | ok o =>
      cases o with
      | none =>
        simp only [hr]
        exact List.mem_cons_self _ _
      | some ds =>
        obtain ⟨date, srcTag⟩ := ds
        simp only [hr]
        split
        · exact List.mem_cons_self _ _
        · split
          · split
            · exact List.mem_cons_self _ _
            · exact List.mem_cons_self _ _
          · exact List.mem_cons_self _ _

theorem process_media_files_logs_decision (cfg : Cfg) (lookup : Dict) (js : JsonStore)
    (isLive : Bool) (maxLen : Nat) (files : List (Str × FileEnv)) (processed : List Str)
    (m : Str) (envf : FileEnv) (hmem : (m, envf) ∈ files) (hnp : m ∉ processed) :
    Eff.logMsg ("Matched JSON for ".toList ++ basenameFn m) ∈
      (process_media_files cfg lookup js isLive maxLen files processed).1 ∨
    Eff.logMsg ("No JSON match for ".toList ++ basenameFn m) ∈
      (process_media_files cfg lookup js isLive maxLen files processed).1 := by
  induction files generalizing processed with
  | nil => simp at hmem
  | cons f rest ih =>
    obtain ⟨m0, env0⟩ := f
    simp only [process_media_files]
    by_cases hm0 : m0 ∈ processed
    · rw [if_pos hm0]
      rcases List.mem_cons.mp hmem with heq | hmem2
      · injection heq with h1 h2
        subst h1
        exact absurd hm0 hnp
      · exact ih processed hmem2 hnp
    · rw [if_neg hm0]
      by_cases hsame : m = m0
      · subst hsame
        rcases processOneFile_matchLog cfg lookup js isLive maxLen m env0 with h | h
        · exact Or.inl (List.mem_append_left _ h)
        · exact Or.inr (List.mem_append_left _ h)
      · rcases List.mem_cons.mp hmem with heq | hmem2
        · injection heq with h1 h2
          exact absurd h1 hsame
        · have hnp2 : m ∉ (if (processOneFile cfg lookup js isLive maxLen m0 env0).addProcessed
              then processed ++ [m0] else processed) := by
            split
            · intro hc
              rcases List.mem_append.mp hc with hc | hc
              · exact hnp hc
              · exact hsame (List.mem_singleton.mp hc)
            · exact hnp
          rcases ih _ hmem2 hnp2 with h | h
          · exact Or.inl (List.mem_append_right _ h)
          · exact Or.inr (List.mem_append_right _ h)

/-- Effects that dry-run mode may still perform: console logging, the
processed-log removal triggered by force-extract/clean-workbench, and the
workbench extraction machinery. -/
def DryAllowed (cfg : Cfg) (e : Eff) : Prop :=
  (∃ s, e = Eff.logMsg s) ∨ e = Eff.removeFile cfg.processedLogFile ∨
  e = Eff.rmtree cfg.extractTargetDir ∨ e = Eff.makedirs cfg.extractTargetDir ∨
  (∃ a, e = Eff.extractZip a cfg.extractTargetDir)

theorem processArchiveItem_dry (cfg : Cfg) (args : Args) (lookup : Dict) (js : JsonStore)
    (multi : Bool) (path : Str) (aenv : ArchiveEnv) (processed : List Str) (e : Eff)
    (hdry : args.isLive = false)
    (h : e ∈ (processArchiveItem cfg args lookup js multi path aenv processed).1) :
    DryAllowed cfg e := by
  unfold processArchiveItem at h
  by_cases hok : aenv.extractOk = false
  · rw [if_pos hok] at h
    simp only [List.mem_singleton] at h
    exact Or.inl ⟨_, h⟩
  · rw [if_neg hok] at h
    rcases List.mem_append.mp h with h | h
    · rcases List.mem_append.mp h with h | h
      · simp only [List.mem_cons, List.not_mem_nil, or_false] at h
        rcases h with rfl | rfl | rfl | rfl
        · exact Or.inl ⟨_, rfl⟩
        · exact Or.inr (Or.inr (Or.inl rfl))
        · exact Or.inr (Or.inr (Or.inr (Or.inl rfl)))
        · exact Or.inr (Or.inr (Or.inr (Or.inr ⟨path, rfl⟩)))
      · rw [hdry] at h
        obtain ⟨s, rfl⟩ := process_media_files_dry_logs cfg lookup js MAX_PATH_LENGTH
          (list_media_files_env aenv.files) processed e h
        exact Or.inl ⟨s, rfl⟩
    · rcases List.mem_cons.mp h with rfl | h
      · exact Or.inl ⟨_, rfl⟩
      · rcases List.mem_append.mp h with h | h
        · rw [hdry] at h
          simp at h
        · split at h
          · simp only [List.mem_cons, List.not_mem_nil, or_false] at h
            rcases h with rfl | rfl | rfl
            · exact Or.inl ⟨_, rfl⟩
            · exact Or.inr (Or.inr (Or.inl rfl))
            · exact Or.inr (Or.inr (Or.inr (Or.inl rfl)))
          · simp at h

theorem runItems_dry (cfg : Cfg) (args : Args) (lookup : Dict) (js : JsonStore)
    (archives : List (Str × ArchiveEnv)) (multi : Bool) (items : List (ItemKind × Str))
    (processed : List Str) (e : Eff) (hdry : args.isLive = false)
    (h : e ∈ (runItems cfg args lookup js archives multi items processed).1) :
    DryAllowed cfg e := by
  induction items generalizing processed with
  | nil => simp [runItems] at h
  | cons it rest ih =>
    obtain ⟨k, p⟩ := it
    cases k
    · simp only [runItems] at h
      rcases List.mem_append.mp h with h | h
      · exact processArchiveItem_dry cfg args lookup js multi p _ processed e hdry h
      · exact ih _ h
    · simp only [runItems] at h
      rcases List.mem_cons.mp h with rfl | h
      · exact Or.inl ⟨_, rfl⟩
      · exact ih _ h

theorem run_pass2_dry (cfg : Cfg) (env : RunEnv) (args : Args) (e : Eff)
    (hdry : args.isLive = false) (h : e ∈ (run_pass2 cfg env args).effs) :
    DryAllowed cfg e := by
  have hbanner : ∀ (a b : Str), e ∈ [Eff.logMsg a, Eff.logMsg b] → DryAllowed cfg e := by
    intro a b hm
    simp only [List.mem_cons, List.not_mem_nil, or_false] at hm
    rcases hm with rfl | rfl
    · exact Or.inl ⟨_, rfl⟩
    · exact Or.inl ⟨_, rfl⟩
  have hclear : ∀ (c : Prop) (ht : Decidable c) (s : Str),
      e ∈ (if c then [Eff.removeFile cfg.processedLogFile, Eff.logMsg s] else []) →
      DryAllowed cfg e := by
    intro c ht s hm
    split at hm
    · simp only [List.mem_cons, List.not_mem_nil, or_false] at hm
      rcases hm with rfl | rfl
      · exact Or.inr (Or.inl rfl)
      · exact Or.inl ⟨_, rfl⟩
    · simp at hm
  have hfinal : ∀ (c : Prop) (ht : Decidable c) (s : Str),
      e ∈ (if c then
        [Eff.logMsg s, Eff.rmtree cfg.extractTargetDir, Eff.makedirs cfg.extractTargetDir]
        else []) → DryAllowed cfg e := by
    intro c ht s hm
    split at hm
    · simp only [List.mem_cons, List.not_mem_nil, or_false] at hm
      rcases hm with rfl | rfl | rfl
      · exact Or.inl ⟨_, rfl⟩
      · exact Or.inr (Or.inr (Or.inl rfl))
      · exact Or.inr (Or.inr (Or.inr (Or.inl rfl)))
    · simp at hm
  simp only [run_pass2] at h
  split at h
  · simp at h
  · split at h
    · exact hbanner _ _ h
    · split at h
      · exact hbanner _ _ h
      · split at h
        · exact hbanner _ _ h
        · split at h
          · rcases List.mem_append.mp h with h | h
            · exact hbanner _ _ h
            · exact hclear _ _ _ h
          · split at h
            · rcases List.mem_append.mp h with h | h
              · rcases List.mem_append.mp h with h | h
                · exact hbanner _ _ h
                · exact hclear _ _ _ h
              · simp only [List.mem_singleton] at h
                subst h
                exact Or.inl ⟨_, rfl⟩
            · rcases List.mem_append.mp h with h | h
              · rcases List.mem_append.mp h with h | h
                · rcases List.mem_append.mp h with h | h
                  · exact hbanner _ _ h
                  · exact hclear _ _ _ h
                · exact runItems_dry cfg args _ env.jsonDocs env.archives _ _ _ e hdry h
              · rcases List.mem_cons.mp h with rfl | h
                · exact Or.inl ⟨_, rfl⟩
                · exact hfinal _ _ _ h

/-- Run oracle for the C5 counterexample: one archive, empty logs, and an
existing processed-files log. -/
def dryRunEnvCE : RunEnv :=
  ⟨true, true, true, true, true, [], [], [], [], ["a.zip".toList], [], [], none,
   [("P/takeout-archives/a.zip".toList, ⟨true, []⟩)], false⟩

/-- Dry-run arguments with `--force-extract` and no `--archive-name`. -/
def dryForceArgs : Args := ⟨false, none, none, true, false, false⟩

/-- C5 counterexample: a dry run with `--force-extract` still deletes the
processed-files ledger and still extracts the archive into the workbench,
so the pipeline is not free of filesystem mutation and log-file deletion in
dry-run mode. -/
theorem C5_counterexample :
    dryForceArgs.isLive = false ∧
    Eff.removeFile sampleCfg.processedLogFile ∈
      (run_pass2 sampleCfg dryRunEnvCE dryForceArgs).effs ∧
    Eff.extractZip "P/takeout-archives/a.zip".toList sampleCfg.extractTargetDir ∈
      (run_pass2 sampleCfg dryRunEnvCE dryForceArgs).effs := by
  decide

/-- C5 (amended): in dry-run mode per-file processing is side-effect-free -
its whole trace is console log lines, so no move, copy, directory creation,
ledger append or exiftool write happens - and every per-file decision is
still computed and logged; at the whole-run level the only non-log effects
a dry run can perform are the workbench extraction machinery
(rmtree/makedirs/extract of the extraction directory) and the
processed-log removal triggered by force-extract/clean-workbench. -/
theorem C5_dry_run_no_mutation :
    (∀ cfg env args e, args.isLive = false → e ∈ (run_pass2 cfg env args).effs →
       DryAllowed cfg e) ∧
    (∀ cfg lookup js maxLen files processed e,
       e ∈ (process_media_files cfg lookup js false maxLen files processed).1 →
       ∃ s, e = Eff.logMsg s) ∧
    (∀ cfg lookup js isLive maxLen files processed m envf,
       (m, envf) ∈ files → m ∉ processed →
       Eff.logMsg ("Matched JSON for ".toList ++ basenameFn m) ∈
         (process_media_files cfg lookup js isLive maxLen files processed).1 ∨
       Eff.logMsg ("No JSON match for ".toList ++ basenameFn m) ∈
         (process_media_files cfg lookup js isLive maxLen files processed).1) :=
  ⟨fun cfg env args e hd he => run_pass2_dry cfg env args e hd he,
   fun cfg lookup js maxLen files processed e h =>
     process_media_files_dry_logs cfg lookup js maxLen files processed e h,
   fun cfg lookup js isLive maxLen files processed m envf hm hnp =>
     process_media_files_logs_decision cfg lookup js isLive maxLen files processed
       m envf hm hnp⟩

/-- Witness for C5: the dry run over one file still logs its match decision. -/
theorem C5_witness :
    Eff.logMsg ("Matched JSON for ".toList ++ basenameFn "m.jpg".toList) ∈
      (process_media_files sampleCfg [] [] false 240
        [("m.jpg".toList, sampleEnvC7)] []).1 ∨
    Eff.logMsg ("No JSON match for ".toList ++ basenameFn "m.jpg".toList) ∈
      (process_media_files sampleCfg [] [] false 240
        [("m.jpg".toList, sampleEnvC7)] []).1 :=
  C5_dry_run_no_mutation.2.2 sampleCfg [] [] false 240
    [("m.jpg".toList, sampleEnvC7)] [] "m.jpg".toList sampleEnvC7
    (by decide) (by decide)

/-! ### Per-file effect classification and terminal-state lemmas for C4 -/

/-- Effects that per-file processing can emit (work-item ledger appends,
log removal, workbench operations are run-level only). -/
def isPerFileEff : Eff → Bool
  | .appendWorkItem _ => false
  | .removeFile _ => false
  | .rmtree _ => false
  | .extractZip _ _ => false
  | _ => true

theorem allB_copy_jsons (fsE paths : List Str) (d : Str) :
    (copy_jsons fsE paths d).all isPerFileEff = true := by
  rw [List.all_eq_true]
  intro e he
  obtain ⟨p, d2, rfl, _⟩ := mem_copy_jsons fsE paths d e he
  rfl

theorem allB_orphanDivert (cfg : Cfg) (isLive : Bool) (env : FileEnv) (media : Str)
    (matched : List Str) :
    (orphanDivert cfg isLive env media matched).all isPerFileEff = true := by
  unfold orphanDivert
  repeat' split
  all_goals simp [allB_copy_jsons, isPerFileEff]

theorem allB_ptlDivert (cfg : Cfg) (isLive : Bool) (env : FileEnv) (media destMedia : Str)
    (matched : List Str) (plen : Nat) :
    (ptlDivert cfg isLive env media destMedia matched plen).all isPerFileEff = true := by
  unfold ptlDivert
  repeat' split
  all_goals simp [allB_copy_jsons, isPerFileEff]

theorem allB_collisionSkip (env : FileEnv) (media : Str) (matched : List Str)
    (destDir : Str) :
    (collisionSkip env media matched destDir).all isPerFileEff = true := by
  unfold collisionSkip
  repeat' split
  all_goals simp [allB_copy_jsons, isPerFileEff]

theorem allB_tsMergeEffs (env : FileEnv) (media dm2 : Str) (date : DateTime)
    (srcTag : TsSource) (primary : List Str) :
    (tsMergeEffs env media dm2 date srcTag primary).all isPerFileEff = true := by
  unfold tsMergeEffs
  cases srcTag <;> repeat' split
  all_goals rfl

theorem allB_gpsMergeEffs (env : FileEnv) (js : JsonStore) (media dm2 : Str)
    (supp : List Str) :
    (gpsMergeEffs env js media dm2 supp).all isPerFileEff = true := by
  simp only [gpsMergeEffs]
  repeat' split
  all_goals rfl

theorem allB_normalize (env : FileEnv) (x : Str) :
    ((normalize_media_extension env x).2).all isPerFileEff = true := by
  unfold normalize_media_extension
  repeat' split
  all_goals rfl

theorem allB_commitLive (env : FileEnv) (js : JsonStore) (media : Str)
    (primary supp matched : List Str) (destDir destMedia : Str) (date : DateTime)
    (srcTag : TsSource) :
    (commitLive env js media primary supp matched destDir destMedia date srcTag).all
      isPerFileEff = true := by
  simp only [commitLive, List.all_cons, List.all_append, List.all_nil, Bool.and_eq_true,
    Bool.and_true]
  refine ⟨rfl, rfl, ?_⟩
  refine ⟨⟨⟨⟨⟨allB_normalize env destMedia,
    allB_tsMergeEffs env media _ date srcTag primary⟩,
    allB_copy_jsons env.fsExists matched destDir⟩, ?_⟩,
    allB_gpsMergeEffs env js media _ supp⟩, rfl⟩
  split <;> rfl

theorem allB_processOneFile (cfg : Cfg) (lookup : Dict) (js : JsonStore) (isLive : Bool)
    (maxLen : Nat) (media : Str) (env : FileEnv) :
    ((processOneFile cfg lookup js isLive maxLen media env).effs).all isPerFileEff = true := by
  unfold processOneFile
  cases hr : resolve_timestamp env.embeddedDt
      (match_json_for_media (basenameFn media) lookup).1
      (match_json_for_media (basenameFn media) lookup).2 js with
  | error u =>
    simp only [hr]
    repeat' split
    all_goals simp [isPerFileEff]
  | ok o =>
    cases o with
    | none =>
      simp only [hr, List.all_cons, Bool.and_eq_true]
      constructor
      · split <;> rfl
      · exact allB_orphanDivert cfg isLive env media _
    | some ds =>
      obtain ⟨date, srcTag⟩ := ds
      simp only [hr]
      split
      · simp only [List.all_cons, Bool.and_eq_true]
        constructor
        · split <;> rfl
        · exact allB_ptlDivert cfg isLive env media _ _ _
      · split
        · split
          · simp only [List.all_cons, Bool.and_eq_true]
            refine ⟨?_, rfl, allB_collisionSkip env media _ _⟩
            split <;> rfl
          · simp only [List.all_cons, Bool.and_eq_true]
            refine ⟨?_, rfl, allB_commitLive env js media _ _ _ _ _ date srcTag⟩
            split <;> rfl
        · unfold dryRunLogs
          repeat' split
          all_goals simp [isPerFileEff]

theorem allB_process_media_files (cfg : Cfg) (lookup : Dict) (js : JsonStore)
    (isLive : Bool) (maxLen : Nat) (files : List (Str × FileEnv)) (processed : List Str) :
    ((process_media_files cfg lookup js isLive maxLen files processed).1).all
      isPerFileEff = true := by
  induction files generalizing processed with
  | nil => rfl
  | cons f rest ih =>
    obtain ⟨m, envf⟩ := f
    simp only [process_media_files]
    by_cases hm : m ∈ processed
    · rw [if_pos hm]
      exact ih processed
    · rw [if_neg hm]
      simp only [List.all_append, Bool.and_eq_true]
      exact ⟨allB_processOneFile cfg lookup js isLive maxLen m envf, ih _⟩

theorem process_media_files_mono (cfg : Cfg) (lookup : Dict) (js : JsonStore)
    (isLive : Bool) (maxLen : Nat) (files : List (Str × FileEnv)) (processed : List Str)
    (q : Str) (h : q ∈ processed) :
    q ∈ (process_media_files cfg lookup js isLive maxLen files processed).2.2 := by
  induction files generalizing processed with
  | nil => simpa [process_media_files]
  | cons f rest ih =>
    obtain ⟨m, envf⟩ := f
    simp only [process_media_files]
    by_cases hm : m ∈ processed
    · rw [if_pos hm]
      exact ih processed h
    · rw [if_neg hm]
      apply ih
      split
      · exact List.mem_append_left _ h
      · exact h

theorem processOneFile_addProcessed_or_error (cfg : Cfg) (lookup : Dict) (js : JsonStore)
    (isLive : Bool) (maxLen : Nat) (m : Str) (envf : FileEnv)
    (h : (processOneFile cfg lookup js isLive maxLen m envf).addProcessed = false) :
    (processOneFile cfg lookup js isLive maxLen m envf).dErrors = 1 := by
  unfold processOneFile at h ⊢
  cases hr : resolve_timestamp envf.embeddedDt
      (match_json_for_media (basenameFn m) lookup).1
      (match_json_for_media (basenameFn m) lookup).2 js with
  | error u => simp only [hr]
  | ok o =>
    cases o with
    | none =>
      simp only [hr] at h
      exact Bool.noConfusion h
    | some ds =>
      obtain ⟨date, srcTag⟩ := ds
      simp only [hr] at h
      split at h <;> [skip; split at h] <;>
        [exact Bool.noConfusion h; (split at h <;> exact Bool.noConfusion h);
         exact Bool.noConfusion h]

theorem process_media_files_all_terminal (cfg : Cfg) (lookup : Dict) (js : JsonStore)
    (isLive : Bool) (maxLen : Nat) (files : List (Str × FileEnv)) (processed : List Str)
    (hz : (process_media_files cfg lookup js isLive maxLen files processed).2.1.nErrors = 0)
    (m : Str) (envf : FileEnv) (hmem : (m, envf) ∈ files) :
    m ∈ (process_media_files cfg lookup js isLive maxLen files processed).2.2 := by
  induction files generalizing processed with
  | nil => simp at hmem
  | cons f rest ih =>
    obtain ⟨m0, env0⟩ := f
    simp only [process_media_files] at hz ⊢
    by_cases hm0 : m0 ∈ processed
    · rw [if_pos hm0] at hz ⊢
      rcases List.mem_cons.mp hmem with heq | hmem2
      · injection heq with h1 h2
        subst h1
        exact process_media_files_mono cfg lookup js isLive maxLen rest processed m hm0
      · exact ih processed hz hmem2
    · rw [if_neg hm0] at hz ⊢
      have hz2 : (processOneFile cfg lookup js isLive maxLen m0 env0).dErrors = 0 ∧
          (process_media_files cfg lookup js isLive maxLen rest
            (if (processOneFile cfg lookup js isLive maxLen m0 env0).addProcessed
             then processed ++ [m0] else processed)).2.1.nErrors = 0 :=
        Nat.add_eq_zero.mp hz
      have hadd : (processOneFile cfg lookup js isLive maxLen m0 env0).addProcessed = true := by
        by_contra hc
        simp only [Bool.not_eq_true] at hc
        rw [processOneFile_addProcessed_or_error cfg lookup js isLive maxLen m0 env0 hc]
          at hz2
        exact Nat.one_ne_zero hz2.1
      rcases List.mem_cons.mp hmem with heq | hmem2
      · injection heq with h1 h2
        subst h1
        apply process_media_files_mono
        rw [if_pos hadd]
        exact List.mem_append_right _ (List.mem_singleton.mpr rfl)
      · exact ih _ hz2.2 hmem2

/-- Run oracle for the C4 counterexample: one archive whose single media
file has a primary sidecar timestamp too large for datetime.fromtimestamp,
so its per-file processing raises and is counted as an error. -/
def liveErrEnv : RunEnv :=
  ⟨true, true, true, true, false, [], [], [], [], ["a.zip".toList],
   ["m.jpg.json".toList],
   [("P/json-repository/m.jpg.json".toList,
     ⟨TsVal.tstr "999999999999999".toList, TsVal.tnull, none, none⟩)],
   none,
   [("P/takeout-archives/a.zip".toList,
     ⟨true, [("W/m.jpg".toList, ⟨[], none, ".jpg".toList, none, none, false, false⟩)]⟩)],
   false⟩

/-- Live-run arguments with no batch, archive name, or cleanup flags. -/
def liveArgs : Args := ⟨true, none, none, false, false, false⟩

/-- C4 counterexample: the file `W/m.jpg` errors (it is logged as an error,
never recorded in the per-file ledger), yet the archive's work-item ledger
entry is still appended - the archive is marked processed while a file
remains pending. -/
theorem C4_counterexample :
    Eff.appendWorkItem ("archive:a.zip".toList) ∈
      (run_pass2 sampleCfg liveErrEnv liveArgs).effs ∧
    Eff.logMsg ("ERROR processing ".toList ++ "m.jpg".toList) ∈
      (run_pass2 sampleCfg liveErrEnv liveArgs).effs ∧
    Eff.appendProcessedFile "W/m.jpg".toList ∉
      (run_pass2 sampleCfg liveErrEnv liveArgs).effs := by
  decide

/-- C4 (amended): the work-item ledger entry of an archive is appended only
in live runs whose extraction succeeded, carries the archive's normalized
key, and is placed strictly after every effect of the archive's per-file
processing; when that processing counted zero errors, every contained media
file has reached a terminal state (it is in the final processed set).
Files whose processing raised an error do not block the entry. -/
theorem C4_workitem_after_files :
    (∀ cfg args lookup js multi path aenv processed k,
       Eff.appendWorkItem k ∈
         (processArchiveItem cfg args lookup js multi path aenv processed).1 →
       k = normalize_archive_key (basenameFn path) ∧ args.isLive = true ∧
       aenv.extractOk = true) ∧
    (∀ cfg args lookup js multi path aenv processed,
       args.isLive = true → aenv.extractOk = true →
       ∃ pre post,
         (processArchiveItem cfg args lookup js multi path aenv processed).1 =
           pre ++ Eff.appendWorkItem (normalize_archive_key (basenameFn path)) :: post ∧
         ∀ e ∈ (process_media_files cfg lookup js args.isLive MAX_PATH_LENGTH
             (list_media_files_env aenv.files) processed).1, e ∈ pre) ∧
    (∀ cfg lookup js isLive maxLen files processed,
       (process_media_files cfg lookup js isLive maxLen files processed).2.1.nErrors = 0 →
       ∀ m envf, (m, envf) ∈ files →
         m ∈ (process_media_files cfg lookup js isLive maxLen files processed).2.2) := by
  refine ⟨?_, ?_, ?_⟩
  · intro cfg args lookup js multi path aenv processed k h
    unfold processArchiveItem at h
    by_cases hok : aenv.extractOk = false
    · rw [if_pos hok] at h
      simp at h
    · rw [if_neg hok] at h
      have hoktrue : aenv.extractOk = true := by
        cases hb : aenv.extractOk
        · exact absurd hb hok
        · rfl
      rcases List.mem_append.mp h with h | h
      · rcases List.mem_append.mp h with h | h
        · simp at h
        · have hall := allB_process_media_files cfg lookup js args.isLive MAX_PATH_LENGTH
            (list_media_files_env aenv.files) processed
          rw [List.all_eq_true] at hall
          have := hall _ h
          simp [isPerFileEff] at this
      · rcases List.mem_cons.mp h with h | h
        · exact Eff.noConfusion h
        · rcases List.mem_append.mp h with h | h
          · split at h
            next hlive =>
              simp only [List.mem_cons, List.not_mem_nil, or_false] at h
              rcases h with h | h
              · exact Eff.noConfusion h
              · injection h with hk
                exact ⟨hk, hlive, hoktrue⟩
            next hnl => simp at h
          · split at h
            · simp at h
            · simp at h
  · intro cfg args lookup js multi path aenv processed hlive hok
    unfold processArchiveItem
    rw [if_neg (by simp [hok] : ¬(aenv.extractOk = false))]
    rw [if_pos hlive]
    refine ⟨[Eff.logMsg ("Preparing to extract archive".toList),
             Eff.rmtree cfg.extractTargetDir,
             Eff.makedirs cfg.extractTargetDir,
             Eff.extractZip path cfg.extractTargetDir] ++
            (process_media_files cfg lookup js args.isLive MAX_PATH_LENGTH
              (list_media_files_env aenv.files) processed).1 ++
            [Eff.logMsg ("Archive summary".toList),
             Eff.logMsg ("Marking archive as processed".toList)],
            (if args.cleanWorkbench ∨ multi then
              [Eff.logMsg ("Cleaning workbench extraction directory".toList),
               Eff.rmtree cfg.extractTargetDir,
               Eff.makedirs cfg.extractTargetDir]
             else []), ?_, ?_⟩
    · simp [List.append_assoc]
    · intro e he
      exact List.mem_append_left _ (List.mem_append_right _ he)
  · intro cfg lookup js isLive maxLen files processed hz m envf hmem
    exact process_media_files_all_terminal cfg lookup js isLive maxLen files processed
      hz m envf hmem

/-- Witness for C4: an error-free single-file archive processing leaves the
file in the final processed set. -/
theorem C4_witness :
    "W/m.jpg".toList ∈
      (process_media_files sampleCfg [] [] true 240
        [("W/m.jpg".toList,
          ⟨[], some ⟨2020, 5, 10, 17, 39, 0⟩, ".jpg".toList, none, none, false, false⟩)]
        []).2.2 :=
  C4_workitem_after_files.2.2 sampleCfg [] [] true 240
    [("W/m.jpg".toList,
      ⟨[], some ⟨2020, 5, 10, 17, 39, 0⟩, ".jpg".toList, none, none, false, false⟩)]
    [] (by decide) "W/m.jpg".toList
    ⟨[], some ⟨2020, 5, 10, 17, 39, 0⟩, ".jpg".toList, none, none, false, false⟩
    (by decide)

/-! ### String-structure lemmas for candidate generation and matching -/

theorem takeWhile_append_stop (p : Char → Bool) (c : Char) (l₂ : Str) (hc : p c = false) :
    ∀ l₁ : Str, (∀ a ∈ l₁, p a = true) → (l₁ ++ c :: l₂).takeWhile p = l₁ := by
  intro l₁
  induction l₁ with
  | nil => intro _; simp [List.takeWhile_cons, hc]
  | cons a t ih =>
    intro h₁
    have ha := h₁ a (List.mem_cons_self a t)
    simp only [List.cons_append, List.takeWhile_cons, ha, if_true]
    rw [ih (fun b hb => h₁ b (List.mem_cons_of_mem a hb))]

theorem dropWhile_append_stop (p : Char → Bool) (c : Char) (l₂ : Str) (hc : p c = false) :
    ∀ l₁ : Str, (∀ a ∈ l₁, p a = true) → (l₁ ++ c :: l₂).dropWhile p = c :: l₂ := by
  intro l₁
  induction l₁ with
  | nil => intro _; simp [List.dropWhile_cons, hc]
  | cons a t ih =>
    intro h₁
    have ha := h₁ a (List.mem_cons_self a t)
    simp only [List.cons_append, List.dropWhile_cons, ha, if_true]
    exact ih (fun b hb => h₁ b (List.mem_cons_of_mem a hb))

theorem span_append_stop (p : Char → Bool) (l₁ : Str) (c : Char) (l₂ : Str)
    (h₁ : ∀ a ∈ l₁, p a = true) (hc : p c = false) :
    (l₁ ++ c :: l₂).span p = (l₁, c :: l₂) := by
  rw [List.span_eq_take_drop, takeWhile_append_stop p c l₂ hc l₁ h₁,
      dropWhile_append_stop p c l₂ hc l₁ h₁]

theorem span_all_true (p : Char → Bool) (l : Str) (h : ∀ a ∈ l, p a = true) :
    l.span p = (l, []) := by
  rw [List.span_eq_take_drop]
  have h1 : l.takeWhile p = l := List.takeWhile_eq_self_iff.mpr h
  have h2 : l.dropWhile p = [] := List.dropWhile_eq_nil_iff.mpr h
  rw [h1, h2]

/-- `splitAtLastDot` on an explicit last-dot decomposition. -/
theorem splitAtLastDot_eq (pfx e : Str) (hd : ∀ c ∈ e, c ≠ '.') :
    splitAtLastDot (pfx ++ '.' :: e) = some (pfx, e) := by
  simp only [splitAtLastDot]
  have hrev : (pfx ++ '.' :: e).reverse = e.reverse ++ '.' :: pfx.reverse := by
    simp
  rw [hrev, span_append_stop _ _ _ _
    (fun a ha => by
      have := hd a (List.mem_reverse.mp ha)
      simp [this])
    (by simp)]
  simp

theorem parseGroupRev_cons (rest : Str) :
    parseGroupRev (')' :: rest) =
      match (rest.span Char.isDigit).2 with
      | '(' :: before => some (before, (rest.span Char.isDigit).1.reverse)
      | _ => none := rfl

/-- `parseGroupRev` on an explicit reversed group decomposition. -/
theorem parseGroupRev_eq (name ds : Str) (hds : ∀ c ∈ ds, c.isDigit = true) :
    parseGroupRev (')' :: (ds.reverse ++ '(' :: name.reverse)) =
      some (name.reverse, ds) := by
  rw [parseGroupRev_cons]
  rw [span_append_stop _ _ _ _
    (fun a ha => hds a (List.mem_reverse.mp ha))
    (by decide)]
  simp

theorem parseGroupRev_no_rparen (a : Char) (t : Str) (ha : a ≠ ')') :
    parseGroupRev (a :: t) = none := by
  simp only [parseGroupRev]
  split
  next h => exact absurd (List.cons.inj h).1 ha
  next => rfl

theorem parseGroupRev_digits (rp rest ds : Str)
    (h : parseGroupRev rp = some (rest, ds)) : ∀ c ∈ ds, c.isDigit = true := by
  intro c hc
  cases rp with
  | nil => cases h
  | cons a t =>
    by_cases ha : a = ')'
    · subst ha
      rw [parseGroupRev_cons] at h
      split at h
      next before hb =>
        injection h with h1
        cases h1
        have hm : c ∈ (List.span Char.isDigit t).1 := List.mem_reverse.mp hc
        rw [List.span_eq_take_drop] at hm
        exact List.mem_takeWhile_imp hm
      next => cases h
    · rw [parseGroupRev_no_rparen a t ha] at h
      cases h

theorem matchSuffixBeforeExt_some (f n ds ext : Str)
    (h : matchSuffixBeforeExt f = some (n, ds, ext)) :
    (∀ c ∈ ds, c.isDigit = true) ∧ 1 ≤ ds.length ∧ ds.length ≤ 3 := by
  unfold matchSuffixBeforeExt at h
  cases hs : splitAtLastDot f with
  | none => rw [hs] at h; cases h
  | some pe =>
    obtain ⟨p, e⟩ := pe
    simp only [hs] at h
    by_cases he : e = []
    · rw [if_pos he] at h; cases h
    · rw [if_neg he] at h
      cases hp : parseGroupRev p.reverse with
      | none => simp only [hp] at h; cases h
      | some bd =>
        obtain ⟨b, ds'⟩ := bd
        simp only [hp] at h
        split at h
        next hg =>
          rw [Option.some.injEq, Prod.mk.injEq, Prod.mk.injEq] at h
          obtain ⟨hn, hds, hext⟩ := h
          subst hds
          exact ⟨parseGroupRev_digits _ _ _ hp, hg.2.1, hg.2.2⟩
        next => cases h

theorem matchSuffixAfterExt_some (f base ds : Str)
    (h : matchSuffixAfterExt f = some (base, ds)) :
    (∀ c ∈ ds, c.isDigit = true) ∧ 1 ≤ ds.length ∧ ds.length ≤ 3 := by
  unfold matchSuffixAfterExt at h
  cases hp : parseGroupRev f.reverse with
  | none => simp only [hp] at h; cases h
  | some bd =>
    obtain ⟨b, ds'⟩ := bd
    simp only [hp] at h
    split at h
    next hg =>
      cases hs : splitAtLastDot b.reverse with
      | none => simp only [hs] at h; cases h
      | some pe =>
        obtain ⟨p, e⟩ := pe
        simp only [hs] at h
        split at h
        next =>
          rw [Option.some.injEq, Prod.mk.injEq] at h
          obtain ⟨hb, hds⟩ := h
          subst hds
          exact ⟨parseGroupRev_digits _ _ _ hp, hg.1, hg.2⟩
        next => cases h
    next => cases h

theorem extract_google_suffix_eq (name ds e : Str) (hds : ∀ c ∈ ds, c.isDigit = true)
    (hne : ds ≠ []) (he : e ≠ []) (hdot : ∀ c ∈ e, c ≠ '.') :
    extract_google_suffix (name ++ '(' :: ds ++ ')' :: '.' :: e) =
      some ('(' :: ds ++ [')']) := by
  have hassoc : name ++ '(' :: ds ++ ')' :: '.' :: e =
      (name ++ '(' :: ds ++ [')']) ++ '.' :: e := by simp
  rw [hassoc]
  simp only [extract_google_suffix,
    splitAtLastDot_eq (name ++ '(' :: ds ++ [')']) e hdot]
  rw [if_neg he]
  have hrev : (name ++ '(' :: ds ++ [')']).reverse =
      ')' :: (ds.reverse ++ '(' :: name.reverse) := by simp
  rw [hrev]
  simp only [parseGroupRev_eq name ds hds]
  rw [if_neg hne]

theorem matchSuffixBeforeExt_none_long (name ds e : Str)
    (hds : ∀ c ∈ ds, c.isDigit = true) (hlen : ds = [] ∨ 4 ≤ ds.length)
    (hdot : ∀ c ∈ e, c ≠ '.') :
    matchSuffixBeforeExt (name ++ '(' :: ds ++ ')' :: '.' :: e) = none := by
  have hassoc : name ++ '(' :: ds ++ ')' :: '.' :: e =
      (name ++ '(' :: ds ++ [')']) ++ '.' :: e := by simp
  rw [hassoc]
  simp only [matchSuffixBeforeExt,
    splitAtLastDot_eq (name ++ '(' :: ds ++ [')']) e hdot]
  by_cases he : e = []
  · rw [if_pos he]
  · rw [if_neg he]
    have hrev : (name ++ '(' :: ds ++ [')']).reverse =
        ')' :: (ds.reverse ++ '(' :: name.reverse) := by simp
    rw [hrev]
    simp only [parseGroupRev_eq name ds hds]
    rw [if_neg (by
      rintro ⟨-, h1, h2⟩
      rcases hlen with h | h
      · subst h; exact absurd h1 (by decide)
      · omega)]

theorem matchSuffixAfterExt_none_of_no_rparen (name ds e : Str)
    (hrp : ∀ c ∈ e, c ≠ ')') :
    matchSuffixAfterExt (name ++ '(' :: ds ++ ')' :: '.' :: e) = none := by
  have hrev : (name ++ '(' :: ds ++ ')' :: '.' :: e).reverse =
      e.reverse ++ '.' :: ')' :: (ds.reverse ++ '(' :: name.reverse) := by simp
  simp only [matchSuffixAfterExt]
  rw [hrev]
  cases her : e.reverse with
  | nil =>
    rw [List.nil_append, parseGroupRev_no_rparen '.' _ (by decide)]
  | cons a t =>
    have ha : a ≠ ')' := hrp a (List.mem_reverse.mp (her ▸ List.mem_cons_self a t))
    rw [List.cons_append, parseGroupRev_no_rparen a _ ha]

/-- C6 counterexample: `extract_google_suffix` - used by the JSON-repository
indexing - strips the 4-digit group `(2020)` as if it were a duplicate
suffix marker. -/
theorem C6_counterexample :
    extract_google_suffix "IMG_1234(2020).JPG".toList = some "(2020)".toList := by
  decide

/-- C6 (amended): the strict extractor and splitter only ever produce
1-to-3-digit markers, and on a name whose only parenthesised group has 0 or
at least 4 digits they report no suffix; but `extract_google_suffix` accepts
a digit group of any positive length, including 4-digit years. -/
theorem C6_four_digit_not_suffix :
    (∀ f s, extract_strict_media_suffix f = some s →
       ∃ ds, s = '(' :: ds ++ [')'] ∧ (∀ c ∈ ds, c.isDigit = true) ∧
         1 ≤ ds.length ∧ ds.length ≤ 3) ∧
    (∀ name ds e, (∀ c ∈ ds, c.isDigit = true) → (ds = [] ∨ 4 ≤ ds.length) →
       (∀ c ∈ e, c ≠ '.') → (∀ c ∈ e, c ≠ ')') →
       extract_strict_media_suffix (name ++ '(' :: ds ++ ')' :: '.' :: e) = none ∧
       split_media_suffix (name ++ '(' :: ds ++ ')' :: '.' :: e) =
         (name ++ '(' :: ds ++ ')' :: '.' :: e, none, none, none)) ∧
    (∀ name ds e, (∀ c ∈ ds, c.isDigit = true) → ds ≠ [] → e ≠ [] →
       (∀ c ∈ e, c ≠ '.') →
       extract_google_suffix (name ++ '(' :: ds ++ ')' :: '.' :: e) =
         some ('(' :: ds ++ [')'])) := by
  refine ⟨?_, ?_, ?_⟩
  · intro f s h
    unfold extract_strict_media_suffix at h
    cases hb : matchSuffixBeforeExt f with
    | some nde =>
      obtain ⟨n, ds, ext⟩ := nde
      simp only [hb] at h
      obtain ⟨hd, h1, h3⟩ := matchSuffixBeforeExt_some f n ds ext hb
      exact ⟨ds, ((Option.some.injEq _ _).mp h).symm, hd, h1, h3⟩
    | none =>
      simp only [hb] at h
      cases ha : matchSuffixAfterExt f with
      | some bd =>
        obtain ⟨b, ds⟩ := bd
        simp only [ha] at h
        obtain ⟨hd, h1, h3⟩ := matchSuffixAfterExt_some f b ds ha
        exact ⟨ds, ((Option.some.injEq _ _).mp h).symm, hd, h1, h3⟩
      | none => simp only [ha] at h; cases h
  · intro name ds e hds hlen hdot hrp
    have hbe := matchSuffixBeforeExt_none_long name ds e hds hlen hdot
    have haf := matchSuffixAfterExt_none_of_no_rparen name ds e hrp
    constructor
    · simp only [extract_strict_media_suffix, hbe, haf]
    · simp only [split_media_suffix, hbe, haf]
  · intro name ds e hds hne he hdot
    exact extract_google_suffix_eq name ds e hds hne he hdot

/-- Witness for C6: `(2)` is a legal strict marker; `IMG_1234(2020).JPG`
carries none for the strict extractor yet `(2020)` for the google
extractor. -/
theorem C6_witness :
    (∃ ds, "(2)".toList = '(' :: ds ++ [')'] ∧ (∀ c ∈ ds, c.isDigit = true) ∧
       1 ≤ ds.length ∧ ds.length ≤ 3) ∧
    extract_strict_media_suffix
      ("IMG_1234".toList ++ '(' :: "2020".toList ++ ')' :: '.' :: "JPG".toList) = none ∧
    extract_google_suffix
      ("IMG_1234".toList ++ '(' :: "2020".toList ++ ')' :: '.' :: "JPG".toList) =
      some ('(' :: "2020".toList ++ [')']) :=
  ⟨C6_four_digit_not_suffix.1 "IMG_1234(2).JPG".toList "(2)".toList (by decide),
   (C6_four_digit_not_suffix.2.1 "IMG_1234".toList "2020".toList "JPG".toList
     (by decide) (by decide) (by decide) (by decide)).1,
   C6_four_digit_not_suffix.2.2 "IMG_1234".toList "2020".toList "JPG".toList
     (by decide) (by decide) (by decide) (by decide)⟩


theorem markOnly_of_parenFree (ds s : Str) (h : ParenFree s) : MarkOnly ds s := by
  intro p q hs
  exact absurd rfl ((h '(' (hs ▸ List.mem_append_right p (List.mem_cons_self _ _))).1)

theorem markOnly_append (ds a b : Str) (ha : MarkOnly ds a) (hb : MarkOnly ds b) :
    MarkOnly ds (a ++ b) := by
  intro p q h
  rcases List.append_eq_append_iff.mp h with ⟨w, hw1, hw2⟩ | ⟨w, hw1, hw2⟩
  · exact hb w q hw2
  · cases w with
    | nil =>
      exact hb [] q (by simpa using hw2.symm)
    | cons x w' =>
      obtain ⟨hx, hq⟩ := List.cons.inj hw2
      obtain ⟨r', hr'⟩ := ha p w' (by rw [hw1, ← hx])
      exact ⟨r' ++ b, by simp [hq, hr']⟩

theorem markOnly_group (ds : Str) (hds : ∀ c ∈ ds, c.isDigit = true) :
    MarkOnly ds ('(' :: ds ++ [')']) := by
  intro p q h
  cases p with
  | nil =>
    refine ⟨[], ?_⟩
    have := (List.cons.inj h).2
    simpa using this.symm
  | cons a t =>
    exfalso
    obtain ⟨ha, ht⟩ := List.cons.inj h
    have hmem : '(' ∈ ds ++ [')'] := by
      rw [show ds ++ [')'] = t ++ '(' :: q from ht]
      exact List.mem_append_right t (List.mem_cons_self _ _)
    rcases List.mem_append.mp hmem with hm | hm
    · have := hds '(' hm
      simp at this
    · simp at hm

theorem markOnly_of_append_parenFree (ds a b : Str) (hab : MarkOnly ds (a ++ b))
    (hb : ParenFree b) : MarkOnly ds a := by
  intro p q h
  obtain ⟨r, hr⟩ := hab p (q ++ b) (by simp [h])
  have hpre1 : ds ++ [')'] <+: q ++ b := ⟨r, by simp [hr]⟩
  have hpre2 : q <+: q ++ b := List.prefix_append q b
  rcases List.prefix_or_prefix_of_prefix hpre1 hpre2 with hc | hc
  · obtain ⟨t, ht⟩ := hc
    exact ⟨t, by simp [← ht]⟩
  · obtain ⟨w, hw⟩ := hc
    cases w with
    | nil => exact ⟨[], by simpa using hw⟩
    | cons c u =>
      exfalso
      have hwrev : (c :: u).reverse ++ q.reverse = ')' :: ds.reverse := by
        rw [← List.reverse_append, hw]
        simp
      cases h' : (c :: u).reverse with
      | nil => simp at h'
      | cons x v =>
        rw [h', List.cons_append] at hwrev
        have hx : x = ')' := (List.cons.inj hwrev).1
        have hxm : x ∈ c :: u := List.mem_reverse.mp (h' ▸ List.mem_cons_self x v)
        have hbm : x ∈ b := by
          have h1 : q ++ b = q ++ (c :: u ++ r) := by
            rw [hr, show ds ++ ')' :: r = (ds ++ [')']) ++ r by simp, ← hw]
            simp
          rw [List.append_cancel_left h1]
          exact List.mem_append_left r hxm
        exact (hb x hbm).2 hx

theorem span_decomp (p : Char → Bool) (l : Str) :
    l = (l.span p).1 ++ (l.span p).2 := by
  rw [List.span_eq_take_drop]
  exact (List.takeWhile_append_dropWhile _ _).symm

theorem splitext_append (f : Str) : (splitext f).1 ++ (splitext f).2 = f := by
  have hdec := span_decomp (fun c => !decide (c = '.')) f.reverse
  simp only [splitext, ne_eq, decide_not]
  cases hd : (List.span (fun c => !decide (c = '.')) f.reverse).2 with
  | nil => simp
  | cons a t =>
    by_cases ha : a = '.'
    · subst ha
      rw [hd] at hdec
      have hf : t.reverse ++ '.' :: (List.span (fun c => !decide (c = '.')) f.reverse).1.reverse = f := by
        have := congrArg List.reverse hdec
        simpa using this.symm
      rw [List.span_eq_take_drop] at hf
      by_cases hany : ∃ x ∈ t, ¬x = '.'
      · simpa [hany] using hf
      · simp [hany]
    · simp [ha]

theorem parenFree_of_lower_eq (s t : Str) (h : lowerStr s = t)
    (hp : '(' ∉ t) (hq : ')' ∉ t) : ParenFree s := by
  intro c hc
  constructor
  · intro he
    apply hp
    rw [← h]
    exact List.mem_map_of_mem lowerChar (he ▸ hc)
  · intro he
    apply hq
    rw [← h]
    exact List.mem_map_of_mem lowerChar (he ▸ hc)

theorem self_mem_wext (f : Str) : f ∈ with_extension_variants f := by
  simp only [with_extension_variants]
  split
  · exact List.mem_cons_self _ _
  · split
    · exact List.mem_cons_self _ _
    · exact List.mem_cons_self _ _

theorem markOnly_wext (ds f : Str) (hf : MarkOnly ds f) :
    ∀ c ∈ with_extension_variants f, MarkOnly ds c := by
  intro c hc
  simp only [with_extension_variants] at hc
  have hsplit := splitext_append f
  split at hc
  next hjpg =>
    simp only [List.mem_cons, List.not_mem_nil, or_false] at hc
    rcases hc with hc | hc
    · exact hc ▸ hf
    · subst hc
      have hpf : ParenFree (splitext f).2 :=
        parenFree_of_lower_eq _ _ hjpg (by decide) (by decide)
      exact markOnly_append ds _ _
        (markOnly_of_append_parenFree ds _ _ (hsplit.symm ▸ hf) hpf)
        (markOnly_of_parenFree ds _ (by unfold ParenFree; decide))
  next =>
    split at hc
    next hjpeg =>
      simp only [List.mem_cons, List.not_mem_nil, or_false] at hc
      rcases hc with hc | hc
      · exact hc ▸ hf
      · subst hc
        have hpf : ParenFree (splitext f).2 :=
          parenFree_of_lower_eq _ _ hjpeg (by decide) (by decide)
        exact markOnly_append ds _ _
          (markOnly_of_append_parenFree ds _ _ (hsplit.symm ▸ hf) hpf)
          (markOnly_of_parenFree ds _ (by unfold ParenFree; decide))
    next =>
      simp only [List.mem_cons, List.not_mem_nil, or_false] at hc
      exact hc ▸ hf

theorem matchSuffixBeforeExt_eq (name ds e : Str) (hn : name ≠ [])
    (hds : ∀ c ∈ ds, c.isDigit = true) (h1 : 1 ≤ ds.length) (h3 : ds.length ≤ 3)
    (he : e ≠ []) (hdot : ∀ c ∈ e, c ≠ '.') :
    matchSuffixBeforeExt (name ++ '(' :: ds ++ ')' :: '.' :: e) =
      some (name, ds, '.' :: e) := by
  have hassoc : name ++ '(' :: ds ++ ')' :: '.' :: e =
      (name ++ '(' :: ds ++ [')']) ++ '.' :: e := by simp
  rw [hassoc]
  simp only [matchSuffixBeforeExt,
    splitAtLastDot_eq (name ++ '(' :: ds ++ [')']) e hdot]
  rw [if_neg he]
  have hrev : (name ++ '(' :: ds ++ [')']).reverse =
      ')' :: (ds.reverse ++ '(' :: name.reverse) := by simp
  rw [hrev]
  simp only [parseGroupRev_eq name ds hds]
  rw [if_pos ⟨by simpa using hn, h1, h3⟩]
  simp

theorem split_media_suffix_eq (name ds e : Str) (hn : name ≠ [])
    (hds : ∀ c ∈ ds, c.isDigit = true) (h1 : 1 ≤ ds.length) (h3 : ds.length ≤ 3)
    (he : e ≠ []) (hdot : ∀ c ∈ e, c ≠ '.') :
    split_media_suffix (name ++ '(' :: ds ++ ')' :: '.' :: e) =
      (name ++ '.' :: e, some ('(' :: ds ++ [')']),
       some ((name ++ '.' :: e) ++ ('(' :: ds ++ [')'])),
       some (name ++ '(' :: ds ++ ')' :: '.' :: e)) := by
  simp only [split_media_suffix,
    matchSuffixBeforeExt_eq name ds e hn hds h1 h3 he hdot]

theorem parenFree_dotE (e : Str) (hep : ParenFree e) : ParenFree ('.' :: e) := by
  intro c hc
  rcases List.mem_cons.mp hc with rfl | hc
  · exact ⟨by decide, by decide⟩
  · exact hep c hc

theorem parenFree_append (a b : Str) (ha : ParenFree a) (hb : ParenFree b) :
    ParenFree (a ++ b) := by
  intro c hc
  rcases List.mem_append.mp hc with hc | hc
  · exact ha c hc
  · exact hb c hc

theorem candidates_markOnly (name ds e : Str) (hn : name ≠ [])
    (hds : ∀ c ∈ ds, c.isDigit = true) (h1 : 1 ≤ ds.length) (h3 : ds.length ≤ 3)
    (he : e ≠ []) (hdot : ∀ c ∈ e, c ≠ '.')
    (hnp : ParenFree name) (hep : ParenFree e) :
    ∀ c ∈ generate_json_candidates_for_media (name ++ '(' :: ds ++ ')' :: '.' :: e),
      MarkOnly ds c := by
  intro c hc
  simp only [generate_json_candidates_for_media,
    split_media_suffix_eq name ds e hn hds h1 h3 he hdot] at hc
  rw [mem_sortStrings, List.mem_dedup, List.mem_append] at hc
  have hdotE : ParenFree ('.' :: e) := parenFree_dotE e hep
  have hgroup : MarkOnly ds ('(' :: ds ++ [')']) := markOnly_group ds hds
  have hm : MarkOnly ds (name ++ '(' :: ds ++ ')' :: '.' :: e) := by
    have : name ++ '(' :: ds ++ ')' :: '.' :: e =
        (name ++ ('(' :: ds ++ [')'])) ++ '.' :: e := by simp
    rw [this]
    exact markOnly_append ds _ _
      (markOnly_append ds _ _ (markOnly_of_parenFree ds _ hnp) hgroup)
      (markOnly_of_parenFree ds _ hdotE)
  have hbase : MarkOnly ds (name ++ '.' :: e) :=
    markOnly_of_parenFree ds _ (parenFree_append _ _ hnp hdotE)
  have haft : MarkOnly ds ((name ++ '.' :: e) ++ ('(' :: ds ++ [')'])) :=
    markOnly_append ds _ _ hbase hgroup
  have hjson : MarkOnly ds (".json".toList) :=
    markOnly_of_parenFree ds _ (by unfold ParenFree; decide)
  have hsupm : MarkOnly ds (".supplemental-metadata".toList) :=
    markOnly_of_parenFree ds _ (by unfold ParenFree; decide)
  have hsupmj : MarkOnly ds (".supplemental-metadata.json".toList) :=
    markOnly_of_parenFree ds _ (by unfold ParenFree; decide)
  have hsup : MarkOnly ds (".sup".toList) :=
    markOnly_of_parenFree ds _ (by unfold ParenFree; decide)
  have hsupj : MarkOnly ds (".sup.json".toList) :=
    markOnly_of_parenFree ds _ (by unfold ParenFree; decide)
  have hwext : ∀ v, v ∈ (([name ++ '(' :: ds ++ ')' :: '.' :: e,
      (name ++ '.' :: e) ++ ('(' :: ds ++ [')']),
      name ++ '(' :: ds ++ ')' :: '.' :: e].dedup.flatMap
        with_extension_variants)).dedup → MarkOnly ds v := by
    intro v hv
    rw [List.mem_dedup, List.mem_flatMap] at hv
    obtain ⟨w, hw, hv⟩ := hv
    rw [List.mem_dedup] at hw
    have hwm : MarkOnly ds w := by
      rcases List.mem_cons.mp hw with rfl | hw
      · exact hm
      · rcases List.mem_cons.mp hw with rfl | hw
        · exact haft
        · rcases List.mem_cons.mp hw with rfl | hw
          · exact hm
          · cases hw
    exact markOnly_wext ds w hwm v hv
  rcases hc with hc | hc
  · rw [List.mem_map] at hc
    obtain ⟨v, hv, rfl⟩ := hc
    exact markOnly_append ds _ _ (hwext v hv) hjson
  · rw [List.mem_append] at hc
    rcases hc with hc | hc
    · rw [List.mem_flatMap] at hc
      obtain ⟨b, hb, hcm⟩ := hc
      have hbm : MarkOnly ds b := markOnly_wext ds _ hbase b hb
      simp only [List.mem_cons, List.not_mem_nil, or_false] at hcm
      rcases hcm with rfl | rfl
      · exact markOnly_append ds _ _
          (markOnly_append ds _ _ (markOnly_append ds _ _ hbm hsupm) hgroup) hjson
      · exact markOnly_append ds _ _
          (markOnly_append ds _ _ (markOnly_append ds _ _ hbm hsup) hgroup) hjson
    · rw [List.mem_flatMap] at hc
      obtain ⟨v, hv, hcm⟩ := hc
      have hvm : MarkOnly ds v := hwext v hv
      simp only [List.mem_cons, List.not_mem_nil, or_false] at hcm
      rcases hcm with rfl | rfl | rfl | rfl
      · exact markOnly_append ds _ _ hvm hsupmj
      · exact markOnly_append ds _ _
          (markOnly_append ds _ _ (markOnly_append ds _ _ hvm hsupm) hgroup) hjson
      · exact markOnly_append ds _ _ hvm hsupj
      · exact markOnly_append ds _ _
          (markOnly_append ds _ _ (markOnly_append ds _ _ hvm hsup) hgroup) hjson

theorem candidates_contain_placements (name ds e : Str) (hn : name ≠ [])
    (hds : ∀ c ∈ ds, c.isDigit = true) (h1 : 1 ≤ ds.length) (h3 : ds.length ≤ 3)
    (he : e ≠ []) (hdot : ∀ c ∈ e, c ≠ '.') :
    (name ++ '(' :: ds ++ ')' :: '.' :: e) ++ ".json".toList ∈
      generate_json_candidates_for_media (name ++ '(' :: ds ++ ')' :: '.' :: e) ∧
    (name ++ '.' :: e) ++ ('(' :: ds ++ [')']) ++ ".json".toList ∈
      generate_json_candidates_for_media (name ++ '(' :: ds ++ ')' :: '.' :: e) := by
  simp only [generate_json_candidates_for_media,
    split_media_suffix_eq name ds e hn hds h1 h3 he hdot]
  constructor
  · rw [mem_sortStrings, List.mem_dedup, List.mem_append]
    left
    rw [List.mem_map]
    refine ⟨name ++ '(' :: ds ++ ')' :: '.' :: e, ?_, rfl⟩
    rw [List.mem_dedup, List.mem_flatMap]
    exact ⟨name ++ '(' :: ds ++ ')' :: '.' :: e, by simp, self_mem_wext _⟩
  · rw [mem_sortStrings, List.mem_dedup, List.mem_append]
    left
    rw [List.mem_map]
    refine ⟨(name ++ '.' :: e) ++ ('(' :: ds ++ [')']), ?_, rfl⟩
    rw [List.mem_dedup, List.mem_flatMap]
    exact ⟨(name ++ '.' :: e) ++ ('(' :: ds ++ [')']), by simp, self_mem_wext _⟩

theorem rparen_free_prefix_eq (l₁ : Str) :
    ∀ l₂ r₁ r₂ : Str, l₁ ++ ')' :: r₁ = l₂ ++ ')' :: r₂ →
    (∀ c ∈ l₁, c ≠ ')') → (∀ c ∈ l₂, c ≠ ')') → l₁ = l₂ := by
  induction l₁ with
  | nil =>
    intro l₂ r₁ r₂ h h₁ h₂
    cases l₂ with
    | nil => rfl
    | cons b u =>
      exfalso
      rw [List.nil_append, List.cons_append] at h
      exact h₂ b (List.mem_cons_self _ _) ((List.cons.inj h).1).symm
  | cons a t ih =>
    intro l₂ r₁ r₂ h h₁ h₂
    cases l₂ with
    | nil =>
      exfalso
      rw [List.nil_append, List.cons_append] at h
      exact h₁ a (List.mem_cons_self _ _) (List.cons.inj h).1
    | cons b u =>
      rw [List.cons_append, List.cons_append] at h
      obtain ⟨hab, ht⟩ := List.cons.inj h
      rw [hab, ih u r₁ r₂ ht
        (fun c hc => h₁ c (List.mem_cons_of_mem a hc))
        (fun c hc => h₂ c (List.mem_cons_of_mem b hc))]

theorem parseGroupRev_some_lparen (rp : Str) (x : Str × Str)
    (h : parseGroupRev rp = some x) : '(' ∈ rp := by
  cases rp with
  | nil => cases h
  | cons a t =>
    by_cases ha : a = ')'
    · subst ha
      rw [parseGroupRev_cons] at h
      split at h
      next before hb =>
        have hdec := span_decomp Char.isDigit t
        rw [hb] at hdec
        exact List.mem_cons_of_mem _
          (hdec ▸ List.mem_append_right _ (List.mem_cons_self _ _))
      next => cases h
    · rw [parseGroupRev_no_rparen a t ha] at h
      cases h

theorem splitAtLastDot_some (f p e : Str) (h : splitAtLastDot f = some (p, e)) :
    f = p ++ '.' :: e := by
  simp only [splitAtLastDot] at h
  split at h
  next pRev hd =>
    rw [Option.some.injEq, Prod.mk.injEq] at h
    obtain ⟨hp, he⟩ := h
    have hdec := span_decomp (fun c => decide ¬(c = '.')) f.reverse
    rw [hd] at hdec
    have := congrArg List.reverse hdec
    simp only [List.reverse_reverse, List.reverse_append, List.reverse_cons] at this
    rw [this, ← hp, ← he]
    simp
  next => cases h

theorem matchSuffixBeforeExt_none_noLparen (f : Str) (h : '(' ∉ f) :
    matchSuffixBeforeExt f = none := by
  unfold matchSuffixBeforeExt
  cases hs : splitAtLastDot f with
  | none => rfl
  | some pe =>
    obtain ⟨p, e⟩ := pe
    by_cases he : e = []
    · simp [he]
    · cases hp : parseGroupRev p.reverse with
      | none => simp [he, hp]
      | some bd =>
        exfalso
        apply h
        rw [splitAtLastDot_some f p e hs]
        exact List.mem_append_left _
          (List.mem_reverse.mp (parseGroupRev_some_lparen _ _ hp))

theorem matchSuffixAfterExt_none_noLparen (f : Str) (h : '(' ∉ f) :
    matchSuffixAfterExt f = none := by
  unfold matchSuffixAfterExt
  cases hp : parseGroupRev f.reverse with
  | none => rfl
  | some bd =>
    exact absurd (List.mem_reverse.mp (parseGroupRev_some_lparen _ _ hp)) h

theorem split_media_suffix_noLparen (f : Str) (h : '(' ∉ f) :
    split_media_suffix f = (f, none, none, none) := by
  simp only [split_media_suffix, matchSuffixBeforeExt_none_noLparen f h,
    matchSuffixAfterExt_none_noLparen f h]

theorem lparenFree_wext (f : Str) (h : ∀ c ∈ f, c ≠ '(') :
    ∀ v ∈ with_extension_variants f, ∀ a ∈ v, a ≠ '(' := by
  intro v hv a ha
  simp only [with_extension_variants] at hv
  have hse := splitext_append f
  have hse1 : ∀ c ∈ (splitext f).1, c ≠ '(' := by
    intro c hc
    exact h c (hse ▸ List.mem_append_left _ hc)
  split at hv
  · simp only [List.mem_cons, List.not_mem_nil, or_false] at hv
    rcases hv with rfl | rfl
    · exact h a ha
    · rcases List.mem_append.mp ha with ha | ha
      · exact hse1 a ha
      · intro he; subst he; simp at ha
  · split at hv
    · simp only [List.mem_cons, List.not_mem_nil, or_false] at hv
      rcases hv with rfl | rfl
      · exact h a ha
      · rcases List.mem_append.mp ha with ha | ha
        · exact hse1 a ha
        · intro he; subst he; simp at ha
    · simp only [List.mem_cons, List.not_mem_nil, or_false] at hv
      subst hv
      exact h a ha

theorem candidates_lparenFree (m : Str) (h : ∀ c ∈ m, c ≠ '(') :
    ∀ c ∈ generate_json_candidates_for_media m, ∀ a ∈ c, a ≠ '(' := by
  intro c hc a ha
  simp only [generate_json_candidates_for_media,
    split_media_suffix_noLparen m (fun hm => h '(' hm rfl)] at hc
  rw [mem_sortStrings, List.mem_dedup, List.mem_append] at hc
  rcases hc with hc | hc
  · rw [List.mem_map] at hc
    obtain ⟨v, hv, rfl⟩ := hc
    rw [List.mem_dedup, List.mem_flatMap] at hv
    obtain ⟨w, hw, hv⟩ := hv
    simp only [List.mem_dedup, List.mem_cons, List.not_mem_nil, or_false] at hw
    subst hw
    rcases List.mem_append.mp ha with ha | ha
    · exact lparenFree_wext _ h v hv a ha
    · intro he; subst he; simp at ha
  · rw [List.mem_flatMap] at hc
    obtain ⟨v, hv, hcm⟩ := hc
    rw [List.mem_dedup, List.mem_flatMap] at hv
    obtain ⟨w, hw, hv⟩ := hv
    simp only [List.mem_dedup, List.mem_cons, List.not_mem_nil, or_false] at hw
    subst hw
    have hvf := lparenFree_wext _ h v hv
    simp only [List.mem_cons, List.not_mem_nil, or_false] at hcm
    rcases hcm with rfl | rfl
    · rcases List.mem_append.mp ha with ha | ha
      · exact hvf a ha
      · intro he; subst he; simp at ha
    · rcases List.mem_append.mp ha with ha | ha
      · exact hvf a ha
      · intro he; subst he; simp at ha

/-- C2: candidate generation uses only the media file's own duplicate
suffix: for media `name(N).ext` both placements `name(N).ext.json` and
`name.ext(N).json` are generated; every parenthesised digit group occurring
anywhere in any candidate is exactly `(N)`; and for a media name containing
no `(` at all, no candidate contains a `(` marker. -/
theorem C2_candidate_markers :
    (∀ name ds e, name ≠ [] → (∀ c ∈ ds, c.isDigit = true) →
       1 ≤ ds.length → ds.length ≤ 3 → e ≠ [] → (∀ c ∈ e, c ≠ '.') →
       ParenFree name → ParenFree e →
       ((name ++ '(' :: ds ++ ')' :: '.' :: e) ++ ".json".toList ∈
          generate_json_candidates_for_media (name ++ '(' :: ds ++ ')' :: '.' :: e) ∧
        (name ++ '.' :: e) ++ ('(' :: ds ++ [')']) ++ ".json".toList ∈
          generate_json_candidates_for_media (name ++ '(' :: ds ++ ')' :: '.' :: e)) ∧
       ∀ c ∈ generate_json_candidates_for_media (name ++ '(' :: ds ++ ')' :: '.' :: e),
         ∀ p ms q, c = p ++ '(' :: ms ++ ')' :: q → (∀ a ∈ ms, a ≠ ')') → ms = ds) ∧
    (∀ m, (∀ c ∈ m, c ≠ '(') →
       ∀ c ∈ generate_json_candidates_for_media m, ∀ a ∈ c, a ≠ '(') := by
  refine ⟨?_, candidates_lparenFree⟩
  intro name ds e hn hds h1 h3 he hdot hnp hep
  refine ⟨candidates_contain_placements name ds e hn hds h1 h3 he hdot, ?_⟩
  intro c hc p ms q hceq hms
  have hmo := candidates_markOnly name ds e hn hds h1 h3 he hdot hnp hep c hc
  obtain ⟨r, hr⟩ := hmo p (ms ++ ')' :: q) (by rw [hceq]; simp)
  exact rparen_free_prefix_eq ms ds q r hr hms
    (fun a ha hpr => by
      have hda := hds a ha
      rw [hpr] at hda
      exact absurd hda (by decide))

/-- Witness for C2 at `IMG_1234(2).JPG` (both placements) and at the
suffixless `IMG.JPG` (no marker generated). -/
theorem C2_witness :
    (("IMG_1234".toList ++ '(' :: "2".toList ++ ')' :: '.' :: "JPG".toList) ++
        ".json".toList ∈
      generate_json_candidates_for_media
        ("IMG_1234".toList ++ '(' :: "2".toList ++ ')' :: '.' :: "JPG".toList) ∧
     ("IMG_1234".toList ++ '.' :: "JPG".toList) ++ ('(' :: "2".toList ++ [')']) ++
        ".json".toList ∈
      generate_json_candidates_for_media
        ("IMG_1234".toList ++ '(' :: "2".toList ++ ')' :: '.' :: "JPG".toList)) ∧
    (∀ c ∈ generate_json_candidates_for_media "IMG.JPG".toList, ∀ a ∈ c, a ≠ '(') :=
  ⟨(C2_candidate_markers.1 "IMG_1234".toList "2".toList "JPG".toList
      (by decide) (by decide) (by decide) (by decide) (by decide) (by decide)
      (by unfold ParenFree; decide) (by unfold ParenFree; decide)).1,
   C2_candidate_markers.2 "IMG.JPG".toList (by decide)⟩

theorem matchGo_spec (lookup : Dict) (cs : List Str) :
    (∀ path ∈ (matchGo lookup cs).1, ∃ c ∈ cs,
       dictGet lookup (lowerStr c) = some path ∧
       is_supplemental_json_name c = false) ∧
    (∀ path ∈ (matchGo lookup cs).2, ∃ c ∈ cs,
       dictGet lookup (lowerStr c) = some path ∧
       is_supplemental_json_name c = true) := by
  induction cs with
  | nil => exact ⟨fun p hp => absurd hp (List.not_mem_nil p),
                  fun p hp => absurd hp (List.not_mem_nil p)⟩
  | cons c cs ih =>
    constructor
    · intro path hp
      simp only [matchGo] at hp
      cases hd : dictGet lookup (lowerStr c) with
      | none =>
        simp only [hd] at hp
        obtain ⟨c', hc', h1, h2⟩ := ih.1 path hp
        exact ⟨c', List.mem_cons_of_mem c hc', h1, h2⟩
      | some q =>
        simp only [hd] at hp
        by_cases hsup : is_supplemental_json_name c = true
        · rw [if_pos hsup] at hp
          obtain ⟨c', hc', h1, h2⟩ := ih.1 path hp
          exact ⟨c', List.mem_cons_of_mem c hc', h1, h2⟩
        · rw [if_neg hsup] at hp
          rcases List.mem_cons.mp hp with rfl | hp
          · exact ⟨c, List.mem_cons_self _ _, hd, Bool.not_eq_true _ ▸ hsup⟩
          · obtain ⟨c', hc', h1, h2⟩ := ih.1 path hp
            exact ⟨c', List.mem_cons_of_mem c hc', h1, h2⟩
    · intro path hp
      simp only [matchGo] at hp
      cases hd : dictGet lookup (lowerStr c) with
      | none =>
        simp only [hd] at hp
        obtain ⟨c', hc', h1, h2⟩ := ih.2 path hp
        exact ⟨c', List.mem_cons_of_mem c hc', h1, h2⟩
      | some q =>
        simp only [hd] at hp
        by_cases hsup : is_supplemental_json_name c = true
        · rw [if_pos hsup] at hp
          rcases List.mem_cons.mp hp with rfl | hp
          · exact ⟨c, List.mem_cons_self _ _, hd, hsup⟩
          · obtain ⟨c', hc', h1, h2⟩ := ih.2 path hp
            exact ⟨c', List.mem_cons_of_mem c hc', h1, h2⟩
        · rw [if_neg hsup] at hp
          obtain ⟨c', hc', h1, h2⟩ := ih.2 path hp
          exact ⟨c', List.mem_cons_of_mem c hc', h1, h2⟩

theorem dictGet_build_json_lookup (dir : Str) (listing : List Str) (k path : Str)
    (h : dictGet (build_json_lookup dir listing) k = some path) :
    ∃ f ∈ listing, path = dir ++ '/' :: f ∧ lowerStr f = k := by
  induction listing with
  | nil => cases h
  | cons f rest ih =>
    simp only [build_json_lookup, List.filter_cons] at h ih
    by_cases hj : endsWithB ".json".toList (lowerStr f) = true
    · rw [if_pos hj] at h
      simp only [List.map_cons, dictGet] at h
      cases hr : dictGet ((rest.filter fun f => endsWithB ".json".toList (lowerStr f)).map
          fun f => (lowerStr f, dir ++ '/' :: f)) k with
      | some v2 =>
        simp only [hr, Option.some.injEq] at h
        obtain rfl := h
        obtain ⟨g, hg, h1, h2⟩ := ih hr
        exact ⟨g, List.mem_cons_of_mem f hg, h1, h2⟩
      | none =>
        simp only [hr] at h
        by_cases hk : lowerStr f = k
        · rw [if_pos hk, Option.some.injEq] at h
          exact ⟨f, List.mem_cons_self _ _, h.symm, hk⟩
        · rw [if_neg hk] at h
          cases h
    · rw [if_neg hj] at h
      obtain ⟨g, hg, h1, h2⟩ := ih h
      exact ⟨g, List.mem_cons_of_mem f hg, h1, h2⟩

theorem basenameFn_append (dir f : Str) (hf : ∀ c ∈ f, c ≠ '/') :
    basenameFn (dir ++ '/' :: f) = f := by
  unfold basenameFn
  rw [show (dir ++ '/' :: f).reverse = f.reverse ++ '/' :: dir.reverse by simp]
  rw [takeWhile_append_stop _ '/' dir.reverse (by decide) f.reverse
    (fun a ha => by
      have := hf a (List.mem_reverse.mp ha)
      simp [this])]
  simp

theorem lowerStr_append (a b : Str) : lowerStr (a ++ b) = lowerStr a ++ lowerStr b :=
  List.map_append lowerChar a b

theorem lowerChar_digit (c : Char) (h : c.isDigit = true) : lowerChar c = c := by
  unfold lowerChar
  rw [if_neg]
  rintro ⟨h1, -⟩
  simp only [Char.isDigit, Bool.and_eq_true, decide_eq_true_eq] at h
  have h2 := h.2
  rw [Char.le_def, UInt32.le_def, BitVec.le_def] at h1
  rw [UInt32.le_def, BitVec.le_def] at h2
  simp at h1 h2
  omega

theorem lowerStr_digits : ∀ ds : Str, (∀ c ∈ ds, c.isDigit = true) → lowerStr ds = ds := by
  intro ds
  induction ds with
  | nil => intro _; rfl
  | cons c t ih =>
    intro h
    show lowerChar c :: lowerStr t = c :: t
    rw [lowerChar_digit c (h c (List.mem_cons_self _ _)),
        ih (fun a ha => h a (List.mem_cons_of_mem c ha))]

theorem lowerStr_group (ds : Str) (hds : ∀ c ∈ ds, c.isDigit = true) :
    lowerStr ('(' :: ds ++ [')']) = '(' :: ds ++ [')'] := by
  show lowerChar '(' :: lowerStr (ds ++ [')']) = '(' :: ds ++ [')']
  rw [lowerStr_append, lowerStr_digits ds hds,
      show lowerStr [')'] = [')'] from by decide]
  rfl

theorem endsWithB_append_self (p x : Str) : endsWithB p (x ++ p) = true := by
  unfold endsWithB
  rw [show (x ++ p).reverse = p.reverse ++ x.reverse by simp]
  exact (startsWithB_iff _ _).mpr ⟨x.reverse, rfl⟩

theorem stripSuffixStr_append (p x : Str) : stripSuffixStr p (x ++ p) = some x := by
  unfold stripSuffixStr
  rw [if_pos (endsWithB_append_self p x)]
  congr 1
  rw [List.length_append, show x.length + p.length - p.length = x.length from by omega]
  exact List.take_left x p

theorem extract_google_suffix_some (f s : Str) (h : extract_google_suffix f = some s) :
    ∃ ds, s = '(' :: ds ++ [')'] ∧ (∀ c ∈ ds, c.isDigit = true) ∧ ds ≠ [] := by
  unfold extract_google_suffix at h
  cases hs : splitAtLastDot f with
  | none => rw [hs] at h; cases h
  | some pe =>
    obtain ⟨p, e⟩ := pe
    simp only [hs] at h
    by_cases he : e = []
    · rw [if_pos he] at h; cases h
    · rw [if_neg he] at h
      cases hp : parseGroupRev p.reverse with
      | none => simp only [hp] at h; cases h
      | some bd =>
        obtain ⟨b, ds⟩ := bd
        simp only [hp] at h
        by_cases hd : ds = []
        · rw [if_pos hd] at h; cases h
        · rw [if_neg hd, Option.some.injEq] at h
          exact ⟨ds, h.symm, parseGroupRev_digits _ _ _ hp, hd⟩

theorem firstGoogle_some (vs : List Str) (s b : Str) (h : firstGoogle vs = some (s, b)) :
    ∃ ds, s = '(' :: ds ++ [')'] ∧ (∀ c ∈ ds, c.isDigit = true) ∧ ds ≠ [] := by
  induction vs with
  | nil => cases h
  | cons v vs ih =>
    simp only [firstGoogle] at h
    cases hg : extract_google_suffix v with
    | none =>
      simp only [hg] at h
      exact ih h
    | some s' =>
      simp only [hg, Option.some.injEq, Prod.mk.injEq] at h
      obtain ⟨ds, h1, h2, h3⟩ := extract_google_suffix_some v s' hg
      exact ⟨ds, h.1 ▸ h1, h2, h3⟩

theorem endsWithSupJson_sup (L ds : Str) (hds : ∀ c ∈ ds, c.isDigit = true)
    (hne : ds ≠ []) :
    endsWithSupJson (L ++ ".sup".toList ++ ('(' :: ds ++ [')']) ++ ".json".toList) = true := by
  unfold endsWithSupJson
  rw [Bool.or_eq_true]
  right
  simp only [stripSuffixStr_append]
  rw [show (L ++ ".sup".toList ++ ('(' :: ds ++ [')'])).reverse =
      ')' :: (ds.reverse ++ '(' :: (L ++ ".sup".toList).reverse) by simp]
  simp only [parseGroupRev_eq (L ++ ".sup".toList) ds hds]
  rw [List.reverse_reverse]
  simp [hne, endsWithB_append_self]

theorem is_supp_supmeta_mid (b suf tail : Str) :
    is_supplemental_json_name
      (b ++ ".supplemental-metadata".toList ++ suf ++ tail) = true := by
  unfold is_supplemental_json_name
  rw [Bool.or_eq_true]
  left
  apply (hasSubB_iff _ _).mpr
  refine ⟨lowerStr b, lowerStr suf ++ lowerStr tail, ?_⟩
  rw [lowerStr_append, lowerStr_append, lowerStr_append,
      show lowerStr ".supplemental-metadata".toList =
        ".supplemental-metadata".toList from by decide]
  simp

theorem is_supp_supmetajson (v : Str) :
    is_supplemental_json_name (v ++ ".supplemental-metadata.json".toList) = true := by
  unfold is_supplemental_json_name
  rw [Bool.or_eq_true]
  left
  apply (hasSubB_iff _ _).mpr
  refine ⟨lowerStr v, ".json".toList, ?_⟩
  rw [lowerStr_append,
      show lowerStr ".supplemental-metadata.json".toList =
        ".supplemental-metadata".toList ++ ".json".toList from by decide]
  simp

theorem is_supp_supjson (v : Str) :
    is_supplemental_json_name (v ++ ".sup.json".toList) = true := by
  unfold is_supplemental_json_name
  rw [Bool.or_eq_true]
  right
  unfold endsWithSupJson
  rw [Bool.or_eq_true]
  left
  rw [lowerStr_append, show lowerStr ".sup.json".toList = ".sup.json".toList from by decide]
  exact endsWithB_append_self _ _

theorem is_supp_sup_group (b ds : Str) (hds : ∀ c ∈ ds, c.isDigit = true)
    (hne : ds ≠ []) :
    is_supplemental_json_name
      (b ++ ".sup".toList ++ ('(' :: ds ++ [')']) ++ ".json".toList) = true := by
  unfold is_supplemental_json_name
  rw [Bool.or_eq_true]
  right
  rw [lowerStr_append, lowerStr_append, lowerStr_append,
      show lowerStr ".sup".toList = ".sup".toList from by decide,
      show lowerStr ".json".toList = ".json".toList from by decide,
      lowerStr_group ds hds]
  exact endsWithSupJson_sup (lowerStr b) ds hds hne

theorem find_all_supplemental_exact (bn : Str) (idx : SuppIndex) :
    ∃ (key : Str) (expected : List Str),
      find_all_supplemental_for_basename bn idx =
        (indexGet idx key).filter
          (fun p => lowerStr (basenameFn p) ∈ expected.map lowerStr) ∧
      ∀ x ∈ expected, is_supplemental_json_name x = true := by
  cases hfg : firstGoogle (normalize_title_variants bn) with
  | none =>
    refine ⟨lowerStr bn,
      ((normalize_title_variants bn).flatMap
        (fun v => [v ++ ".supplemental-metadata.json".toList,
                   v ++ ".sup.json".toList])).dedup, ?_, ?_⟩
    · simp only [find_all_supplemental_for_basename, hfg, Option.map_none']
      by_cases hc : indexGet idx (lowerStr bn) = []
      · rw [if_pos hc, hc, List.filter_nil]
      · rw [if_neg hc]
    · intro x hx
      rw [List.mem_dedup, List.mem_flatMap] at hx
      obtain ⟨v, hv, hx⟩ := hx
      simp only [List.mem_cons, List.not_mem_nil, or_false] at hx
      rcases hx with rfl | rfl
      · exact is_supp_supmetajson v
      · exact is_supp_supjson v
  | some sb =>
    obtain ⟨s, b⟩ := sb
    obtain ⟨ds, rfl, hds, hne⟩ := firstGoogle_some _ _ _ hfg
    refine ⟨lowerStr (if b = [] then bn else b),
      ((normalize_title_variants (if b = [] then bn else b)).flatMap
        (fun b2 => [b2 ++ ".supplemental-metadata".toList ++ ('(' :: ds ++ [')']) ++ ".json".toList,
                    b2 ++ ".sup".toList ++ ('(' :: ds ++ [')']) ++ ".json".toList]) ++
       (normalize_title_variants bn ++
          [(if b = [] then bn else b) ++ ('(' :: ds ++ [')'])]).dedup.flatMap
        (fun v => [v ++ ".supplemental-metadata.json".toList,
                   v ++ ".supplemental-metadata".toList ++ ('(' :: ds ++ [')']) ++ ".json".toList,
                   v ++ ".sup.json".toList,
                   v ++ ".sup".toList ++ ('(' :: ds ++ [')']) ++ ".json".toList])).dedup,
      ?_, ?_⟩
    · simp only [find_all_supplemental_for_basename, hfg, Option.map_some']
      by_cases hc : indexGet idx (lowerStr (if b = [] then bn else b)) = []
      · rw [if_pos hc, hc, List.filter_nil]
      · rw [if_neg hc]
    · intro x hx
      rw [List.mem_dedup, List.mem_append] at hx
      rcases hx with hx | hx
      · rw [List.mem_flatMap] at hx
        obtain ⟨b2, hb2, hx⟩ := hx
        simp only [List.mem_cons, List.not_mem_nil, or_false] at hx
        rcases hx with rfl | rfl
        · exact is_supp_supmeta_mid b2 _ _
        · exact is_supp_sup_group b2 ds hds hne
      · rw [List.mem_flatMap] at hx
        obtain ⟨v, hv, hx⟩ := hx
        simp only [List.mem_cons, List.not_mem_nil, or_false] at hx
        rcases hx with rfl | rfl | rfl | rfl
        · exact is_supp_supmetajson v
        · exact is_supp_supmeta_mid v _ _
        · exact is_supp_supjson v
        · exact is_supp_sup_group v ds hds hne

/-- C8: matching is exact-candidate only. Every path the matcher returns
over a lookup built from a directory listing has a basename equal
(case-insensitively) to one of the generated candidate names, is bucketed
as supplemental exactly by the supplemental-marker predicate, and the
supplemental lookup filters an indexed bucket against exact expected names
(all of supplemental form), returning the empty list when none matches. -/
theorem C8_exact_matching :
    (∀ dir listing m path,
       (∀ f ∈ listing, ∀ c ∈ f, c ≠ '/') →
       path ∈ (match_json_for_media m (build_json_lookup dir listing)).1 →
       ∃ cand ∈ generate_json_candidates_for_media m,
         is_supplemental_json_name cand = false ∧
         lowerStr (basenameFn path) = lowerStr cand) ∧
    (∀ dir listing m path,
       (∀ f ∈ listing, ∀ c ∈ f, c ≠ '/') →
       path ∈ (match_json_for_media m (build_json_lookup dir listing)).2 →
       ∃ cand ∈ generate_json_candidates_for_media m,
         is_supplemental_json_name cand = true ∧
         lowerStr (basenameFn path) = lowerStr cand) ∧
    (∀ bn idx, ∃ (key : Str) (expected : List Str),
       find_all_supplemental_for_basename bn idx =
         (indexGet idx key).filter
           (fun p => lowerStr (basenameFn p) ∈ expected.map lowerStr) ∧
       ∀ x ∈ expected, is_supplemental_json_name x = true) := by
  refine ⟨?_, ?_, find_all_supplemental_exact⟩
  · intro dir listing m path hsl hp
    obtain ⟨cand, hc, hd, hsup⟩ := (matchGo_spec (build_json_lookup dir listing)
      (generate_json_candidates_for_media m)).1 path hp
    obtain ⟨f, hf, rfl, hlow⟩ := dictGet_build_json_lookup dir listing _ _ hd
    refine ⟨cand, hc, hsup, ?_⟩
    rw [basenameFn_append dir f (hsl f hf), hlow]
  · intro dir listing m path hsl hp
    obtain ⟨cand, hc, hd, hsup⟩ := (matchGo_spec (build_json_lookup dir listing)
      (generate_json_candidates_for_media m)).2 path hp
    obtain ⟨f, hf, rfl, hlow⟩ := dictGet_build_json_lookup dir listing _ _ hd
    refine ⟨cand, hc, hsup, ?_⟩
    rw [basenameFn_append dir f (hsl f hf), hlow]

/-- Witness for C8 on a two-file repository listing. -/
theorem C8_witness :
    (∃ cand ∈ generate_json_candidates_for_media "m.jpg".toList,
       is_supplemental_json_name cand = false ∧
       lowerStr (basenameFn "J/m.jpg.json".toList) = lowerStr cand) ∧
    (∃ cand ∈ generate_json_candidates_for_media "m.jpg".toList,
       is_supplemental_json_name cand = true ∧
       lowerStr (basenameFn "J/m.jpg.supplemental-metadata.json".toList) = lowerStr cand) ∧
    (∃ (key : Str) (expected : List Str),
       find_all_supplemental_for_basename "m.jpg".toList [] =
         (indexGet [] key).filter
           (fun p => lowerStr (basenameFn p) ∈ expected.map lowerStr) ∧
       ∀ x ∈ expected, is_supplemental_json_name x = true) :=
  ⟨C8_exact_matching.1 "J".toList
      ["m.jpg.json".toList, "m.jpg.supplemental-metadata.json".toList]
      "m.jpg".toList "J/m.jpg.json".toList (by decide) (by decide),
   C8_exact_matching.2.1 "J".toList
      ["m.jpg.json".toList, "m.jpg.supplemental-metadata.json".toList]
      "m.jpg".toList "J/m.jpg.supplemental-metadata.json".toList (by decide) (by decide),
   C8_exact_matching.2.2 "m.jpg".toList []⟩
